import Mathlib

/-!
# TerarkDB compaction picker: a shallow embedding

Embedding of `db/compaction_picker.h`, followed by the write batch entry
index of `memtable/terark_zip_entry_index.cc`.  Pointers are modelled as `Option`
(`none` is `nullptr`), `uint64_t` values as `Nat`, `int` as `Int`, and a
constructor whose body contains `assert` returns `Except`, the error naming
the assertion that failed.
-/

namespace Terark

/-! ## Data model -/

/-- Address of a `FileMetaData` object; a `FileMetaData*` is an
`Option FileMetaDataAddr`, with `none` for `nullptr`. -/
abbrev FileMetaDataAddr := Nat

/-- The two assertions in the body of the five-argument `SortedRun`
constructor. -/
inductive AssertFailure where
  | compensated_file_size_pos
  | level0_has_file
  deriving DecidableEq, Repr

/-- Mirror of `CompactionPicker::SortedRun` (its six data members). -/
structure SortedRun where
  level : Int
  file : Option FileMetaDataAddr
  size : Nat
  compensated_file_size : Nat
  being_compacted : Bool
  skip_composite : Bool
  deriving DecidableEq, Repr

/-- The default constructor `SortedRun()`: its member initialiser list, empty
body. -/
def SortedRun.SortedRun0 : SortedRun :=
  { level := -1
    file := none
    size := 0
    compensated_file_size := 0
    being_compacted := false
    skip_composite := false }

/-- The constructor `SortedRun(_level, _file, _size, _compensated_file_size,
_being_compacted)`: the member initialiser list, then the two assertions of
the body in source order. -/
def SortedRun.SortedRun5 (_level : Int) (_file : Option FileMetaDataAddr) (_size : Nat)
    (_compensated_file_size : Nat) (_being_compacted : Bool) :
    Except AssertFailure SortedRun :=
  let r : SortedRun :=
    { level := _level
      file := _file
      size := _size
      compensated_file_size := _compensated_file_size
      being_compacted := _being_compacted
      skip_composite := false }
  if ¬ (r.compensated_file_size > 0) then
    Except.error AssertFailure.compensated_file_size_pos
  else if ¬ (r.level ≠ 0 ∨ r.file ≠ none) then
    Except.error AssertFailure.level0_has_file
  else
    Except.ok r

/-- The values the two constructors of `SortedRun` can produce. -/
def SortedRun.Constructed (r : SortedRun) : Prop :=
  r = SortedRun.SortedRun0 ∨
    ∃ (l : Int) (f : Option FileMetaDataAddr) (s c : Nat) (b : Bool),
      SortedRun.SortedRun5 l f s c b = Except.ok r

/-- Modelled from the spec: `FileMetaData` is declared in `db/version_edit.h`,
which is not among the sources.  The spec's data model gives a file its
smallest and largest internal key and its byte size; `addr` is the address of
the object, by which a `FileMetaData*` names it.  The mutable
`being_compacted` flag of the object is kept in `PickerState`, keyed by the
address.  `K` is the type of internal keys, ordered by the configured
comparator. -/
structure FileMetaData (K : Type) where
  addr : FileMetaDataAddr
  smallest : K
  largest : K
  file_size : Nat
  deriving DecidableEq, Repr

/-- Modelled from the spec: `CompactionInputFiles` is declared in
`db/compaction.h`, which is not among the sources; the spec describes it as
an ordered, level-tagged list of files. -/
structure CompactionInputFiles (K : Type) where
  level : Int
  files : List (FileMetaData K)
  deriving DecidableEq, Repr

/-- Modelled from the spec: `Compaction` is declared in `db/compaction.h`,
which is not among the sources.  Of the job descriptor the spec lists, the
picker's registry reads the input file lists per level and the output level;
`addr` is the address of the object, by which a `Compaction*` names it. -/
structure Compaction (K : Type) where
  addr : Nat
  inputs : List (CompactionInputFiles K)
  output_level : Int
  deriving DecidableEq, Repr

/-- The addresses of all input files of a job, over all its levels. -/
def Compaction.input_files {K : Type} (c : Compaction K) : List FileMetaDataAddr :=
  c.inputs.flatMap (fun g => g.files.map (fun f => f.addr))

/-- Whether a job touches level 0: one of its input groups is on level 0 or
its output level is 0. -/
def Compaction.touches_level0 {K : Type} (c : Compaction K) : Bool :=
  c.inputs.any (fun g => decide (g.level = 0)) || decide (c.output_level = 0)

/-- The mutable data a `CompactionPicker` works on: its two registry members
`level0_compactions_in_progress_` and `compactions_in_progress_` (sets of
`Compaction*`, kept as lists without repetition), and the `being_compacted`
flag of the `FileMetaData` object at every address, which the picker flips
under the DB mutex. -/
structure PickerState (K : Type) where
  level0_compactions_in_progress_ : List (Compaction K)
  compactions_in_progress_ : List (Compaction K)
  being_compacted : FileMetaDataAddr → Bool

/-- The state of a freshly constructed picker: both registry members empty,
no file being compacted. -/
def PickerState.initial {K : Type} : PickerState K :=
  { level0_compactions_in_progress_ := []
    compactions_in_progress_ := []
    being_compacted := fun _ => false }

/-- Modelled from the spec: `VersionStorageInfo` is declared in
`db/version_set.h`, which is not among the sources; of the storage-state
snapshot the picker model reads the per-level file lists. -/
structure VersionStorageInfo (K : Type) where
  files_ : List (List (FileMetaData K))

/-- The file list of one level; a level the snapshot does not have is empty. -/
def VersionStorageInfo.LevelFiles {K : Type} (v : VersionStorageInfo K) (level : Int) :
    List (FileMetaData K) :=
  if level < 0 then [] else v.files_.getD level.toNat []

/-- What a `CompactRange` call leaves behind: the returned `Compaction*` and
the values of the out-parameters `*manual_conflict` and `*compaction_end`
after the call, together with the picker state. -/
structure CompactRangeResult (K : Type) where
  job : Option (Compaction K)
  manual_conflict : Bool
  compaction_end : Option K
  state : PickerState K

/-! ## The running-compaction registry -/

/-- Modelled from the spec: the body of `CompactionPicker::RegisterCompaction`
is in `db/compaction_picker.cc`, which is not among the sources.  By the spec
it inserts the job into the registry (into the level-0 collection too when
the job touches level 0) and leaves the job's input files marked
`being_compacted = true`. -/
def CompactionPicker.RegisterCompaction {K : Type} [DecidableEq K] (s : PickerState K)
    (c : Compaction K) : PickerState K :=
  { level0_compactions_in_progress_ :=
      if c.touches_level0 then s.level0_compactions_in_progress_.insert c
      else s.level0_compactions_in_progress_
    compactions_in_progress_ := s.compactions_in_progress_.insert c
    being_compacted := fun a => if a ∈ c.input_files then true else s.being_compacted a }

/-- Modelled from the spec: the body of
`CompactionPicker::UnregisterCompaction` is in `db/compaction_picker.cc`,
which is not among the sources.  By the spec it removes the job from the
registry, and removal clears the `being_compacted` flags of the job's input
files. -/
def CompactionPicker.UnregisterCompaction {K : Type} [DecidableEq K] (s : PickerState K)
    (c : Compaction K) : PickerState K :=
  { level0_compactions_in_progress_ := s.level0_compactions_in_progress_.erase c
    compactions_in_progress_ := s.compactions_in_progress_.erase c
    being_compacted := fun a => if a ∈ c.input_files then false else s.being_compacted a }

/-- Modelled from the spec: the body of
`CompactionPicker::ReleaseCompactionFiles` is in `db/compaction_picker.cc`,
which is not among the sources.  By the spec it is the terminal call on
success and on failure alike: whatever the status, it clears the flags and
removes the job. -/
def CompactionPicker.ReleaseCompactionFiles {K : Type} [DecidableEq K] (s : PickerState K)
    (c : Compaction K) (_status_ok : Bool) : PickerState K :=
  CompactionPicker.UnregisterCompaction s c

/-- The states reachable from a fresh picker through any sequence of
`RegisterCompaction`, `UnregisterCompaction` and `ReleaseCompactionFiles`
calls, with arbitrary arguments. -/
inductive Reachable {K : Type} [DecidableEq K] : PickerState K → Prop where
  | initial : Reachable PickerState.initial
  | register (s : PickerState K) (c : Compaction K) :
      Reachable s → Reachable (CompactionPicker.RegisterCompaction s c)
  | unregister (s : PickerState K) (c : Compaction K) :
      Reachable s → Reachable (CompactionPicker.UnregisterCompaction s c)
  | release (s : PickerState K) (c : Compaction K) (status_ok : Bool) :
      Reachable s → Reachable (CompactionPicker.ReleaseCompactionFiles s c status_ok)

/-- The states reachable from a fresh picker when the callers keep the
discipline the spec describes: a job is registered only if none of its input
files is being compacted, and only a registered job is unregistered or
released. -/
inductive ReachableByDiscipline {K : Type} [DecidableEq K] : PickerState K → Prop where
  | initial : ReachableByDiscipline PickerState.initial
  | register (s : PickerState K) (c : Compaction K) :
      ReachableByDiscipline s →
      (∀ a ∈ c.input_files, s.being_compacted a = false) →
      ReachableByDiscipline (CompactionPicker.RegisterCompaction s c)
  | unregister (s : PickerState K) (c : Compaction K) :
      ReachableByDiscipline s → c ∈ s.compactions_in_progress_ →
      ReachableByDiscipline (CompactionPicker.UnregisterCompaction s c)
  | release (s : PickerState K) (c : Compaction K) (status_ok : Bool) :
      ReachableByDiscipline s → c ∈ s.compactions_in_progress_ →
      ReachableByDiscipline (CompactionPicker.ReleaseCompactionFiles s c status_ok)

/-- No double-booking: the files whose `being_compacted` flag is true are
exactly the input files of the jobs in `compactions_in_progress_`. -/
def NoDoubleBooking {K : Type} (s : PickerState K) : Prop :=
  ∀ a : FileMetaDataAddr,
    s.being_compacted a = true ↔ ∃ c ∈ s.compactions_in_progress_, a ∈ c.input_files

/-! ## Manual compaction of a range -/

/-- Whether the key range of file `f` intersects the requested range
`[begin, end]`; a null `begin` or `end` leaves that side unbounded. -/
def range_overlaps {K : Type} [LinearOrder K] (begin_key end_key : Option K)
    (f : FileMetaData K) : Bool :=
  (match begin_key with
    | none => true
    | some b => decide (b ≤ f.largest)) &&
  (match end_key with
    | none => true
    | some e => decide (f.smallest ≤ e))

/-- Modelled from the spec: the body of `CompactionPicker::CompactRange` is in
`db/compaction_picker.cc`, which is not among the sources; its parameter list
is the one declared in the header, with `job_addr` the address of the
`Compaction` it may allocate.  By the header comment it returns null when no
file of the level overlaps the range.  By the spec, a file is conflicting
when it is marked `being_compacted`; the returned job covers the prefix of
the overlapping files before the first conflicting one; `*compaction_end` is
set to the first key not covered, or to null on full coverage;
`*manual_conflict` is set to true when the range meets a conflicting file;
and when no prefix is free the call yields a null job and leaves the registry
as it was.  A job that is returned is registered.  The spec gives no rule for
`separation_type`, `output_path_id`, `max_subcompactions` and
`files_being_compact`; the model does not read them. -/
def CompactionPicker.CompactRange {MutableCFOptions SeparationType K : Type} [LinearOrder K]
    (s : PickerState K) (_cf_name : String) (_mutable_cf_options : MutableCFOptions)
    (_separation_type : SeparationType) (vstorage : VersionStorageInfo K)
    (input_level output_level : Int) (_output_path_id _max_subcompactions : Nat)
    (begin_key end_key : Option K) (compaction_end : Option K) (manual_conflict : Bool)
    (_files_being_compact : Option (List Nat)) (job_addr : Nat) : CompactRangeResult K :=
  let inputs := (vstorage.LevelFiles input_level).filter (range_overlaps begin_key end_key)
  match inputs with
  | [] =>
    { job := none
      manual_conflict := manual_conflict
      compaction_end := compaction_end
      state := s }
  | _ :: _ =>
    match inputs.takeWhile (fun f => !s.being_compacted f.addr),
        inputs.dropWhile (fun f => !s.being_compacted f.addr) with
    | [], _ =>
      { job := none
        manual_conflict := true
        compaction_end := compaction_end
        state := s }
    | f :: covered, [] =>
      { job := some ⟨job_addr, [⟨input_level, f :: covered⟩], output_level⟩
        manual_conflict := manual_conflict
        compaction_end := none
        state := CompactionPicker.RegisterCompaction s
          ⟨job_addr, [⟨input_level, f :: covered⟩], output_level⟩ }
    | f :: covered, g :: _ =>
      { job := some ⟨job_addr, [⟨input_level, f :: covered⟩], output_level⟩
        manual_conflict := true
        compaction_end := some g.smallest
        state := CompactionPicker.RegisterCompaction s
          ⟨job_addr, [⟨input_level, f :: covered⟩], output_level⟩ }

/-! ## Key ranges -/

/-- One step of the range computation: widen the range `acc` so that it
covers the file `g`. -/
def CompactionPicker.GetRange.cover {K : Type} [LinearOrder K] (acc : K × K)
    (g : FileMetaData K) : K × K :=
  (if g.smallest < acc.1 then g.smallest else acc.1,
   if acc.2 < g.largest then g.largest else acc.2)

/-- Modelled from the spec: the body of `CompactionPicker::GetRange` is in
`db/compaction_picker.cc`, which is not among the sources.  By the spec it
computes the tight key range `[smallest, largest]` covering all files of
`inputs` under the configured comparator (the linear order of `K`), and an
empty `inputs` is a contract violation that aborts (`none`). -/
def CompactionPicker.GetRange {K : Type} [LinearOrder K] (inputs : CompactionInputFiles K) :
    Option (K × K) :=
  match inputs.files with
  | [] => none
  | f :: rest => some (rest.foldl CompactionPicker.GetRange.cover (f.smallest, f.largest))

/-! ## Clean cuts -/

/-- Modelled from the spec: `InternalKey` is declared in `db/dbformat.h`,
which is not among the sources; by the spec an internal key is a user key
with a sequence number and type. -/
structure InternalKey (U : Type) where
  user_key : U
  seq_type : Nat
  deriving DecidableEq, Repr

/-- Two files share a boundary user key when the smallest or largest user
key of one is the smallest or largest user key of the other. -/
def shares_boundary_key {U : Type} [DecidableEq U] (f g : FileMetaData (InternalKey U)) : Bool :=
  decide (f.smallest.user_key = g.smallest.user_key) ||
    decide (f.smallest.user_key = g.largest.user_key) ||
    decide (f.largest.user_key = g.smallest.user_key) ||
    decide (f.largest.user_key = g.largest.user_key)

/-- The files by which the selection `sel` (a list of file addresses) can
grow: the files of the level that are not yet included and share a boundary
user key with an included file of the level.  A file is adjacent to the
selection when they meet in a key, wherever it stands in the file list of the
level. -/
def CompactionPicker.ExpandInputsToCleanCut.candidates {U : Type} [DecidableEq U]
    (level_files : List (FileMetaData (InternalKey U))) (sel : List FileMetaDataAddr) :
    List FileMetaDataAddr :=
  (level_files.filter fun g =>
    decide (g.addr ∉ sel) &&
      level_files.any fun f => decide (f.addr ∈ sel) && shares_boundary_key f g).map
    fun g => g.addr

/-- The growth loop: while a file that is not yet included shares a boundary
key with the selection, include it.  `fuel` bounds the number of rounds; each
round includes one more file of the level. -/
def CompactionPicker.ExpandInputsToCleanCut.grow {U : Type} [DecidableEq U]
    (level_files : List (FileMetaData (InternalKey U))) :
    Nat → List FileMetaDataAddr → List FileMetaDataAddr
  | 0, sel => sel
  | fuel + 1, sel =>
    match CompactionPicker.ExpandInputsToCleanCut.candidates level_files sel with
    | [] => sel
    | a :: _ => CompactionPicker.ExpandInputsToCleanCut.grow level_files fuel (a :: sel)

/-- Modelled from the spec: the body of
`CompactionPicker::ExpandInputsToCleanCut` is in `db/compaction_picker.cc`,
which is not among the sources.  By the spec it grows `inputs` on its own
level outward while the current boundary key is shared with an adjacent,
not-yet-included file, and returns false if the expansion would have to
include a file already marked `being_compacted`; by the comment in the header
it adds files on the level so that no version of a key is left behind, with
no restriction on the level.  "Adjacent" is read in key space: a file that
shares a boundary user key with an included file is added, wherever it stands
in the file list.  The result is the returned flag with the value of
`*inputs` after the call: the files of the level that the grown selection
holds, in the level's order.  The optional out-parameter `next_smallest`, of
which the spec says nothing, is left out. -/
def CompactionPicker.ExpandInputsToCleanCut {U : Type} [DecidableEq U]
    (s : PickerState (InternalKey U)) (_cf_name : String)
    (vstorage : VersionStorageInfo (InternalKey U))
    (inputs : CompactionInputFiles (InternalKey U)) :
    Bool × CompactionInputFiles (InternalKey U) :=
  let level_files := vstorage.LevelFiles inputs.level
  let sel := CompactionPicker.ExpandInputsToCleanCut.grow level_files level_files.length
    (inputs.files.map (fun f => f.addr))
  let expanded : CompactionInputFiles (InternalKey U) :=
    { level := inputs.level, files := level_files.filter (fun f => decide (f.addr ∈ sel)) }
  if expanded.files.any (fun f => s.being_compacted f.addr) then (false, expanded)
  else (true, expanded)

/-- The total byte size of a list of files. -/
def aggregate_size {K : Type} (files : List (FileMetaData K)) : Nat :=
  (files.map (fun f => f.file_size)).sum

/-- The contiguous run of `level_files` that starts at position `run.1` and
has `run.2` files. -/
def FindIntraL0Compaction.span {K : Type} (level_files : List (FileMetaData K))
    (run : Nat × Nat) : List (FileMetaData K) :=
  (level_files.drop run.1).take run.2

/-- Whether a run qualifies: it has at least `min_files_to_compact` files and
its aggregate size does not exceed `max_compact_bytes_per_del_file`. -/
def FindIntraL0Compaction.qualifies {K : Type} (level_files : List (FileMetaData K))
    (min_files_to_compact max_compact_bytes_per_del_file : Nat) (run : Nat × Nat) : Bool :=
  decide (min_files_to_compact ≤ run.2) &&
    decide (aggregate_size (FindIntraL0Compaction.span level_files run) ≤
      max_compact_bytes_per_del_file)

/-- All contiguous runs `(start, length)` of a list of `n` files, the longest
first and, among runs of one length, the most recent (lowest start) first. -/
def FindIntraL0Compaction.runs (n : Nat) : List (Nat × Nat) :=
  (List.range (n + 1)).reverse.flatMap
    (fun len => (List.range (n - len + 1)).map (fun start => (start, len)))

/-- Modelled from the spec: the body of `FindIntraL0Compaction` is in
`db/compaction_picker.cc`, which is not among the sources.  By the spec it
is given the level-0 files ordered by recency, finds the longest contiguous
run of at least `min_files_to_compact` files whose aggregate size does not
exceed `max_compact_bytes_per_del_file`, proposes it in `*comp_inputs` (a
level-0 input group) and returns true; it returns false, leaving
`*comp_inputs` as it was, when no run qualifies.  The result is the returned
flag with the value of `*comp_inputs` after the call. -/
def FindIntraL0Compaction {K : Type} (level_files : List (FileMetaData K))
    (min_files_to_compact max_compact_bytes_per_del_file : Nat)
    (comp_inputs : CompactionInputFiles K) : Bool × CompactionInputFiles K :=
  match (FindIntraL0Compaction.runs level_files.length).find?
      (FindIntraL0Compaction.qualifies level_files min_files_to_compact
        max_compact_bytes_per_del_file) with
  | some run => (true, { level := 0, files := FindIntraL0Compaction.span level_files run })
  | none => (false, comp_inputs)

/-! ## NullCompactionPicker -/

/-- `NullCompactionPicker::PickCompaction`: all five parameters are unnamed
and the body is `return nullptr;`. -/
def NullCompactionPicker.PickCompaction {MutableCFOptions LogBuffer K : Type}
    (_cf_name : String) (_mutable_cf_options : MutableCFOptions)
    (_vstorage : VersionStorageInfo K) (_snapshots : List Nat) (_log_buffer : LogBuffer) :
    Option (Compaction K) :=
  none

/-- `NullCompactionPicker::CompactRange`: all thirteen parameters are unnamed
and the body is `return nullptr;`, so neither `*compaction_end` nor
`*manual_conflict` is written and the picker state is not touched; their
values before the call are the values after it. -/
def NullCompactionPicker.CompactRange {MutableCFOptions SeparationType K : Type}
    (s : PickerState K) (_cf_name : String) (_mutable_cf_options : MutableCFOptions)
    (_separation_type : SeparationType) (_vstorage : VersionStorageInfo K)
    (_input_level _output_level : Int) (_output_path_id _max_subcompactions : Nat)
    (_begin _end : Option K) (compaction_end : Option K) (manual_conflict : Bool)
    (_files_being_compact : Option (List Nat)) : CompactRangeResult K :=
  { job := none
    manual_conflict := manual_conflict
    compaction_end := compaction_end
    state := s }

/-- `NullCompactionPicker::NeedsCompaction`: the body is `return false;`. -/
def NullCompactionPicker.NeedsCompaction {K : Type}
    (_vstorage : VersionStorageInfo K) : Bool :=
  false

/-- The concrete picker strategies of the header: `LevelCompactionPicker`,
which inherits `CompactionPicker::CompactRange`, and `NullCompactionPicker`,
which overrides it. -/
inductive PickerKind where
  | level
  | null
  deriving DecidableEq, Repr

/-- The virtual call `picker->CompactRange(...)`, resolved by the dynamic type
of the picker. -/
def PickerKind.CompactRange {MutableCFOptions SeparationType K : Type} [LinearOrder K]
    (kind : PickerKind) (s : PickerState K) (cf_name : String)
    (mutable_cf_options : MutableCFOptions) (separation_type : SeparationType)
    (vstorage : VersionStorageInfo K) (input_level output_level : Int)
    (output_path_id max_subcompactions : Nat) (begin_key end_key : Option K)
    (compaction_end : Option K) (manual_conflict : Bool)
    (files_being_compact : Option (List Nat)) (job_addr : Nat) : CompactRangeResult K :=
  match kind with
  | PickerKind.level =>
    CompactionPicker.CompactRange s cf_name mutable_cf_options separation_type vstorage
      input_level output_level output_path_id max_subcompactions begin_key end_key
      compaction_end manual_conflict files_being_compact job_addr
  | PickerKind.null =>
    NullCompactionPicker.CompactRange s cf_name mutable_cf_options separation_type vstorage
      input_level output_level output_path_id max_subcompactions begin_key end_key
      compaction_end manual_conflict files_being_compact

/-- The requested range `[begin, end]` on `input_level` fully overlaps the
running job `c`: the job is registered, some file of the level overlaps the
range, and every file of the level that overlaps the range is an input file
of the job. -/
def FullyOverlapsRunningJob {K : Type} [LinearOrder K] (s : PickerState K)
    (vstorage : VersionStorageInfo K) (input_level : Int) (begin_key end_key : Option K)
    (c : Compaction K) : Prop :=
  c ∈ s.compactions_in_progress_ ∧
    (∃ f ∈ vstorage.LevelFiles input_level, range_overlaps begin_key end_key f = true) ∧
    (∀ f ∈ vstorage.LevelFiles input_level, range_overlaps begin_key end_key f = true →
      f.addr ∈ c.input_files)

/-- The registry invariant of the spec's data model: every input file of
every registered job is marked `being_compacted`. -/
def RegisteredInputsMarked {K : Type} (s : PickerState K) : Prop :=
  ∀ c ∈ s.compactions_in_progress_, ∀ a ∈ c.input_files, s.being_compacted a = true

/-- A picker state with one running job, over the single file of level 1 of
`example_conflict_storage`, whose key range is `[10, 20]`. -/
def example_conflict_state : PickerState Nat :=
  CompactionPicker.RegisterCompaction PickerState.initial ⟨1, [⟨1, [⟨11, 10, 20, 100⟩]⟩], 2⟩

/-- A storage snapshot with natural-number keys: level 0 is empty and level 1
holds one file with key range `[10, 20]`. -/
def example_conflict_storage : VersionStorageInfo Nat :=
  { files_ := [[], [⟨11, 10, 20, 100⟩]] }

/-! ## Output levels -/

/-- The part of `ImmutableCFOptions` (declared in `options/cf_options.h`) that
the header reads: the configured number of levels, an `int`. -/
structure ImmutableCFOptions where
  num_levels : Int

/-- The value of an `int` expression whose mathematical result is `x`: the
32-bit two's complement representative of `x`. -/
def int_wrap (x : Int) : Int :=
  (x + 2147483648) % 4294967296 - 2147483648

/-- `CompactionPicker::NumberLevels`: `return ioptions_.num_levels;`. -/
def CompactionPicker.NumberLevels (ioptions_ : ImmutableCFOptions) : Int :=
  ioptions_.num_levels

/-- `CompactionPicker::MaxOutputLevel`: `return NumberLevels() - 1;`, an `int`
subtraction. -/
def CompactionPicker.MaxOutputLevel (ioptions_ : ImmutableCFOptions) : Int :=
  int_wrap (CompactionPicker.NumberLevels ioptions_ - 1)

/-- The virtual call `picker->MaxOutputLevel()`: neither
`LevelCompactionPicker` nor `NullCompactionPicker` overrides it, so both
resolve to `CompactionPicker::MaxOutputLevel`. -/
def PickerKind.MaxOutputLevel (kind : PickerKind) (ioptions_ : ImmutableCFOptions) : Int :=
  match kind with
  | PickerKind.level => CompactionPicker.MaxOutputLevel ioptions_
  | PickerKind.null => CompactionPicker.MaxOutputLevel ioptions_

/-! ## Write batch entry index

Embedding of `memtable/terark_zip_entry_index.cc`.  The Patricia trie and its
lexicographic iterator belong to the terark library; they are modelled by
their contract, a map from words to values kept in ascending word order.
Values of `size_t` and `uint32_t` are `Nat`, with the wrap-around of the
source written out.  A function that can run into an `assert` or into
undefined behaviour returns `Except`. -/

/-- Address of a `WriteBatchIndexEntry` object. -/
abbrev EntryPtr := Nat

/-- The part of `WriteBatchIndexEntry` (declared in
`utilities/write_batch_with_index/write_batch_with_index_internal.h`) that the
index reads and writes: `offset`, with everything else the key extractor may
read kept in `payload`. -/
structure WriteBatchIndexEntry (P : Type) where
  offset : Nat
  payload : P

/-- How a call can abort: one of the assertions of the source fails, or the
call leaves defined behaviour (a read or write outside an allocated array, a
read of a slot never written, a null dereference, or a use of the iterator
while it is not on a word). -/
inductive IndexAbort where
  | assert_size_pos
  | assert_offset_increasing
  | assert_word_gt
  | assert_word_lt
  | invalid_access
  deriving DecidableEq, Repr

/-- A Patricia trie as the index sees it: its words with their values, in
ascending word order. -/
abbrev Patricia (K V : Type) := List (K × V)

/-- The value stored under word `k`, if any: what `token.value()` addresses
after `insert` or a lookup. -/
def Patricia.value {K V : Type} [DecidableEq K] : Patricia K V → K → Option V
  | [], _ => none
  | (k', v) :: rest, k => if k = k' then some v else Patricia.value rest k

/-- The trie after the new word `k` is inserted with value `v`, at its place
in the word order. -/
def Patricia.insert {K V : Type} [LinearOrder K] : Patricia K V → K → V → Patricia K V
  | [], k, v => [(k, v)]
  | (k', v') :: rest, k, v =>
    if k < k' then (k, v) :: (k', v') :: rest else (k', v') :: Patricia.insert rest k v

/-- The trie after the value stored under word `k` is overwritten with `v`. -/
def Patricia.update {K V : Type} [DecidableEq K] : Patricia K V → K → V → Patricia K V
  | [], _, _ => []
  | (k', v') :: rest, k, v =>
    if k = k' then (k', v) :: rest else (k', v') :: Patricia.update rest k v

/-- Model of `ADFA_LexIterator::seek_lower_bound`: the position of the first
word `>= key`; `none` when the call returns false. -/
def ADFA_LexIterator.seek_lower_bound {K V : Type} [LinearOrder K] (t : Patricia K V)
    (key : K) : Option Nat :=
  if t.findIdx (fun w => decide (key ≤ w.1)) < t.length then
    some (t.findIdx (fun w => decide (key ≤ w.1)))
  else none

/-- Model of `ADFA_LexIterator::seek_rev_lower_bound`: the position of the
last word `<= key`, which in ascending word order is the one before the first
word `> key`; `none` when the call returns false. -/
def ADFA_LexIterator.seek_rev_lower_bound {K V : Type} [LinearOrder K] (t : Patricia K V)
    (key : K) : Option Nat :=
  if t.findIdx (fun w => decide (key < w.1)) = 0 then none
  else some (t.findIdx (fun w => decide (key < w.1)) - 1)

/-- Model of `ADFA_LexIterator::seek_begin`: the first word. -/
def ADFA_LexIterator.seek_begin {K V : Type} (t : Patricia K V) : Option Nat :=
  if 0 < t.length then some 0 else none

/-- Model of `ADFA_LexIterator::seek_end`: the last word. -/
def ADFA_LexIterator.seek_end {K V : Type} (t : Patricia K V) : Option Nat :=
  if 0 < t.length then some (t.length - 1) else none

/-- Model of `ADFA_LexIterator::incr`: the next word; `none` when the call
returns false. -/
def ADFA_LexIterator.incr {K V : Type} (t : Patricia K V) (cur : Option Nat) : Option Nat :=
  match cur with
  | some i => if i + 1 < t.length then some (i + 1) else none
  | none => none

/-- Model of `ADFA_LexIterator::decr`: the previous word; `none` when the
call returns false. -/
def ADFA_LexIterator.decr {K V : Type} (_t : Patricia K V) (cur : Option Nat) : Option Nat :=
  match cur with
  | some (i + 1) => some i
  | _ => none

/-- Model of `ADFA_LexIterator::word`: the word the iterator is on. -/
def ADFA_LexIterator.word {K V : Type} (t : Patricia K V) (cur : Option Nat) : Option K :=
  match cur with
  | some i => (t[i]?).map Prod.fst
  | none => none

/-- Model of `terark::upper_bound_0` on an ascending array: the first index
whose element is `> key`, the length when there is none. -/
def upper_bound_0 (a : List Nat) (key : Nat) : Nat :=
  a.findIdx (fun x => decide (key < x))

/-- Model of `terark::lower_bound_0` on an ascending array: the first index
whose element is `>= key`, the length when there is none. -/
def lower_bound_0 (a : List Nat) (key : Nat) : Nat :=
  a.findIdx (fun x => decide (key ≤ x))

/-- The population count of a `uint32_t`, bit by bit. -/
def popcount_bits : Nat → Nat → Nat
  | 0, _ => 0
  | bits + 1, n => n % 2 + popcount_bits bits (n / 2)

/-- Model of `terark::fast_popcount` on a `uint32_t`. -/
def fast_popcount (n : Nat) : Nat :=
  popcount_bits 32 n

/-! ### The overwrite-key index -/

/-- The memory `WriteBatchEntryPTrieIndex<true>` works on: its trie, whose
values are entry pointers, and the entry objects, whose `offset` it
rewrites. -/
structure OverwriteIndexState (K P : Type) where
  index_ : Patricia K EntryPtr
  entries : EntryPtr → WriteBatchIndexEntry P

/-- `std::swap(a->offset, b->offset)` on the entry objects: the old offset
of `a` is saved, `a` gets the offset of `b`, `b` gets the saved offset. -/
def swap_offset {P : Type} (entries : EntryPtr → WriteBatchIndexEntry P) (a b : EntryPtr) :
    EntryPtr → WriteBatchIndexEntry P :=
  let tmp := (entries a).offset
  let entries1 : EntryPtr → WriteBatchIndexEntry P :=
    fun p => if p = a then { entries a with offset := (entries b).offset } else entries p
  fun p => if p = b then { entries1 b with offset := tmp } else entries1 p

/-- `WriteBatchEntryPTrieIndex<true>::Upsert`.  `index_->insert` stores the
pointer `key` under the extracted key and returns true when the word is new;
otherwise it returns false, `token.value()` addresses the stored pointer, and
the offsets of the stored entry and of `key` are swapped. -/
def WriteBatchEntryPTrieIndex_true.Upsert {K P : Type} [LinearOrder K]
    (extractor_ : WriteBatchIndexEntry P → K) (s : OverwriteIndexState K P) (key : EntryPtr) :
    Bool × OverwriteIndexState K P :=
  let slice_key := extractor_ (s.entries key)
  match Patricia.value s.index_ slice_key with
  | none => (true, { s with index_ := Patricia.insert s.index_ slice_key key })
  | some entry => (false, { s with entries := swap_offset s.entries entry key })

/-! ### The index that keeps every entry -/

/-- Mirror of `value_vector_t` with the array it addresses: `size` is the
`uint32_t` member, and `data` is the array of `value_wrap_t` at `loc`, one
slot per allocated element, `none` for a slot never written. -/
structure value_vector_t where
  size : Nat
  data : List (Option EntryPtr)
  deriving DecidableEq, Repr

/-- `value_vector_t::full`: `fast_popcount(size) == 1`. -/
def value_vector_t.full (v : value_vector_t) : Bool :=
  fast_popcount v.size == 1

/-- The entries a vector holds: its first `size` slots. -/
def value_vector_t.contents (v : value_vector_t) : List EntryPtr :=
  (v.data.take v.size).reduceOption

/-- `Token::init_value`: a data array of one slot holding `value_`, and a
vector of size 1 addressing it.  Allocation is taken to succeed. -/
def Token.init_value (value_ : EntryPtr) : value_vector_t :=
  { size := 1, data := [some value_] }

/-- `WriteBatchEntryPTrieIndex<false>::Upsert`.  `index_->insert` stores a
fresh vector (built by `Token::init_value`) when the word is new; otherwise
`token.value()` addresses the stored vector and `key` is appended to it, in
place when the vector is not full and into a new array of twice the size,
to which the old slots are copied, when it is.  Allocation is taken to
succeed. -/
def WriteBatchEntryPTrieIndex_false.Upsert {K P : Type} [LinearOrder K]
    (entries : EntryPtr → WriteBatchIndexEntry P) (extractor_ : WriteBatchIndexEntry P → K)
    (index_ : Patricia K value_vector_t) (key : EntryPtr) :
    Except IndexAbort (Bool × Patricia K value_vector_t) :=
  let slice_key := extractor_ (entries key)
  match Patricia.value index_ slice_key with
  | none => Except.ok (true, Patricia.insert index_ slice_key (Token.init_value key))
  | some vector =>
    let data := vector.data
    let size := vector.size
    if size = 0 then Except.error IndexAbort.assert_size_pos
    else
      match data[size - 1]? with
      | some (some last) =>
        if (entries key).offset > (entries last).offset then
          if ¬ vector.full then
            if size < data.length then
              Except.ok (true, Patricia.update index_ slice_key
                { size := (size + 1) % 4294967296, data := data.set size (some key) })
            else Except.error IndexAbort.invalid_access
          else
            if size ≤ data.length then
              Except.ok (true, Patricia.update index_ slice_key
                { size := (size + 1) % 4294967296
                  data := (data.take size ++ List.replicate (size * 2 - size) none).set size
                    (some key) })
            else Except.error IndexAbort.invalid_access
        else Except.error IndexAbort.assert_offset_increasing
      | _ => Except.error IndexAbort.invalid_access

/-! ### The iterator over the index that keeps every entry -/

/-- `num_words_update`. -/
def num_words_update : Nat := 1024

/-- The data members of `IteratorImplWithOffset` that change: the position of
`iter` (the place of its current word in the word order, `none` while it is
not on a word), the `uint32_t index` into the current vector, and
`num_words`. -/
structure IteratorImplWithOffset where
  iter : Option Nat
  index : Nat
  num_words : Nat
  deriving DecidableEq, Repr

/-- The constructor of `IteratorImplWithOffset`: a fresh iterator,
`index(uint32_t(-1))`, `num_words(index->num_words())`. -/
def IteratorImplWithOffset.create {K V : Type} (t : Patricia K V) : IteratorImplWithOffset :=
  { iter := none, index := 4294967295, num_words := t.length }

/-- `IteratorImplWithOffset::Update`: when the trie has grown by more than
`num_words_update` words (a `size_t` subtraction) the token is refreshed and
`num_words` is brought up to date. -/
def IteratorImplWithOffset.Update {K V : Type} (t : Patricia K V)
    (it : IteratorImplWithOffset) : Bool × IteratorImplWithOffset :=
  if (t.length + 18446744073709551616 - it.num_words) % 18446744073709551616 >
      num_words_update then
    (true, { it with num_words := t.length })
  else (false, it)

/-- Mirror of `IteratorImplWithOffset::VectorData`. -/
structure VectorData where
  size : Nat
  data : List (Option EntryPtr)
  deriving DecidableEq, Repr

/-- `IteratorImplWithOffset::GetVector`: the vector stored under the word the
iterator is on. -/
def IteratorImplWithOffset.GetVector {K : Type} (t : Patricia K value_vector_t)
    (it : IteratorImplWithOffset) : Except IndexAbort VectorData :=
  match it.iter with
  | some i =>
    match t[i]? with
    | some w => Except.ok { size := w.2.size, data := w.2.data }
    | none => Except.error IndexAbort.invalid_access
  | none => Except.error IndexAbort.invalid_access

/-- The read `vec.data[index].value`. -/
def VectorData.value_at (vec : VectorData) (index : Nat) : Except IndexAbort EntryPtr :=
  match vec.data[index]? with
  | some (some p) => Except.ok p
  | _ => Except.error IndexAbort.invalid_access

/-- All of a list of slots, when every one of them has been written. -/
def all_written : List (Option EntryPtr) → Option (List EntryPtr)
  | [] => some []
  | none :: _ => none
  | some p :: rest => (all_written rest).map (fun ps => p :: ps)

/-- The offsets of the entries in the first `size` slots of `vec.data`, which
the bound searches compare through `operator size_t`; `none` when one of
these slots is outside the array or was never written. -/
def VectorData.offsets {P : Type} (entries : EntryPtr → WriteBatchIndexEntry P)
    (vec : VectorData) : Option (List Nat) :=
  if vec.size ≤ vec.data.length then
    (all_written (vec.data.take vec.size)).map (fun ps => ps.map (fun p => (entries p).offset))
  else none

/-- The end of `Seek`, from the assertion on: `assert(iter->word() >
find_key); index = vec.size - 1; return vec.data[index].value;`. -/
def IteratorImplWithOffset.Seek.finish {K : Type} [LinearOrder K]
    (t : Patricia K value_vector_t) (find_key : K) (it : IteratorImplWithOffset)
    (vec : VectorData) : Except IndexAbort (Option EntryPtr × IteratorImplWithOffset) :=
  match ADFA_LexIterator.word t it.iter with
  | some w =>
    if find_key < w then
      match vec.value_at ((vec.size + 18446744073709551616 - 1) % 18446744073709551616 %
          4294967296) with
      | Except.ok p =>
        Except.ok (some p, { it with index :=
          (vec.size + 18446744073709551616 - 1) % 18446744073709551616 % 4294967296 })
      | Except.error e => Except.error e
    else Except.error IndexAbort.assert_word_gt
  | none => Except.error IndexAbort.invalid_access

/-- `IteratorImplWithOffset::Seek`.  The result is the returned pointer
(`none` for `nullptr`) with the iterator after the call. -/
def IteratorImplWithOffset.Seek {K P : Type} [LinearOrder K]
    (entries : EntryPtr → WriteBatchIndexEntry P) (extractor : WriteBatchIndexEntry P → K)
    (t : Patricia K value_vector_t) (it0 : IteratorImplWithOffset) (entry : EntryPtr) :
    Except IndexAbort (Option EntryPtr × IteratorImplWithOffset) :=
  let it := (IteratorImplWithOffset.Update t it0).2
  let find_key := extractor (entries entry)
  match ADFA_LexIterator.seek_lower_bound t find_key with
  | none => Except.ok (none, { it with iter := none })
  | some pos =>
    match IteratorImplWithOffset.GetVector t { it with iter := some pos } with
    | Except.error e => Except.error e
    | Except.ok vec =>
      if ADFA_LexIterator.word t (some pos) = some find_key then
        match vec.offsets entries with
        | none => Except.error IndexAbort.invalid_access
        | some offs =>
          if (upper_bound_0 offs (entries entry).offset + 18446744073709551616 - 1) %
              18446744073709551616 % 4294967296 ≠ 4294967295 then
            match vec.value_at ((upper_bound_0 offs (entries entry).offset +
                18446744073709551616 - 1) % 18446744073709551616 % 4294967296) with
            | Except.ok p =>
              Except.ok (some p, { it with iter := some pos, index :=
                (upper_bound_0 offs (entries entry).offset + 18446744073709551616 - 1) %
                  18446744073709551616 % 4294967296 })
            | Except.error e => Except.error e
          else
            match ADFA_LexIterator.incr t (some pos) with
            | none => Except.ok (none, { it with iter := none, index := 4294967295 })
            | some pos' =>
              match IteratorImplWithOffset.GetVector t { it with iter := some pos' } with
              | Except.error e => Except.error e
              | Except.ok vec' =>
                IteratorImplWithOffset.Seek.finish t find_key
                  { it with iter := some pos', index := 4294967295 } vec'
      else
        IteratorImplWithOffset.Seek.finish t find_key { it with iter := some pos } vec

/-- The end of `SeekForPrev`, from the assertion on: `assert(iter->word() <
find_key); index = 0; return vec.data[index].value;`. -/
def IteratorImplWithOffset.SeekForPrev.finish {K : Type} [LinearOrder K]
    (t : Patricia K value_vector_t) (find_key : K) (it : IteratorImplWithOffset)
    (vec : VectorData) : Except IndexAbort (Option EntryPtr × IteratorImplWithOffset) :=
  match ADFA_LexIterator.word t it.iter with
  | some w =>
    if w < find_key then
      match vec.value_at 0 with
      | Except.ok p => Except.ok (some p, { it with index := 0 })
      | Except.error e => Except.error e
    else Except.error IndexAbort.assert_word_lt
  | none => Except.error IndexAbort.invalid_access

/-- `IteratorImplWithOffset::SeekForPrev`.  The result is the returned
pointer with the iterator after the call. -/
def IteratorImplWithOffset.SeekForPrev {K P : Type} [LinearOrder K]
    (entries : EntryPtr → WriteBatchIndexEntry P) (extractor : WriteBatchIndexEntry P → K)
    (t : Patricia K value_vector_t) (it0 : IteratorImplWithOffset) (entry : EntryPtr) :
    Except IndexAbort (Option EntryPtr × IteratorImplWithOffset) :=
  let it := (IteratorImplWithOffset.Update t it0).2
  let find_key := extractor (entries entry)
  match ADFA_LexIterator.seek_rev_lower_bound t find_key with
  | none => Except.ok (none, { it with iter := none })
  | some pos =>
    match IteratorImplWithOffset.GetVector t { it with iter := some pos } with
    | Except.error e => Except.error e
    | Except.ok vec =>
      if ADFA_LexIterator.word t (some pos) = some find_key then
        match vec.offsets entries with
        | none => Except.error IndexAbort.invalid_access
        | some offs =>
          if lower_bound_0 offs (entries entry).offset % 4294967296 ≠ vec.size then
            match vec.value_at (lower_bound_0 offs (entries entry).offset % 4294967296) with
            | Except.ok p =>
              Except.ok (some p, { it with iter := some pos, index :=
                (lower_bound_0 offs (entries entry).offset % 4294967296) })
            | Except.error e => Except.error e
          else
            match ADFA_LexIterator.decr t (some pos) with
            | none =>
              Except.ok (none, { it with iter := none, index :=
                (lower_bound_0 offs (entries entry).offset % 4294967296) })
            | some pos' =>
              match IteratorImplWithOffset.GetVector t { it with iter := some pos' } with
              | Except.error e => Except.error e
              | Except.ok vec' =>
                IteratorImplWithOffset.SeekForPrev.finish t find_key
                  { it with iter := some pos', index :=
                    (lower_bound_0 offs (entries entry).offset % 4294967296) } vec'
      else
        IteratorImplWithOffset.SeekForPrev.finish t find_key { it with iter := some pos } vec

/-- `IteratorImplWithOffset::SeekToFirst`. -/
def IteratorImplWithOffset.SeekToFirst {K : Type} (t : Patricia K value_vector_t)
    (it0 : IteratorImplWithOffset) :
    Except IndexAbort (Option EntryPtr × IteratorImplWithOffset) :=
  let it := (IteratorImplWithOffset.Update t it0).2
  match ADFA_LexIterator.seek_begin t with
  | none => Except.ok (none, { it with iter := none })
  | some pos =>
    match IteratorImplWithOffset.GetVector t { it with iter := some pos } with
    | Except.error e => Except.error e
    | Except.ok vec =>
      match vec.value_at ((vec.size + 18446744073709551616 - 1) % 18446744073709551616 %
          4294967296) with
      | Except.ok p =>
        Except.ok (some p, { it with iter := some pos, index :=
          (vec.size + 18446744073709551616 - 1) % 18446744073709551616 % 4294967296 })
      | Except.error e => Except.error e

/-- `IteratorImplWithOffset::SeekToLast`. -/
def IteratorImplWithOffset.SeekToLast {K : Type} (t : Patricia K value_vector_t)
    (it0 : IteratorImplWithOffset) :
    Except IndexAbort (Option EntryPtr × IteratorImplWithOffset) :=
  let it := (IteratorImplWithOffset.Update t it0).2
  match ADFA_LexIterator.seek_end t with
  | none => Except.ok (none, { it with iter := none })
  | some pos =>
    match IteratorImplWithOffset.GetVector t { it with iter := some pos } with
    | Except.error e => Except.error e
    | Except.ok vec =>
      match vec.value_at 0 with
      | Except.ok p => Except.ok (some p, { it with iter := some pos, index := 0 })
      | Except.error e => Except.error e

/-- The start of `Next` and of `Prev`: `if (Update()) { auto key =
extractor(curr); iter->seek_lower_bound(key); }`. -/
def IteratorImplWithOffset.refresh {K P : Type} [LinearOrder K]
    (entries : EntryPtr → WriteBatchIndexEntry P) (extractor : WriteBatchIndexEntry P → K)
    (t : Patricia K value_vector_t) (it0 : IteratorImplWithOffset) (curr : Option EntryPtr) :
    Except IndexAbort IteratorImplWithOffset :=
  if (IteratorImplWithOffset.Update t it0).1 then
    match curr with
    | some c =>
      Except.ok { (IteratorImplWithOffset.Update t it0).2 with
        iter := ADFA_LexIterator.seek_lower_bound t (extractor (entries c)) }
    | none => Except.error IndexAbort.invalid_access
  else Except.ok (IteratorImplWithOffset.Update t it0).2

/-- `IteratorImplWithOffset::Next`. -/
def IteratorImplWithOffset.Next {K P : Type} [LinearOrder K]
    (entries : EntryPtr → WriteBatchIndexEntry P) (extractor : WriteBatchIndexEntry P → K)
    (t : Patricia K value_vector_t) (it0 : IteratorImplWithOffset) (curr : Option EntryPtr) :
    Except IndexAbort (Option EntryPtr × IteratorImplWithOffset) :=
  match IteratorImplWithOffset.refresh entries extractor t it0 curr with
  | Except.error e => Except.error e
  | Except.ok it =>
    if it.index = 0 then
      match ADFA_LexIterator.incr t it.iter with
      | none => Except.ok (none, { it with iter := none, index := 4294967295 })
      | some pos =>
        match IteratorImplWithOffset.GetVector t { it with iter := some pos } with
        | Except.error e => Except.error e
        | Except.ok vec =>
          match vec.value_at ((vec.size + 18446744073709551616 - 1) % 18446744073709551616 %
              4294967296) with
          | Except.ok p =>
            Except.ok (some p, { it with iter := some pos, index :=
              (vec.size + 18446744073709551616 - 1) % 18446744073709551616 % 4294967296 })
          | Except.error e => Except.error e
    else
      match IteratorImplWithOffset.GetVector t it with
      | Except.error e => Except.error e
      | Except.ok vec =>
        match vec.value_at (it.index - 1) with
        | Except.ok p => Except.ok (some p, { it with index := it.index - 1 })
        | Except.error e => Except.error e

/-- `IteratorImplWithOffset::Prev`. -/
def IteratorImplWithOffset.Prev {K P : Type} [LinearOrder K]
    (entries : EntryPtr → WriteBatchIndexEntry P) (extractor : WriteBatchIndexEntry P → K)
    (t : Patricia K value_vector_t) (it0 : IteratorImplWithOffset) (curr : Option EntryPtr) :
    Except IndexAbort (Option EntryPtr × IteratorImplWithOffset) :=
  match IteratorImplWithOffset.refresh entries extractor t it0 curr with
  | Except.error e => Except.error e
  | Except.ok it =>
    match IteratorImplWithOffset.GetVector t it with
    | Except.error e => Except.error e
    | Except.ok vec =>
      if (it.index + 1) % 4294967296 = vec.size then
        match ADFA_LexIterator.decr t it.iter with
        | none => Except.ok (none, { it with iter := none, index := (it.index + 1) % 4294967296 })
        | some pos =>
          match IteratorImplWithOffset.GetVector t { it with iter := some pos } with
          | Except.error e => Except.error e
          | Except.ok vec' =>
            match vec'.value_at 0 with
            | Except.ok p => Except.ok (some p, { it with iter := some pos, index := 0 })
            | Except.error e => Except.error e
      else
        match vec.value_at ((it.index + 1) % 4294967296) with
        | Except.ok p => Except.ok (some p, { it with index := (it.index + 1) % 4294967296 })
        | Except.error e => Except.error e

/-- The data members of `PTrieIterator` for the index that keeps every entry:
`impl_` and `key_`. -/
structure PTrieIterator where
  impl_ : IteratorImplWithOffset
  key_ : Option EntryPtr
  deriving DecidableEq, Repr

/-- The constructor of `PTrieIterator`: a fresh `impl_`, `key_(nullptr)`. -/
def PTrieIterator.create {K V : Type} (t : Patricia K V) : PTrieIterator :=
  { impl_ := IteratorImplWithOffset.create t, key_ := none }

/-- `PTrieIterator::Valid`: `key_ != nullptr`. -/
def PTrieIterator.Valid (self : PTrieIterator) : Bool :=
  self.key_.isSome

/-- `PTrieIterator::key`. -/
def PTrieIterator.key (self : PTrieIterator) : Option EntryPtr :=
  self.key_

/-- The assignment `key_ = impl_->...` with the iterator the call leaves. -/
def PTrieIterator.assign (r : Except IndexAbort (Option EntryPtr × IteratorImplWithOffset)) :
    Except IndexAbort PTrieIterator :=
  match r with
  | Except.ok (k, it) => Except.ok { impl_ := it, key_ := k }
  | Except.error e => Except.error e

/-- `PTrieIterator::SeekToFirst`. -/
def PTrieIterator.SeekToFirst {K : Type} (t : Patricia K value_vector_t)
    (self : PTrieIterator) : Except IndexAbort PTrieIterator :=
  PTrieIterator.assign (IteratorImplWithOffset.SeekToFirst t self.impl_)

/-- `PTrieIterator::SeekToLast`. -/
def PTrieIterator.SeekToLast {K : Type} (t : Patricia K value_vector_t)
    (self : PTrieIterator) : Except IndexAbort PTrieIterator :=
  PTrieIterator.assign (IteratorImplWithOffset.SeekToLast t self.impl_)

/-- `PTrieIterator::Seek`. -/
def PTrieIterator.Seek {K P : Type} [LinearOrder K]
    (entries : EntryPtr → WriteBatchIndexEntry P) (extractor : WriteBatchIndexEntry P → K)
    (t : Patricia K value_vector_t) (self : PTrieIterator) (target : EntryPtr) :
    Except IndexAbort PTrieIterator :=
  PTrieIterator.assign (IteratorImplWithOffset.Seek entries extractor t self.impl_ target)

/-- `PTrieIterator::SeekForPrev`. -/
def PTrieIterator.SeekForPrev {K P : Type} [LinearOrder K]
    (entries : EntryPtr → WriteBatchIndexEntry P) (extractor : WriteBatchIndexEntry P → K)
    (t : Patricia K value_vector_t) (self : PTrieIterator) (target : EntryPtr) :
    Except IndexAbort PTrieIterator :=
  PTrieIterator.assign (IteratorImplWithOffset.SeekForPrev entries extractor t self.impl_ target)

/-- `PTrieIterator::Next`. -/
def PTrieIterator.Next {K P : Type} [LinearOrder K]
    (entries : EntryPtr → WriteBatchIndexEntry P) (extractor : WriteBatchIndexEntry P → K)
    (t : Patricia K value_vector_t) (self : PTrieIterator) : Except IndexAbort PTrieIterator :=
  PTrieIterator.assign (IteratorImplWithOffset.Next entries extractor t self.impl_ self.key_)

/-- `PTrieIterator::Prev`. -/
def PTrieIterator.Prev {K P : Type} [LinearOrder K]
    (entries : EntryPtr → WriteBatchIndexEntry P) (extractor : WriteBatchIndexEntry P → K)
    (t : Patricia K value_vector_t) (self : PTrieIterator) : Except IndexAbort PTrieIterator :=
  PTrieIterator.assign (IteratorImplWithOffset.Prev entries extractor t self.impl_ self.key_)

/-! ### Well-formed indexes -/

/-- The first `size` slots of the vector lie inside its array and have all
been written. -/
def value_vector_t.initialised (v : value_vector_t) : Prop :=
  v.size ≤ v.data.length ∧ v.data.take v.size = v.contents.map some

/-- A well-formed per-key vector: it is not empty, its size is a `uint32_t`,
its first `size` slots have been written, and its entries are strictly
increasing by offset. -/
def VectorOK {P : Type} (entries : EntryPtr → WriteBatchIndexEntry P) (v : value_vector_t) :
    Prop :=
  0 < v.size ∧ v.size < 4294967296 ∧ v.initialised ∧
    List.Pairwise (fun a b => a < b) (v.contents.map (fun p => (entries p).offset))

/-- A well-formed index: the words are in strictly ascending order and every
per-key vector is well-formed. -/
def IndexOK {K P : Type} [LinearOrder K] (entries : EntryPtr → WriteBatchIndexEntry P)
    (t : Patricia K value_vector_t) : Prop :=
  List.Pairwise (fun a b => a < b) (t.map Prod.fst) ∧ ∀ w ∈ t, VectorOK entries w.2

/-- The capacity invariant of a per-key vector: the length of its data array
is a power of two that is at least the size, while half of it is less than
the size. -/
def value_vector_t.capacity_ok (v : value_vector_t) : Prop :=
  ∃ k, v.data.length = 2 ^ k ∧ v.size ≤ 2 ^ k ∧ 2 ^ k < 2 * v.size

/-- Every per-key vector of the index satisfies the capacity invariant. -/
def IndexCapacityOK {K : Type} (t : Patricia K value_vector_t) : Prop :=
  ∀ w ∈ t, w.2.capacity_ok

/-- The entries stored under one word in iteration order, each with the
word: the vector from its last slot (largest offset) to its first. -/
def entry_block {K : Type} (w : K × value_vector_t) : List (K × EntryPtr) :=
  w.2.contents.reverse.map (fun p => (w.1, p))

/-- The entries of the index in iteration order, each with the word it is
stored under: words ascending, and within one word offsets descending. -/
def iteration_order {K : Type} (t : Patricia K value_vector_t) : List (K × EntryPtr) :=
  (t.map entry_block).flatten

/-- The iterator is on entry `e`: `iter` is on a word of the trie, `index` is
below the size of the vector of that word, and slot `index` of the vector
holds `e`. -/
def IteratorImplWithOffset.positioned_on {K : Type} (t : Patricia K value_vector_t)
    (it : IteratorImplWithOffset) (e : EntryPtr) : Prop :=
  ∃ i w, it.iter = some i ∧ t[i]? = some w ∧ it.index < w.2.size ∧
    w.2.contents[it.index]? = some e

/-- The entry objects used to evaluate the model: the entry at address `p`
has offset `p` and payload `p / 100`. -/
def example_entries : EntryPtr → WriteBatchIndexEntry Nat :=
  fun p => ⟨p, p / 100⟩

/-- The key extractor used to evaluate the model: the key is the payload. -/
def example_extractor : WriteBatchIndexEntry Nat → Nat :=
  fun e => e.payload

/-- An index used to evaluate the model, as `Upsert` builds it from the
entries 301, 101, 102, 205, 103, 104, 105, 306: five entries under key 1 in
an array of eight slots, one under key 2, two under key 3. -/
def example_index : Patricia Nat value_vector_t :=
  [(1, ⟨5, [some 101, some 102, some 103, some 104, some 105, none, none, none]⟩),
   (2, ⟨1, [some 205]⟩),
   (3, ⟨2, [some 301, some 306]⟩)]

/-! ### Loops over the iterator -/

/-- The caller's loop `for (; it->Valid(); it->Next()) visit(it->key());`
run for at most `fuel` calls of `Next`: the entries visited in order, and the
iterator as the loop leaves it. -/
def PTrieIterator.visit_next {K P : Type} [LinearOrder K]
    (entries : EntryPtr → WriteBatchIndexEntry P) (extractor : WriteBatchIndexEntry P → K)
    (t : Patricia K value_vector_t) :
    Nat → PTrieIterator → Except IndexAbort (List EntryPtr × PTrieIterator)
  | 0, it => Except.ok ([], it)
  | fuel + 1, it =>
    match it.key_ with
    | none => Except.ok ([], it)
    | some p =>
      match PTrieIterator.Next entries extractor t it with
      | Except.error e => Except.error e
      | Except.ok it' =>
        match PTrieIterator.visit_next entries extractor t fuel it' with
        | Except.error e => Except.error e
        | Except.ok (ps, last) => Except.ok (p :: ps, last)

/-- The caller's loop `for (; it->Valid(); it->Prev()) visit(it->key());`
run for at most `fuel` calls of `Prev`: the entries visited in order, and the
iterator as the loop leaves it. -/
def PTrieIterator.visit_prev {K P : Type} [LinearOrder K]
    (entries : EntryPtr → WriteBatchIndexEntry P) (extractor : WriteBatchIndexEntry P → K)
    (t : Patricia K value_vector_t) :
    Nat → PTrieIterator → Except IndexAbort (List EntryPtr × PTrieIterator)
  | 0, it => Except.ok ([], it)
  | fuel + 1, it =>
    match it.key_ with
    | none => Except.ok ([], it)
    | some p =>
      match PTrieIterator.Prev entries extractor t it with
      | Except.error e => Except.error e
      | Except.ok it' =>
        match PTrieIterator.visit_prev entries extractor t fuel it' with
        | Except.error e => Except.error e
        | Except.ok (ps, last) => Except.ok (p :: ps, last)

/-! ## Theorems -/

/-- C1: `NullCompactionPicker` is a no-op strategy.  For every argument tuple
`PickCompaction` returns null and `CompactRange` returns null, and for every
storage state `NeedsCompaction` returns false. -/
theorem C1_null_picker_is_noop {MutableCFOptions SeparationType LogBuffer K : Type}
    (s : PickerState K) (cf_name : String) (mopts : MutableCFOptions) (sep : SeparationType)
    (vstorage : VersionStorageInfo K) (snapshots : List Nat) (log_buffer : LogBuffer)
    (input_level output_level : Int) (output_path_id max_subcompactions : Nat)
    (b e : Option K) (compaction_end : Option K) (manual_conflict : Bool)
    (files_being_compact : Option (List Nat)) :
    NullCompactionPicker.PickCompaction cf_name mopts vstorage snapshots log_buffer = none ∧
    (NullCompactionPicker.CompactRange s cf_name mopts sep vstorage input_level output_level
        output_path_id max_subcompactions b e compaction_end manual_conflict
        files_being_compact).job = none ∧
    NullCompactionPicker.NeedsCompaction vstorage = false :=
  ⟨rfl, rfl, rfl⟩

/-- C2 (counterexample): the default constructor produces a `SortedRun`
whose `compensated_file_size` is 0, so not every constructed value has
`compensated_file_size > 0`. -/
theorem C2_default_run_has_zero_compensated_size :
    SortedRun.Constructed SortedRun.SortedRun0 ∧
      ¬ (SortedRun.SortedRun0.compensated_file_size > 0) :=
  ⟨Or.inl rfl, by decide⟩

/-- C2 (amended): every `SortedRun` the five-argument constructor yields
without an assertion failure has `compensated_file_size > 0`, while the
default constructor yields the placeholder with `compensated_file_size = 0`,
`level = -1` and a null file. -/
theorem C2_five_arg_run_has_positive_compensated_size (l : Int) (f : Option FileMetaDataAddr)
    (s c : Nat) (b : Bool) (r : SortedRun)
    (h : SortedRun.SortedRun5 l f s c b = Except.ok r) :
    r.compensated_file_size > 0 ∧
      SortedRun.SortedRun0.compensated_file_size = 0 ∧
      SortedRun.SortedRun0.level = -1 ∧ SortedRun.SortedRun0.file = none := by
  refine ⟨?_, rfl, rfl, rfl⟩
  unfold SortedRun.SortedRun5 at h
  simp only at h
  split at h
  · cases h
  · split at h
    · cases h
    · rename_i hpos _
      cases h
      exact not_not.mp hpos

/-- C2 (witness): the amended statement at `SortedRun(0, &f, 10, 12, false)`. -/
theorem C2_five_arg_run_has_positive_compensated_size_witness :
    SortedRun.SortedRun5 0 (some 4096) 10 12 false =
        Except.ok ⟨0, some 4096, 10, 12, false, false⟩ ∧
      (12 > 0 ∧ SortedRun.SortedRun0.compensated_file_size = 0 ∧
        SortedRun.SortedRun0.level = -1 ∧ SortedRun.SortedRun0.file = none) :=
  ⟨rfl,
   C2_five_arg_run_has_positive_compensated_size 0 (some 4096) 10 12 false
     ⟨0, some 4096, 10, 12, false, false⟩ rfl⟩

/-- C3: every `SortedRun` its constructors can produce (the default one, and
the five-argument one when no assertion fails) satisfies: `level == 0`
implies `file != nullptr`. -/
theorem C3_level0_run_has_file (r : SortedRun) (h : SortedRun.Constructed r) :
    r.level = 0 → r.file ≠ none := by
  intro hl
  rcases h with h | ⟨l, f, s, c, b, h⟩
  · subst h
    exact absurd hl (by decide)
  · unfold SortedRun.SortedRun5 at h
    simp only at h
    split at h
    · cases h
    · split at h
      · cases h
      · rename_i _ hfile
        cases h
        rcases not_not.mp hfile with h0 | hf
        · exact absurd hl h0
        · exact hf

/-- C3 (witness): the level-0 run `SortedRun(0, &f, 10, 12, false)` is
constructed and carries a file. -/
theorem C3_level0_run_has_file_witness :
    SortedRun.Constructed ⟨0, some 4096, 10, 12, false, false⟩ ∧
      (⟨0, some 4096, 10, 12, false, false⟩ : SortedRun).level = 0 ∧
      (⟨0, some 4096, 10, 12, false, false⟩ : SortedRun).file ≠ none :=
  ⟨Or.inr ⟨0, some 4096, 10, 12, false, rfl⟩, rfl,
   C3_level0_run_has_file ⟨0, some 4096, 10, 12, false, false⟩
     (Or.inr ⟨0, some 4096, 10, 12, false, rfl⟩) rfl⟩

/-- C4: the five-argument constructor aborts on an assertion if and only if
`compensated_file_size == 0` or (`level == 0` and `file` is null); for every
other argument tuple it succeeds with a run whose `level`, `file`, `size`,
`compensated_file_size` and `being_compacted` are the arguments and whose
`skip_composite` is false. -/
theorem C4_five_arg_ctor_aborts_iff (l : Int) (f : Option FileMetaDataAddr) (s c : Nat)
    (b : Bool) :
    ((∃ e, SortedRun.SortedRun5 l f s c b = Except.error e) ↔
        (c = 0 ∨ (l = 0 ∧ f = none))) ∧
      (¬ (c = 0 ∨ (l = 0 ∧ f = none)) →
        SortedRun.SortedRun5 l f s c b =
          Except.ok
            { level := l
              file := f
              size := s
              compensated_file_size := c
              being_compacted := b
              skip_composite := false }) := by
  unfold SortedRun.SortedRun5
  simp only
  by_cases hc : c = 0
  · subst hc
    simp
  · have hpos : c > 0 := Nat.pos_of_ne_zero hc
    by_cases hl : l = 0 ∧ f = none
    · obtain ⟨h1, h2⟩ := hl
      subst h1
      subst h2
      simp [hpos]
    · have hok : l ≠ 0 ∨ f ≠ none := by
        by_cases h1 : l = 0
        · right
          intro h2
          exact hl ⟨h1, h2⟩
        · left
          exact h1
      simp [hpos, hc, hl, hok]

/-- C4 (witness): the three outcomes at concrete arguments: the first
assertion fails for `compensated_file_size = 0`, the second for a level-0
run without a file, and `SortedRun(3, nullptr, 10, 12, true)` succeeds. -/
theorem C4_five_arg_ctor_aborts_iff_witness :
    SortedRun.SortedRun5 0 (some 4096) 10 0 false =
        Except.error AssertFailure.compensated_file_size_pos ∧
      SortedRun.SortedRun5 0 none 10 12 false = Except.error AssertFailure.level0_has_file ∧
      SortedRun.SortedRun5 3 none 10 12 true = Except.ok ⟨3, none, 10, 12, true, false⟩ :=
  ⟨rfl, rfl, (C4_five_arg_ctor_aborts_iff 3 none 10 12 true).2 (by decide)⟩

/-- C5 (counterexample): `SortedRun(1, &f, 10, 12, false)` passes both
assertions and yields a run of level 1 whose file pointer is not null. -/
theorem C5_positive_level_run_with_file :
    ∃ r : SortedRun, SortedRun.SortedRun5 1 (some 4096) 10 12 false = Except.ok r ∧
      r.level > 0 ∧ r.file ≠ none :=
  ⟨⟨1, some 4096, 10, 12, false, false⟩, rfl, by decide, by decide⟩

/-- C5 (amended): with `level > 0` and `compensated_file_size > 0` the
five-argument constructor succeeds for every file argument, null or not,
and the run carries exactly the pointer it was given; so its file is null if
and only if the caller passed a null file. -/
theorem C5_positive_level_run_keeps_file_argument (l : Int) (f : Option FileMetaDataAddr)
    (s c : Nat) (b : Bool) (hl : l > 0) (hc : c > 0) :
    ∃ r : SortedRun, SortedRun.SortedRun5 l f s c b = Except.ok r ∧
      r.level = l ∧ r.file = f ∧ (r.file = none ↔ f = none) := by
  refine ⟨⟨l, f, s, c, b, false⟩, ?_, rfl, rfl, Iff.rfl⟩
  have hl0 : l ≠ 0 := by omega
  unfold SortedRun.SortedRun5
  simp [hc, hl0]

/-- C5 (witness): the amended statement at `SortedRun(2, nullptr, 10, 12,
true)`, the aggregate of a non-zero level. -/
theorem C5_positive_level_run_keeps_file_argument_witness :
    (2 : Int) > 0 ∧ (12 : Nat) > 0 ∧
      ∃ r : SortedRun, SortedRun.SortedRun5 2 none 10 12 true = Except.ok r ∧
        r.level = 2 ∧ r.file = none ∧ (r.file = none ↔ (none : Option FileMetaDataAddr) = none) :=
  ⟨by decide, by decide,
   C5_positive_level_run_keeps_file_argument 2 none 10 12 true (by decide) (by decide)⟩

/-! ### Manual compaction of a range -/

/-- C6 (counterexample): one job is running over the only file of level 1,
key range `[10, 20]`, and `CompactRange` is asked for `[10, 20]` on level 1,
so the range fully overlaps the running job; `NullCompactionPicker` returns
a null job but `*manual_conflict`, false before the call, is still false
after it. -/
theorem C6_null_picker_reports_no_conflict :
    RegisteredInputsMarked example_conflict_state ∧
      FullyOverlapsRunningJob example_conflict_state example_conflict_storage 1
        (some 10) (some 20) ⟨1, [⟨1, [⟨11, 10, 20, 100⟩]⟩], 2⟩ ∧
      (PickerKind.CompactRange PickerKind.null example_conflict_state "default" () ()
        example_conflict_storage 1 2 0 1 (some 10) (some 20) none false none 99).job = none ∧
      (PickerKind.CompactRange PickerKind.null example_conflict_state "default" () ()
        example_conflict_storage 1 2 0 1 (some 10) (some 20) none false none
        99).manual_conflict = false := by
  refine ⟨?_, ⟨?_, ?_, ?_⟩, rfl, rfl⟩
  · unfold RegisteredInputsMarked
    decide
  · decide
  · decide
  · decide

/-- C6 (amended): conflict reporting.  When every input file of every
registered job is marked `being_compacted` and the requested range fully
overlaps a running job, `CompactRange` returns a null job and leaves both
registry collections unchanged for every picker strategy; the base
`CompactionPicker::CompactRange`, which `LevelCompactionPicker` inherits,
sets `*manual_conflict` to true, while the override of
`NullCompactionPicker` never writes `*manual_conflict` and leaves it as the
caller set it. -/
theorem C6_conflict_reporting {MutableCFOptions SeparationType K : Type} [LinearOrder K]
    (kind : PickerKind) (s : PickerState K) (cf_name : String)
    (mutable_cf_options : MutableCFOptions) (separation_type : SeparationType)
    (vstorage : VersionStorageInfo K) (input_level output_level : Int)
    (output_path_id max_subcompactions : Nat) (begin_key end_key : Option K)
    (compaction_end : Option K) (manual_conflict : Bool)
    (files_being_compact : Option (List Nat)) (job_addr : Nat) (c : Compaction K)
    (hmarked : RegisteredInputsMarked s)
    (hfull : FullyOverlapsRunningJob s vstorage input_level begin_key end_key c) :
    (PickerKind.CompactRange kind s cf_name mutable_cf_options separation_type vstorage
        input_level output_level output_path_id max_subcompactions begin_key end_key
        compaction_end manual_conflict files_being_compact job_addr).job = none ∧
      (PickerKind.CompactRange kind s cf_name mutable_cf_options separation_type vstorage
        input_level output_level output_path_id max_subcompactions begin_key end_key
        compaction_end manual_conflict files_being_compact
        job_addr).state.level0_compactions_in_progress_ =
          s.level0_compactions_in_progress_ ∧
      (PickerKind.CompactRange kind s cf_name mutable_cf_options separation_type vstorage
        input_level output_level output_path_id max_subcompactions begin_key end_key
        compaction_end manual_conflict files_being_compact
        job_addr).state.compactions_in_progress_ = s.compactions_in_progress_ ∧
      (PickerKind.CompactRange kind s cf_name mutable_cf_options separation_type vstorage
        input_level output_level output_path_id max_subcompactions begin_key end_key
        compaction_end manual_conflict files_being_compact job_addr).manual_conflict =
          (match kind with
            | PickerKind.level => true
            | PickerKind.null => manual_conflict) := by
  cases kind with
  | null => exact ⟨rfl, rfl, rfl, rfl⟩
  | level =>
    obtain ⟨hc, ⟨f1, hf1, hov1⟩, hall⟩ := hfull
    unfold PickerKind.CompactRange CompactionPicker.CompactRange
    simp only
    cases hin : (vstorage.LevelFiles input_level).filter (range_overlaps begin_key end_key) with
    | nil =>
      have : f1 ∈ (vstorage.LevelFiles input_level).filter (range_overlaps begin_key end_key) :=
        List.mem_filter.mpr ⟨hf1, hov1⟩
      rw [hin] at this
      exact absurd this (List.not_mem_nil _)
    | cons f0 t =>
      have hf0 : f0 ∈ (vstorage.LevelFiles input_level).filter
          (range_overlaps begin_key end_key) := by
        rw [hin]
        exact List.mem_cons_self _ _
      obtain ⟨hf0lev, hf0ov⟩ := List.mem_filter.mp hf0
      have hflag : s.being_compacted f0.addr = true := hmarked c hc _ (hall f0 hf0lev hf0ov)
      have htake : List.takeWhile (fun f => !s.being_compacted f.addr) (f0 :: t) = [] := by
        simp [List.takeWhile, hflag]
      rw [htake]
      exact ⟨rfl, rfl, rfl, rfl⟩

/-- C6 (witness): the same request as in the counterexample, made to a
`LevelCompactionPicker`: a null job, `*manual_conflict` true, the registry
unchanged. -/
theorem C6_conflict_reporting_witness :
    (PickerKind.CompactRange PickerKind.level example_conflict_state "default" () ()
        example_conflict_storage 1 2 0 1 (some 10) (some 20) none false none 99).job = none ∧
      (PickerKind.CompactRange PickerKind.level example_conflict_state "default" () ()
        example_conflict_storage 1 2 0 1 (some 10) (some 20) none false none
        99).state.level0_compactions_in_progress_ =
          example_conflict_state.level0_compactions_in_progress_ ∧
      (PickerKind.CompactRange PickerKind.level example_conflict_state "default" () ()
        example_conflict_storage 1 2 0 1 (some 10) (some 20) none false none
        99).state.compactions_in_progress_ =
          example_conflict_state.compactions_in_progress_ ∧
      (PickerKind.CompactRange PickerKind.level example_conflict_state "default" () ()
        example_conflict_storage 1 2 0 1 (some 10) (some 20) none false none
        99).manual_conflict = true :=
  C6_conflict_reporting PickerKind.level example_conflict_state "default" () ()
    example_conflict_storage 1 2 0 1 (some 10) (some 20) none false none 99
    ⟨1, [⟨1, [⟨11, 10, 20, 100⟩]⟩], 2⟩
    (by unfold RegisteredInputsMarked; decide)
    ⟨by decide, by decide, by decide⟩

/-! ### The registry -/

/-- What the disciplined registry keeps true: no double-booking, no job
listed twice, and the input files of two different registered jobs are
disjoint. -/
theorem registry_discipline_invariant {K : Type} [DecidableEq K] (s : PickerState K)
    (h : ReachableByDiscipline s) :
    NoDoubleBooking s ∧ s.compactions_in_progress_.Nodup ∧
      (∀ c1 ∈ s.compactions_in_progress_, ∀ c2 ∈ s.compactions_in_progress_, c1 ≠ c2 →
        ∀ a ∈ c1.input_files, a ∉ c2.input_files) := by
  have unreg : ∀ (s : PickerState K) (c : Compaction K),
      (NoDoubleBooking s ∧ s.compactions_in_progress_.Nodup ∧
        (∀ c1 ∈ s.compactions_in_progress_, ∀ c2 ∈ s.compactions_in_progress_, c1 ≠ c2 →
          ∀ a ∈ c1.input_files, a ∉ c2.input_files)) →
      c ∈ s.compactions_in_progress_ →
      (NoDoubleBooking (CompactionPicker.UnregisterCompaction s c) ∧
        (CompactionPicker.UnregisterCompaction s c).compactions_in_progress_.Nodup ∧
        (∀ c1 ∈ (CompactionPicker.UnregisterCompaction s c).compactions_in_progress_,
          ∀ c2 ∈ (CompactionPicker.UnregisterCompaction s c).compactions_in_progress_,
          c1 ≠ c2 → ∀ a ∈ c1.input_files, a ∉ c2.input_files)) := by
    intro s c ⟨hndb, hnd, hdisj⟩ hmem
    refine ⟨?_, ?_, ?_⟩
    · intro a
      show (if a ∈ c.input_files then false else s.being_compacted a) = true ↔
        ∃ c' ∈ s.compactions_in_progress_.erase c, a ∈ c'.input_files
      constructor
      · intro hflag
        by_cases hin : a ∈ c.input_files
        · simp [hin] at hflag
        · simp only [hin, if_false] at hflag
          obtain ⟨c', hc', ha⟩ := (hndb a).mp hflag
          have hne : c' ≠ c := by
            intro heq
            subst heq
            exact hin ha
          exact ⟨c', (hnd.mem_erase_iff).mpr ⟨hne, hc'⟩, ha⟩
      · rintro ⟨c', hc', ha⟩
        obtain ⟨hne, hc'mem⟩ := (hnd.mem_erase_iff).mp hc'
        have hin : a ∉ c.input_files := hdisj c' hc'mem c hmem hne a ha
        simp only [hin, if_false]
        exact (hndb a).mpr ⟨c', hc'mem, ha⟩
    · exact hnd.erase c
    · intro c1 h1 c2 h2 hne a ha
      exact hdisj c1 (List.mem_of_mem_erase h1) c2 (List.mem_of_mem_erase h2) hne a ha
  induction h with
  | initial =>
    refine ⟨?_, List.nodup_nil, ?_⟩
    · intro a
      simp [PickerState.initial]
    · intro c1 h1
      simp [PickerState.initial] at h1
  | register s c _ hfresh ih =>
    obtain ⟨hndb, hnd, hdisj⟩ := ih
    refine ⟨?_, ?_, ?_⟩
    · intro a
      show (if a ∈ c.input_files then true else s.being_compacted a) = true ↔
        ∃ c' ∈ s.compactions_in_progress_.insert c, a ∈ c'.input_files
      constructor
      · intro hflag
        by_cases hin : a ∈ c.input_files
        · exact ⟨c, List.mem_insert_iff.mpr (Or.inl rfl), hin⟩
        · simp only [hin, if_false] at hflag
          obtain ⟨c', hc', ha⟩ := (hndb a).mp hflag
          exact ⟨c', List.mem_insert_iff.mpr (Or.inr hc'), ha⟩
      · rintro ⟨c', hc', ha⟩
        rcases List.mem_insert_iff.mp hc' with heq | hmem
        · subst heq
          simp [ha]
        · have := (hndb a).mpr ⟨c', hmem, ha⟩
          simp [this]
    · exact hnd.insert
    · intro c1 h1 c2 h2 hne a ha hb
      rcases List.mem_insert_iff.mp h1 with e1 | m1
      · rcases List.mem_insert_iff.mp h2 with e2 | m2
        · exact hne (e1.trans e2.symm)
        · subst e1
          have hf := hfresh a ha
          have ht := (hndb a).mpr ⟨c2, m2, hb⟩
          rw [hf] at ht
          exact Bool.noConfusion ht
      · rcases List.mem_insert_iff.mp h2 with e2 | m2
        · subst e2
          have hf := hfresh a hb
          have ht := (hndb a).mpr ⟨c1, m1, ha⟩
          rw [hf] at ht
          exact Bool.noConfusion ht
        · exact hdisj c1 m1 c2 m2 hne a ha hb
  | unregister s c _ hmem ih => exact unreg s c ih hmem
  | release s c status_ok _ hmem ih => exact unreg s c ih hmem

/-- C7 (counterexample): two jobs that share input file 7 are registered and
the first is released; in the state reached file 7 is no longer marked
`being_compacted` although it is an input of the second job, which is still
in `compactions_in_progress_`. -/
theorem C7_double_registration_breaks_booking :
    Reachable
        (CompactionPicker.ReleaseCompactionFiles
          (CompactionPicker.RegisterCompaction
            (CompactionPicker.RegisterCompaction (PickerState.initial : PickerState Nat)
              ⟨1, [⟨1, [⟨7, 10, 20, 100⟩]⟩], 2⟩)
            ⟨2, [⟨1, [⟨7, 10, 20, 100⟩]⟩], 2⟩)
          ⟨1, [⟨1, [⟨7, 10, 20, 100⟩]⟩], 2⟩ true) ∧
      ¬ NoDoubleBooking
        (CompactionPicker.ReleaseCompactionFiles
          (CompactionPicker.RegisterCompaction
            (CompactionPicker.RegisterCompaction (PickerState.initial : PickerState Nat)
              ⟨1, [⟨1, [⟨7, 10, 20, 100⟩]⟩], 2⟩)
            ⟨2, [⟨1, [⟨7, 10, 20, 100⟩]⟩], 2⟩)
          ⟨1, [⟨1, [⟨7, 10, 20, 100⟩]⟩], 2⟩ true) := by
  refine ⟨Reachable.release _ _ _ (Reachable.register _ _ (Reachable.register _ _
    Reachable.initial)), ?_⟩
  intro h
  have h7 := (h 7).mpr ⟨⟨2, [⟨1, [⟨7, 10, 20, 100⟩]⟩], 2⟩, by decide, by decide⟩
  exact absurd h7 (by decide)

/-- C7 (amended): no double-booking under the callers' discipline.  In every
state reachable from a fresh picker through `RegisterCompaction` of a job
none of whose input files is being compacted, and `UnregisterCompaction` or
`ReleaseCompactionFiles` of a registered job, the files whose
`being_compacted` flag is true are exactly the input files of the jobs in
`compactions_in_progress_`. -/
theorem C7_no_double_booking_under_discipline {K : Type} [DecidableEq K] (s : PickerState K)
    (h : ReachableByDiscipline s) : NoDoubleBooking s :=
  (registry_discipline_invariant s h).1

/-- C7 (witness): two jobs over different files are registered and the
first is released; the state reached is disciplined and has no
double-booking. -/
theorem C7_no_double_booking_under_discipline_witness :
    NoDoubleBooking
      (CompactionPicker.ReleaseCompactionFiles
        (CompactionPicker.RegisterCompaction
          (CompactionPicker.RegisterCompaction (PickerState.initial : PickerState Nat)
            ⟨1, [⟨1, [⟨7, 10, 20, 100⟩]⟩], 2⟩)
          ⟨2, [⟨1, [⟨8, 30, 40, 100⟩]⟩], 2⟩)
        ⟨1, [⟨1, [⟨7, 10, 20, 100⟩]⟩], 2⟩ false) :=
  C7_no_double_booking_under_discipline _
    (ReachableByDiscipline.release _ _ _
      (ReachableByDiscipline.register _ _
        (ReachableByDiscipline.register _ _ ReachableByDiscipline.initial
          (by intro a _; rfl))
        (by decide))
      (by decide))

/-! ### Key ranges -/

/-- Folding `cover` over a list of files only widens the range, makes it
cover every file of the list, and leaves each end at its start value or at
the corresponding key of one of the files. -/
theorem get_range_foldl_cover {K : Type} [LinearOrder K] (rest : List (FileMetaData K))
    (acc : K × K) :
    (rest.foldl CompactionPicker.GetRange.cover acc).1 ≤ acc.1 ∧
      acc.2 ≤ (rest.foldl CompactionPicker.GetRange.cover acc).2 ∧
      (∀ g ∈ rest, (rest.foldl CompactionPicker.GetRange.cover acc).1 ≤ g.smallest ∧
        g.largest ≤ (rest.foldl CompactionPicker.GetRange.cover acc).2) ∧
      ((rest.foldl CompactionPicker.GetRange.cover acc).1 = acc.1 ∨
        ∃ g ∈ rest, g.smallest = (rest.foldl CompactionPicker.GetRange.cover acc).1) ∧
      ((rest.foldl CompactionPicker.GetRange.cover acc).2 = acc.2 ∨
        ∃ g ∈ rest, g.largest = (rest.foldl CompactionPicker.GetRange.cover acc).2) := by
  induction rest generalizing acc with
  | nil => simp
  | cons g t ih =>
    obtain ⟨h1, h2, h3, h4, h5⟩ := ih (CompactionPicker.GetRange.cover acc g)
    simp only [List.foldl_cons]
    have c1 : (CompactionPicker.GetRange.cover acc g).1 ≤ acc.1 := by
      unfold CompactionPicker.GetRange.cover
      by_cases h : g.smallest < acc.1
      · simp only [h, if_true]
        exact le_of_lt h
      · simp only [h, if_false]
        exact le_refl _
    have c2 : (CompactionPicker.GetRange.cover acc g).1 ≤ g.smallest := by
      unfold CompactionPicker.GetRange.cover
      by_cases h : g.smallest < acc.1
      · simp only [h, if_true]
        exact le_refl _
      · simp only [h, if_false]
        exact not_lt.mp h
    have c3 : acc.2 ≤ (CompactionPicker.GetRange.cover acc g).2 := by
      unfold CompactionPicker.GetRange.cover
      by_cases h : acc.2 < g.largest
      · simp only [h, if_true]
        exact le_of_lt h
      · simp only [h, if_false]
        exact le_refl _
    have c4 : g.largest ≤ (CompactionPicker.GetRange.cover acc g).2 := by
      unfold CompactionPicker.GetRange.cover
      by_cases h : acc.2 < g.largest
      · simp only [h, if_true]
        exact le_refl _
      · simp only [h, if_false]
        exact not_lt.mp h
    have c5 : (CompactionPicker.GetRange.cover acc g).1 = acc.1 ∨
        (CompactionPicker.GetRange.cover acc g).1 = g.smallest := by
      unfold CompactionPicker.GetRange.cover
      by_cases h : g.smallest < acc.1
      · right
        simp only [h, if_true]
      · left
        simp only [h, if_false]
    have c6 : (CompactionPicker.GetRange.cover acc g).2 = acc.2 ∨
        (CompactionPicker.GetRange.cover acc g).2 = g.largest := by
      unfold CompactionPicker.GetRange.cover
      by_cases h : acc.2 < g.largest
      · right
        simp only [h, if_true]
      · left
        simp only [h, if_false]
    refine ⟨le_trans h1 c1, le_trans c3 h2, ?_, ?_, ?_⟩
    · intro x hx
      rcases List.mem_cons.mp hx with hxg | hxt
      · subst hxg
        exact ⟨le_trans h1 c2, le_trans c4 h2⟩
      · exact h3 x hxt
    · rcases h4 with e | ⟨x, hx, e⟩
      · rcases c5 with e5 | e5
        · left
          exact e.trans e5
        · right
          exact ⟨g, List.mem_cons_self _ _, (e.trans e5).symm⟩
      · right
        exact ⟨x, List.mem_cons_of_mem _ hx, e⟩
    · rcases h5 with e | ⟨x, hx, e⟩
      · rcases c6 with e6 | e6
        · left
          exact e.trans e6
        · right
          exact ⟨g, List.mem_cons_self _ _, (e.trans e6).symm⟩
      · right
        exact ⟨x, List.mem_cons_of_mem _ hx, e⟩

/-- On a non-empty input `GetRange` returns a range whose ends are the least
smallest key and the greatest largest key of the files. -/
theorem get_range_tight {K : Type} [LinearOrder K] (inputs : CompactionInputFiles K)
    (hne : inputs.files ≠ []) :
    ∃ lo hi : K, CompactionPicker.GetRange inputs = some (lo, hi) ∧
      (∀ f ∈ inputs.files, lo ≤ f.smallest ∧ f.largest ≤ hi) ∧
      (∃ f ∈ inputs.files, f.smallest = lo) ∧ (∃ f ∈ inputs.files, f.largest = hi) := by
  unfold CompactionPicker.GetRange
  cases hfiles : inputs.files with
  | nil => exact absurd hfiles hne
  | cons f rest =>
    obtain ⟨h1, h2, h3, h4, h5⟩ := get_range_foldl_cover rest (f.smallest, f.largest)
    refine ⟨_, _, rfl, ?_, ?_, ?_⟩
    · intro x hx
      rcases List.mem_cons.mp hx with hxf | hxr
      · subst hxf
        exact ⟨h1, h2⟩
      · exact h3 x hxr
    · rcases h4 with e | ⟨x, hx, e⟩
      · exact ⟨f, List.mem_cons_self _ _, e.symm⟩
      · exact ⟨x, List.mem_cons_of_mem _ hx, e⟩
    · rcases h5 with e | ⟨x, hx, e⟩
      · exact ⟨f, List.mem_cons_self _ _, e.symm⟩
      · exact ⟨x, List.mem_cons_of_mem _ hx, e⟩

/-- C9: `GetRange` is tight and monotone.  For a non-empty file set `A` it
returns the least smallest key and the greatest largest key of the files
under the comparator, with `smallest <= largest` when the files are
well-formed (each has `smallest <= largest`); and when every file of `A` is
also in `B`, the range of `B` contains the range of `A`. -/
theorem C9_get_range_tight_and_monotone {K : Type} [LinearOrder K]
    (A B : CompactionInputFiles K) (hA : A.files ≠ [])
    (hsub : ∀ f ∈ A.files, f ∈ B.files) :
    ∃ loA hiA loB hiB : K,
      CompactionPicker.GetRange A = some (loA, hiA) ∧
      CompactionPicker.GetRange B = some (loB, hiB) ∧
      ((∀ f ∈ A.files, f.smallest ≤ f.largest) → loA ≤ hiA) ∧
      (∀ f ∈ A.files, loA ≤ f.smallest ∧ f.largest ≤ hiA) ∧
      (∃ f ∈ A.files, f.smallest = loA) ∧ (∃ f ∈ A.files, f.largest = hiA) ∧
      loB ≤ loA ∧ hiA ≤ hiB := by
  have hB : B.files ≠ [] := by
    cases hfa : A.files with
    | nil => exact absurd hfa hA
    | cons f rest =>
      have hf : f ∈ B.files := hsub f (by rw [hfa]; exact List.mem_cons_self _ _)
      exact List.ne_nil_of_mem hf
  obtain ⟨loA, hiA, hgA, hcovA, ⟨fs, hfs, hfse⟩, ⟨fl, hfl, hfle⟩⟩ := get_range_tight A hA
  obtain ⟨loB, hiB, hgB, hcovB, _, _⟩ := get_range_tight B hB
  refine ⟨loA, hiA, loB, hiB, hgA, hgB, ?_, hcovA, ⟨fs, hfs, hfse⟩, ⟨fl, hfl, hfle⟩, ?_, ?_⟩
  · intro hwf
    calc loA ≤ fs.smallest := (hcovA fs hfs).1
      _ ≤ fs.largest := hwf fs hfs
      _ ≤ hiA := (hcovA fs hfs).2
  · rw [← hfse]
    exact (hcovB fs (hsub fs hfs)).1
  · rw [← hfle]
    exact (hcovB fl (hsub fl hfl)).2

/-- C9 (witness): with natural-number keys, `A` holds the files `[30, 40]`
and `[10, 20]` and `B` holds those and `[5, 35]` and `[50, 60]`; the range of
`A` is `[10, 40]` and the range of `B` is `[5, 60]`. -/
theorem C9_get_range_tight_and_monotone_witness :
    CompactionPicker.GetRange
        (⟨1, [⟨1, 30, 40, 7⟩, ⟨2, 10, 20, 7⟩]⟩ : CompactionInputFiles Nat) = some (10, 40) ∧
      CompactionPicker.GetRange
        (⟨1, [⟨3, 5, 35, 7⟩, ⟨1, 30, 40, 7⟩, ⟨4, 50, 60, 7⟩, ⟨2, 10, 20, 7⟩]⟩ :
          CompactionInputFiles Nat) = some (5, 60) ∧
      ∃ loA hiA loB hiB : Nat,
        CompactionPicker.GetRange
          (⟨1, [⟨1, 30, 40, 7⟩, ⟨2, 10, 20, 7⟩]⟩ : CompactionInputFiles Nat) =
            some (loA, hiA) ∧
        CompactionPicker.GetRange
          (⟨1, [⟨3, 5, 35, 7⟩, ⟨1, 30, 40, 7⟩, ⟨4, 50, 60, 7⟩, ⟨2, 10, 20, 7⟩]⟩ :
            CompactionInputFiles Nat) = some (loB, hiB) ∧
        ((∀ f ∈ [(⟨1, 30, 40, 7⟩ : FileMetaData Nat), ⟨2, 10, 20, 7⟩],
          f.smallest ≤ f.largest) → loA ≤ hiA) ∧
        (∀ f ∈ [(⟨1, 30, 40, 7⟩ : FileMetaData Nat), ⟨2, 10, 20, 7⟩],
          loA ≤ f.smallest ∧ f.largest ≤ hiA) ∧
        (∃ f ∈ [(⟨1, 30, 40, 7⟩ : FileMetaData Nat), ⟨2, 10, 20, 7⟩], f.smallest = loA) ∧
        (∃ f ∈ [(⟨1, 30, 40, 7⟩ : FileMetaData Nat), ⟨2, 10, 20, 7⟩], f.largest = hiA) ∧
        loB ≤ loA ∧ hiA ≤ hiB :=
  ⟨by decide, by decide,
   C9_get_range_tight_and_monotone
     (⟨1, [⟨1, 30, 40, 7⟩, ⟨2, 10, 20, 7⟩]⟩ : CompactionInputFiles Nat)
     ⟨1, [⟨3, 5, 35, 7⟩, ⟨1, 30, 40, 7⟩, ⟨4, 50, 60, 7⟩, ⟨2, 10, 20, 7⟩]⟩
     (by decide) (by decide)⟩

/-! ### Intra-L0 compaction -/

/-- The candidate runs of `n` files are exactly the pairs `(start, len)` with
`start + len <= n`. -/
theorem intra_l0_mem_runs (n start len : Nat) :
    (start, len) ∈ FindIntraL0Compaction.runs n ↔ start + len ≤ n := by
  unfold FindIntraL0Compaction.runs
  simp only [List.mem_flatMap, List.mem_reverse, List.mem_range, List.mem_map, Prod.mk.injEq]
  constructor
  · rintro ⟨l, hl, st, hst, rfl, rfl⟩
    omega
  · intro h
    exact ⟨len, by omega, start, by omega, rfl, rfl⟩

/-- The first candidate run is the whole list. -/
theorem intra_l0_runs_head (n : Nat) :
    ∃ t, FindIntraL0Compaction.runs n = (0, n) :: t := by
  unfold FindIntraL0Compaction.runs
  rw [List.range_succ, List.reverse_append]
  simp [List.range_succ]

/-- The run `(start, len)` of a list that has room for it has `len` files. -/
theorem intra_l0_span_length {K : Type} (level_files : List (FileMetaData K))
    (start len : Nat) (h : start + len ≤ level_files.length) :
    (FindIntraL0Compaction.span level_files (start, len)).length = len := by
  unfold FindIntraL0Compaction.span
  simp only [List.length_take, List.length_drop]
  omega

/-- Files of size 1 have an aggregate size equal to their number. -/
theorem aggregate_size_of_unit_files {K : Type} (files : List (FileMetaData K))
    (h : ∀ f ∈ files, f.file_size = 1) : aggregate_size files = files.length := by
  unfold aggregate_size
  induction files with
  | nil => rfl
  | cons f t ih =>
    have hf : f.file_size = 1 := h f (List.mem_cons_self _ _)
    have ht := ih (fun x hx => h x (List.mem_cons_of_mem _ hx))
    simp only [List.map_cons, List.sum_cons, List.length_cons, hf, ht]
    omega

/-- When the whole list qualifies, it is the run that is proposed. -/
theorem intra_l0_whole_list {K : Type} (level_files : List (FileMetaData K))
    (min_files max_bytes : Nat) (comp_inputs : CompactionInputFiles K)
    (hmin : min_files ≤ level_files.length) (hsize : aggregate_size level_files ≤ max_bytes) :
    FindIntraL0Compaction level_files min_files max_bytes comp_inputs =
      (true, { level := 0, files := level_files }) := by
  obtain ⟨t, ht⟩ := intra_l0_runs_head level_files.length
  have hspan : FindIntraL0Compaction.span level_files (0, level_files.length) = level_files := by
    simp [FindIntraL0Compaction.span]
  have hq : FindIntraL0Compaction.qualifies level_files min_files max_bytes
      (0, level_files.length) = true := by
    unfold FindIntraL0Compaction.qualifies
    rw [hspan]
    simp [hmin, hsize]
  unfold FindIntraL0Compaction
  rw [ht, List.find?_cons_of_pos _ hq]
  simp only [hspan]

/-- `FindIntraL0Compaction` returns false exactly when no run qualifies. -/
theorem intra_l0_false_iff {K : Type} (level_files : List (FileMetaData K))
    (min_files max_bytes : Nat) (comp_inputs : CompactionInputFiles K) :
    (FindIntraL0Compaction level_files min_files max_bytes comp_inputs).1 = false ↔
      ∀ start len : Nat, start + len ≤ level_files.length → min_files ≤ len →
        max_bytes < aggregate_size (FindIntraL0Compaction.span level_files (start, len)) := by
  unfold FindIntraL0Compaction
  constructor
  · intro h start len hfit hmin
    cases hfind : (FindIntraL0Compaction.runs level_files.length).find?
        (FindIntraL0Compaction.qualifies level_files min_files max_bytes) with
    | some run =>
      rw [hfind] at h
      exact Bool.noConfusion h
    | none =>
      have hno := List.find?_eq_none.mp hfind (start, len)
        ((intra_l0_mem_runs _ _ _).mpr hfit)
      unfold FindIntraL0Compaction.qualifies at hno
      simp only [Bool.and_eq_true, decide_eq_true_eq, not_and, not_le] at hno
      exact hno hmin
  · intro h
    cases hfind : (FindIntraL0Compaction.runs level_files.length).find?
        (FindIntraL0Compaction.qualifies level_files min_files max_bytes) with
    | none => rfl
    | some run =>
      exfalso
      obtain ⟨start, len⟩ := run
      have hq := List.find?_some hfind
      have hmem := (intra_l0_mem_runs _ _ _).mp (List.mem_of_find?_eq_some hfind)
      unfold FindIntraL0Compaction.qualifies at hq
      simp only [Bool.and_eq_true, decide_eq_true_eq] at hq
      exact absurd hq.2 (not_le.mpr (h start len hmem hq.1))

/-- C10: `FindIntraL0Compaction` returns true only with a contiguous run of
the level-0 files (the `len` files from position `start` on) that has at
least `min_files_to_compact` files and whose file sizes add up to at most
`max_compact_bytes_per_del_file`, and it returns false exactly when every
contiguous run of at least `min_files_to_compact` files has file sizes that
add up to more than `max_compact_bytes_per_del_file`; for five files of size
1 with `max_compact_bytes_per_del_file = 10` it returns the run of all five
files when `min_files_to_compact = 4` and false when
`min_files_to_compact = 6`. -/
theorem C10_find_intra_l0_compaction {K : Type} (level_files : List (FileMetaData K))
    (min_files max_bytes : Nat) (comp_inputs : CompactionInputFiles K) :
    ((FindIntraL0Compaction level_files min_files max_bytes comp_inputs).1 = true →
        ∃ start len : Nat, start + len ≤ level_files.length ∧ min_files ≤ len ∧
          (FindIntraL0Compaction level_files min_files max_bytes comp_inputs).2 =
            { level := 0, files := (level_files.drop start).take len } ∧
          ((level_files.drop start).take len).length = len ∧
          (((level_files.drop start).take len).map (fun f => f.file_size)).sum ≤ max_bytes) ∧
      ((FindIntraL0Compaction level_files min_files max_bytes comp_inputs).1 = false ↔
        ∀ start len : Nat, start + len ≤ level_files.length → min_files ≤ len →
          max_bytes <
            (((level_files.drop start).take len).map (fun f => f.file_size)).sum) ∧
      (level_files.length = 5 → (∀ f ∈ level_files, f.file_size = 1) →
        FindIntraL0Compaction level_files 4 10 comp_inputs =
            (true, { level := 0, files := level_files }) ∧
          (FindIntraL0Compaction level_files 6 10 comp_inputs).1 = false) := by
  refine ⟨?_, intra_l0_false_iff level_files min_files max_bytes comp_inputs, ?_⟩
  · intro h
    unfold FindIntraL0Compaction at h ⊢
    cases hfind : (FindIntraL0Compaction.runs level_files.length).find?
        (FindIntraL0Compaction.qualifies level_files min_files max_bytes) with
    | none =>
      rw [hfind] at h
      exact Bool.noConfusion h
    | some run =>
      obtain ⟨start, len⟩ := run
      have hq := List.find?_some hfind
      have hmem := (intra_l0_mem_runs _ _ _).mp (List.mem_of_find?_eq_some hfind)
      unfold FindIntraL0Compaction.qualifies at hq
      simp only [Bool.and_eq_true, decide_eq_true_eq] at hq
      exact ⟨start, len, hmem, hq.1, rfl, intra_l0_span_length level_files start len hmem, hq.2⟩
  · intro hlen hunit
    have hsize := aggregate_size_of_unit_files level_files hunit
    refine ⟨intra_l0_whole_list level_files 4 10 comp_inputs (by omega) (by omega), ?_⟩
    rw [intra_l0_false_iff]
    intro start len hfit hmin
    omega

/-- C10 (witness): the five level-0 files of size 1 from the spec's example,
with keys in `Nat`; and three files of size 4 with
`max_compact_bytes_per_del_file = 10`, where the size bound decides: with
`min_files_to_compact = 2` the run proposed is the first two files (sizes
adding up to 8, while all three add up to 12), and with
`min_files_to_compact = 3` the call returns false. -/
theorem C10_find_intra_l0_compaction_witness :
    FindIntraL0Compaction
        [(⟨1, 10, 19, 1⟩ : FileMetaData Nat), ⟨2, 20, 29, 1⟩, ⟨3, 30, 39, 1⟩, ⟨4, 40, 49, 1⟩,
          ⟨5, 50, 59, 1⟩] 4 10 ⟨0, []⟩ =
        (true, ⟨0, [⟨1, 10, 19, 1⟩, ⟨2, 20, 29, 1⟩, ⟨3, 30, 39, 1⟩, ⟨4, 40, 49, 1⟩,
          ⟨5, 50, 59, 1⟩]⟩) ∧
      (FindIntraL0Compaction
        [(⟨1, 10, 19, 1⟩ : FileMetaData Nat), ⟨2, 20, 29, 1⟩, ⟨3, 30, 39, 1⟩, ⟨4, 40, 49, 1⟩,
          ⟨5, 50, 59, 1⟩] 6 10 ⟨0, []⟩).1 = false ∧
      FindIntraL0Compaction
        [(⟨1, 10, 19, 4⟩ : FileMetaData Nat), ⟨2, 20, 29, 4⟩, ⟨3, 30, 39, 4⟩] 2 10 ⟨0, []⟩ =
        (true, ⟨0, [⟨1, 10, 19, 4⟩, ⟨2, 20, 29, 4⟩]⟩) ∧
      (FindIntraL0Compaction
        [(⟨1, 10, 19, 4⟩ : FileMetaData Nat), ⟨2, 20, 29, 4⟩, ⟨3, 30, 39, 4⟩] 3 10
          ⟨0, []⟩).1 = false ∧
      10 < ((([(⟨1, 10, 19, 4⟩ : FileMetaData Nat), ⟨2, 20, 29, 4⟩, ⟨3, 30, 39, 4⟩].drop
        0).take 3).map (fun f => f.file_size)).sum := by
  have hunit := (C10_find_intra_l0_compaction
    [(⟨1, 10, 19, 1⟩ : FileMetaData Nat), ⟨2, 20, 29, 1⟩, ⟨3, 30, 39, 1⟩, ⟨4, 40, 49, 1⟩,
      ⟨5, 50, 59, 1⟩] 4 10 ⟨0, []⟩).2.2 (by decide) (by decide)
  have hfalse : (FindIntraL0Compaction
      [(⟨1, 10, 19, 4⟩ : FileMetaData Nat), ⟨2, 20, 29, 4⟩, ⟨3, 30, 39, 4⟩] 3 10
        ⟨0, []⟩).1 = false := by decide
  have hbound := (C10_find_intra_l0_compaction
    [(⟨1, 10, 19, 4⟩ : FileMetaData Nat), ⟨2, 20, 29, 4⟩, ⟨3, 30, 39, 4⟩] 3 10
      ⟨0, []⟩).2.1.mp hfalse 0 3 (by decide) (by decide)
  exact ⟨hunit.1, hunit.2, by decide, hfalse, hbound⟩

/-! ### Clean cuts -/

/-- C11: for the base `CompactionPicker` and for both pickers that do not
override it, `MaxOutputLevel()` is the `int` value of `NumberLevels() - 1`,
which is the number `NumberLevels() - 1` itself whenever `num_levels` is an
`int` above `INT_MIN`; and `NumberLevels()` is the configured
`ioptions.num_levels`. -/
theorem C11_max_output_level (kind : PickerKind) (ioptions_ : ImmutableCFOptions) :
    CompactionPicker.NumberLevels ioptions_ = ioptions_.num_levels ∧
      CompactionPicker.MaxOutputLevel ioptions_ =
        int_wrap (CompactionPicker.NumberLevels ioptions_ - 1) ∧
      PickerKind.MaxOutputLevel kind ioptions_ = CompactionPicker.MaxOutputLevel ioptions_ ∧
      (-2147483648 < ioptions_.num_levels → ioptions_.num_levels ≤ 2147483647 →
        CompactionPicker.MaxOutputLevel ioptions_ =
            CompactionPicker.NumberLevels ioptions_ - 1 ∧
          PickerKind.MaxOutputLevel kind ioptions_ =
            CompactionPicker.NumberLevels ioptions_ - 1) := by
  have hk : PickerKind.MaxOutputLevel kind ioptions_ =
      CompactionPicker.MaxOutputLevel ioptions_ := by
    cases kind <;> rfl
  refine ⟨rfl, rfl, hk, ?_⟩
  intro hlo hhi
  have h : CompactionPicker.MaxOutputLevel ioptions_ =
      CompactionPicker.NumberLevels ioptions_ - 1 := by
    unfold CompactionPicker.MaxOutputLevel CompactionPicker.NumberLevels int_wrap
    omega
  exact ⟨h, hk.trans h⟩

/-- C11 (witness): with seven levels configured, the maximum output level of
a `LevelCompactionPicker` and of a `NullCompactionPicker` is 6. -/
theorem C11_max_output_level_witness :
    PickerKind.MaxOutputLevel PickerKind.level ⟨7⟩ = 6 ∧
      PickerKind.MaxOutputLevel PickerKind.null ⟨7⟩ = 6 ∧
      CompactionPicker.NumberLevels ⟨7⟩ = 7 :=
  ⟨((C11_max_output_level PickerKind.level ⟨7⟩).2.2.2 (by decide) (by decide)).2,
   ((C11_max_output_level PickerKind.null ⟨7⟩).2.2.2 (by decide) (by decide)).2, rfl⟩

/-! ### The overwrite-key index -/

/-- After a new word is inserted, its value is the inserted one. -/
theorem patricia_value_insert_self {K V : Type} [LinearOrder K] (t : Patricia K V) (k : K)
    (v : V) (h : Patricia.value t k = none) :
    Patricia.value (Patricia.insert t k v) k = some v := by
  induction t with
  | nil => simp [Patricia.insert, Patricia.value]
  | cons w rest ih =>
    obtain ⟨k', v'⟩ := w
    unfold Patricia.value at h
    by_cases hk : k = k'
    · simp [hk] at h
    · simp only [hk, if_false] at h
      unfold Patricia.insert
      by_cases hlt : k < k'
      · simp [hlt, Patricia.value]
      · simp only [hlt, if_false]
        unfold Patricia.value
        simp only [hk, if_false]
        exact ih h

/-- Inserting a new word leaves the values of the other words as they were. -/
theorem patricia_value_insert_other {K V : Type} [LinearOrder K] (t : Patricia K V) (k k' : K)
    (v : V) (hne : k' ≠ k) :
    Patricia.value (Patricia.insert t k v) k' = Patricia.value t k' := by
  induction t with
  | nil => simp [Patricia.insert, Patricia.value, hne]
  | cons w rest ih =>
    obtain ⟨k2, v2⟩ := w
    unfold Patricia.insert
    by_cases hlt : k < k2
    · simp only [hlt, if_true]
      conv_lhs => unfold Patricia.value
      simp only [hne, if_false]
    · simp only [hlt, if_false]
      unfold Patricia.value
      by_cases h2 : k' = k2
      · simp [h2]
      · simp only [h2, if_false]
        exact ih

/-- C12: `Upsert` of the overwrite-key index.  It returns true if and only if
no entry was stored under the extracted key before the call, and then `key`
is the entry stored under it, the other words keep their entries and no
entry object is written.  When an entry is already stored under the key, it
returns false, the trie (the stored pointer and the set of words) is
unchanged, and the offsets of the stored entry and of the passed entry are
exchanged, nothing else of any entry being written. -/
theorem C12_overwrite_upsert {K P : Type} [LinearOrder K]
    (extractor_ : WriteBatchIndexEntry P → K) (s : OverwriteIndexState K P) (key : EntryPtr) :
    ((WriteBatchEntryPTrieIndex_true.Upsert extractor_ s key).1 = true ↔
        Patricia.value s.index_ (extractor_ (s.entries key)) = none) ∧
      (Patricia.value s.index_ (extractor_ (s.entries key)) = none →
        Patricia.value (WriteBatchEntryPTrieIndex_true.Upsert extractor_ s key).2.index_
            (extractor_ (s.entries key)) = some key ∧
          (∀ k', k' ≠ extractor_ (s.entries key) →
            Patricia.value (WriteBatchEntryPTrieIndex_true.Upsert extractor_ s key).2.index_ k' =
              Patricia.value s.index_ k') ∧
          (WriteBatchEntryPTrieIndex_true.Upsert extractor_ s key).2.entries = s.entries) ∧
      (∀ entry, Patricia.value s.index_ (extractor_ (s.entries key)) = some entry →
        (WriteBatchEntryPTrieIndex_true.Upsert extractor_ s key).1 = false ∧
          (WriteBatchEntryPTrieIndex_true.Upsert extractor_ s key).2.index_ = s.index_ ∧
          ((WriteBatchEntryPTrieIndex_true.Upsert extractor_ s key).2.entries entry).offset =
            (s.entries key).offset ∧
          ((WriteBatchEntryPTrieIndex_true.Upsert extractor_ s key).2.entries key).offset =
            (s.entries entry).offset ∧
          (∀ p, ((WriteBatchEntryPTrieIndex_true.Upsert extractor_ s key).2.entries p).payload =
            (s.entries p).payload) ∧
          (∀ p, p ≠ entry → p ≠ key →
            (WriteBatchEntryPTrieIndex_true.Upsert extractor_ s key).2.entries p =
              s.entries p)) := by
  unfold WriteBatchEntryPTrieIndex_true.Upsert
  simp only
  cases hv : Patricia.value s.index_ (extractor_ (s.entries key)) with
  | none =>
    refine ⟨by simp, ?_, ?_⟩
    · intro _
      exact ⟨patricia_value_insert_self _ _ _ hv,
        fun k' hk' => patricia_value_insert_other _ _ _ _ hk', rfl⟩
    · intro entry he
      cases he
  | some e =>
    refine ⟨by simp, ?_, ?_⟩
    · intro h
      cases h
    · intro entry he
      cases he
      refine ⟨rfl, rfl, ?_, ?_, ?_, ?_⟩
      · unfold swap_offset
        by_cases hek : e = key
        · subst hek
          simp
        · simp [hek]
      · unfold swap_offset
        simp
      · intro p
        unfold swap_offset
        by_cases hpk : p = key
        · subst hpk
          by_cases hpe : p = e
          · subst hpe
            simp
          · simp [hpe]
        · by_cases hpe : p = e
          · subst hpe
            simp [hpk]
          · simp [hpk, hpe]
      · intro p hpe hpk
        unfold swap_offset
        simp [hpk, hpe]

/-- C12 (witness): the entry at address 7 (offset 70) is stored under key 1;
the entry at address 9 (offset 90, same key) is upserted.  The call returns
false, the trie still holds address 7, and the two offsets are exchanged. -/
theorem C12_overwrite_upsert_witness :
    (WriteBatchEntryPTrieIndex_true.Upsert (fun e : WriteBatchIndexEntry Nat => e.payload)
        ⟨[(1, 7)], fun p => ⟨p * 10, 1⟩⟩ 9).1 = false ∧
      (WriteBatchEntryPTrieIndex_true.Upsert (fun e : WriteBatchIndexEntry Nat => e.payload)
        ⟨[(1, 7)], fun p => ⟨p * 10, 1⟩⟩ 9).2.index_ = [(1, 7)] ∧
      ((WriteBatchEntryPTrieIndex_true.Upsert (fun e : WriteBatchIndexEntry Nat => e.payload)
        ⟨[(1, 7)], fun p => ⟨p * 10, 1⟩⟩ 9).2.entries 7).offset = 90 ∧
      ((WriteBatchEntryPTrieIndex_true.Upsert (fun e : WriteBatchIndexEntry Nat => e.payload)
        ⟨[(1, 7)], fun p => ⟨p * 10, 1⟩⟩ 9).2.entries 9).offset = 70 :=
  have h := (C12_overwrite_upsert (fun e : WriteBatchIndexEntry Nat => e.payload)
    ⟨[(1, 7)], fun p => ⟨p * 10, 1⟩⟩ 9).2.2 7 (by decide)
  ⟨h.1, h.2.1, h.2.2.1, h.2.2.2.1⟩

/-! ### Population count -/

/-- A number below `2 ^ bits` has population count 0 exactly when it is 0. -/
theorem popcount_bits_eq_zero (bits n : Nat) (h : n < 2 ^ bits) :
    popcount_bits bits n = 0 ↔ n = 0 := by
  induction bits generalizing n with
  | zero =>
    have hn : n = 0 := by
      simp only [pow_zero] at h
      omega
    subst hn
    simp [popcount_bits]
  | succ b ih =>
    unfold popcount_bits
    have hdiv : n / 2 < 2 ^ b := by
      rw [pow_succ] at h
      omega
    have := ih (n / 2) hdiv
    omega

/-- A number below `2 ^ bits` has population count 1 exactly when it is a
power of two. -/
theorem popcount_bits_eq_one (bits n : Nat) (h : n < 2 ^ bits) :
    popcount_bits bits n = 1 ↔ ∃ j, n = 2 ^ j := by
  induction bits generalizing n with
  | zero =>
    have hn : n = 0 := by
      simp only [pow_zero] at h
      omega
    subst hn
    constructor
    · intro h0
      simp [popcount_bits] at h0
    · rintro ⟨j, hj⟩
      have : 0 < 2 ^ j := Nat.two_pow_pos j
      omega
  | succ b ih =>
    unfold popcount_bits
    have hdiv : n / 2 < 2 ^ b := by
      rw [pow_succ] at h
      omega
    have ih1 := ih (n / 2) hdiv
    have ih0 := popcount_bits_eq_zero b (n / 2) hdiv
    constructor
    · intro hsum
      rcases Nat.mod_two_eq_zero_or_one n with hm | hm
      · have h1 : popcount_bits b (n / 2) = 1 := by omega
        obtain ⟨j, hj⟩ := ih1.mp h1
        refine ⟨j + 1, ?_⟩
        rw [pow_succ]
        omega
      · have h0 : popcount_bits b (n / 2) = 0 := by omega
        have := ih0.mp h0
        exact ⟨0, by simp; omega⟩
    · rintro ⟨j, hj⟩
      cases j with
      | zero =>
        simp only [pow_zero] at hj
        subst hj
        have : popcount_bits b (1 / 2) = 0 := ih0.mpr (by norm_num)
        simp only [Nat.reduceMod]
        omega
      | succ j' =>
        rw [pow_succ] at hj
        have hm : n % 2 = 0 := by omega
        have hd : n / 2 = 2 ^ j' := by omega
        have : popcount_bits b (n / 2) = 1 := ih1.mpr ⟨j', hd⟩
        omega

/-- A vector whose size is a `uint32_t` is full exactly when its size is a
power of two. -/
theorem vector_full_iff (v : value_vector_t) (h : v.size < 4294967296) :
    v.full = true ↔ ∃ j, v.size = 2 ^ j := by
  unfold value_vector_t.full fast_popcount
  rw [beq_iff_eq]
  exact popcount_bits_eq_one 32 v.size (by norm_num; exact h)
/-! ### Trie lemmas -/

/-- A value found under a word is a value of the trie. -/
theorem patricia_value_mem {K V : Type} [DecidableEq K] (t : Patricia K V) (k : K) (v : V)
    (h : Patricia.value t k = some v) : (k, v) ∈ t := by
  induction t with
  | nil => simp [Patricia.value] at h
  | cons w rest ih =>
    obtain ⟨k', v'⟩ := w
    unfold Patricia.value at h
    by_cases hk : k = k'
    · simp only [hk, if_true, Option.some.injEq] at h
      subst h
      subst hk
      exact List.mem_cons_self _ _
    · simp only [hk, if_false] at h
      exact List.mem_cons_of_mem _ (ih h)

/-- A word under which nothing is found is not a word of the trie. -/
theorem patricia_value_none {K V : Type} [DecidableEq K] (t : Patricia K V) (k : K)
    (h : Patricia.value t k = none) : k ∉ t.map Prod.fst := by
  induction t with
  | nil => simp
  | cons w rest ih =>
    obtain ⟨k', v'⟩ := w
    unfold Patricia.value at h
    by_cases hk : k = k'
    · simp [hk] at h
    · simp only [hk, if_false] at h
      simp only [List.map_cons, List.mem_cons, not_or]
      exact ⟨hk, ih h⟩

/-- The members of the trie after an insertion. -/
theorem patricia_mem_insert {K V : Type} [LinearOrder K] (t : Patricia K V) (k : K) (v : V)
    (w : K × V) : w ∈ Patricia.insert t k v ↔ w = (k, v) ∨ w ∈ t := by
  induction t with
  | nil => simp [Patricia.insert]
  | cons x rest ih =>
    obtain ⟨k', v'⟩ := x
    unfold Patricia.insert
    by_cases hlt : k < k'
    · simp [hlt]
    · simp only [hlt, if_false, List.mem_cons, ih]
      tauto

/-- Inserting a new word keeps the words in strictly ascending order. -/
theorem patricia_insert_sorted {K V : Type} [LinearOrder K] (t : Patricia K V) (k : K) (v : V)
    (hs : List.Pairwise (fun a b => a < b) (t.map Prod.fst)) (hk : k ∉ t.map Prod.fst) :
    List.Pairwise (fun a b => a < b) ((Patricia.insert t k v).map Prod.fst) := by
  induction t with
  | nil => simp [Patricia.insert]
  | cons x rest ih =>
    obtain ⟨k', v'⟩ := x
    simp only [List.map_cons, List.pairwise_cons, List.mem_cons, not_or] at hs hk
    unfold Patricia.insert
    by_cases hlt : k < k'
    · simp only [hlt, if_true, List.map_cons, List.pairwise_cons, List.mem_cons]
      refine ⟨?_, hs⟩
      intro a ha
      rcases ha with rfl | ha
      · exact hlt
      · exact lt_trans hlt (hs.1 a ha)
    · simp only [hlt, if_false, List.map_cons, List.pairwise_cons]
      refine ⟨?_, ih hs.2 hk.2⟩
      intro a ha
      obtain ⟨w, hw, rfl⟩ := List.mem_map.mp ha
      rcases (patricia_mem_insert rest k v w).mp hw with rfl | hw'
      · exact lt_of_le_of_ne (not_lt.mp hlt) (Ne.symm hk.1)
      · exact hs.1 _ (List.mem_map_of_mem _ hw')

/-- Overwriting a value leaves the words as they were. -/
theorem patricia_update_keys {K V : Type} [DecidableEq K] (t : Patricia K V) (k : K) (v : V) :
    (Patricia.update t k v).map Prod.fst = t.map Prod.fst := by
  induction t with
  | nil => rfl
  | cons x rest ih =>
    obtain ⟨k', v'⟩ := x
    unfold Patricia.update
    by_cases hk : k = k'
    · simp [hk]
    · simp [hk, ih]

/-- A member of the trie after a value is overwritten is the overwritten
word with its new value or a member from before. -/
theorem patricia_mem_update {K V : Type} [DecidableEq K] (t : Patricia K V) (k : K) (v : V)
    (w : K × V) (h : w ∈ Patricia.update t k v) : w = (k, v) ∨ w ∈ t := by
  induction t with
  | nil => simp [Patricia.update] at h
  | cons x rest ih =>
    obtain ⟨k', v'⟩ := x
    unfold Patricia.update at h
    by_cases hk : k = k'
    · simp only [hk, if_true, List.mem_cons] at h
      rcases h with h | h
      · left
        rw [h, hk]
      · right
        exact List.mem_cons_of_mem _ h
    · simp only [hk, if_false, List.mem_cons] at h
      rcases h with h | h
      · right
        rw [h]
        exact List.mem_cons_self _ _
      · rcases ih h with h' | h'
        · left
          exact h'
        · right
          exact List.mem_cons_of_mem _ h'

/-- After the value under a stored word is overwritten, the word has the new
value. -/
theorem patricia_value_update_self {K V : Type} [DecidableEq K] (t : Patricia K V) (k : K)
    (v v0 : V) (h : Patricia.value t k = some v0) :
    Patricia.value (Patricia.update t k v) k = some v := by
  induction t with
  | nil => simp [Patricia.value] at h
  | cons x rest ih =>
    obtain ⟨k', v'⟩ := x
    unfold Patricia.value at h
    unfold Patricia.update
    by_cases hk : k = k'
    · simp [hk, Patricia.value]
    · simp only [hk, if_false] at h ⊢
      unfold Patricia.value
      simp only [hk, if_false]
      exact ih h

/-- Overwriting the value under one word leaves the values under the other
words as they were. -/
theorem patricia_value_update_other {K V : Type} [DecidableEq K] (t : Patricia K V) (k k' : K)
    (v : V) (hne : k' ≠ k) :
    Patricia.value (Patricia.update t k v) k' = Patricia.value t k' := by
  induction t with
  | nil => rfl
  | cons x rest ih =>
    obtain ⟨k2, v2⟩ := x
    unfold Patricia.update
    by_cases hk : k = k2
    · subst hk
      simp [Patricia.value, hne]
    · simp only [hk, if_false]
      unfold Patricia.value
      by_cases h2 : k' = k2
      · simp [h2]
      · simp only [h2, if_false]
        exact ih
/-! ### Vector lemmas -/

/-- Writing slot `n` and then taking the first `n + 1` slots gives the first
`n` slots followed by the written value. -/
theorem take_set_succ {α : Type} (l : List α) (n : Nat) (x : α) (h : n < l.length) :
    (l.set n x).take (n + 1) = l.take n ++ [x] := by
  rw [List.take_succ]
  congr 1
  · apply List.ext_getElem?
    intro i
    by_cases hi : i < n
    · rw [List.getElem?_take_of_lt hi, List.getElem?_take_of_lt hi, List.getElem?_set]
      have : n ≠ i := by omega
      simp [this]
    · simp [List.getElem?_take, hi]
  · simp [List.getElem?_set, h]

/-- Dropping the unwritten marks from a list of written slots gives the
entries back. -/
theorem reduceOption_map_some {α : Type} (c : List α) : (c.map some).reduceOption = c := by
  induction c with
  | nil => rfl
  | cons a t ih => simp [List.reduceOption_cons_of_some, ih]

/-- An initialised vector holds as many entries as its size. -/
theorem contents_length (v : value_vector_t) (h : v.initialised) :
    v.contents.length = v.size := by
  have := congrArg List.length h.2
  simp only [List.length_take, List.length_map] at this
  have h1 := h.1
  omega

/-- In an initialised vector every slot below the size holds the
corresponding entry. -/
theorem initialised_slot (v : value_vector_t) (h : v.initialised) (i : Nat) (hi : i < v.size) :
    v.data[i]? = (v.contents[i]?).map some := by
  rw [← List.getElem?_take_of_lt hi, h.2, List.getElem?_map]

/-- A vector whose first `size` slots are the entries `c` has contents `c`
and is initialised. -/
theorem contents_of_take (v : value_vector_t) (c : List EntryPtr) (hlen : v.size ≤ v.data.length)
    (h : v.data.take v.size = c.map some) : v.contents = c ∧ v.initialised := by
  have hc : v.contents = c := by
    unfold value_vector_t.contents
    rw [h, reduceOption_map_some]
  exact ⟨hc, hlen, by rw [hc]; exact h⟩

/-- The vector `Token::init_value` builds is well-formed, holds exactly the
new entry, and has capacity 1. -/
theorem init_value_ok {P : Type} (entries : EntryPtr → WriteBatchIndexEntry P) (p : EntryPtr) :
    (Token.init_value p).contents = [p] ∧ VectorOK entries (Token.init_value p) ∧
      (Token.init_value p).capacity_ok ∧ (Token.init_value p).data.length = 1 := by
  have hc := contents_of_take (Token.init_value p) [p] (by simp [Token.init_value])
    (by simp [Token.init_value])
  refine ⟨hc.1, ⟨by simp [Token.init_value], by simp [Token.init_value], hc.2, ?_⟩,
    ⟨0, by simp [Token.init_value], by simp [Token.init_value], by simp [Token.init_value]⟩,
    by simp [Token.init_value]⟩
  rw [hc.1]
  simp
/-! ### Appending to a per-key vector -/

/-- The append branch of `Upsert`: when a well-formed vector that satisfies
the capacity invariant is stored under the key, its size can still grow, and
the new entry has a larger offset than every entry of the vector, the call
returns true and overwrites the vector with one that holds the old entries
followed by the new one, is well-formed again, satisfies the capacity
invariant again, and has the old capacity or, when the old vector was full,
twice the old size. -/
theorem upsert_existing {K P : Type} [LinearOrder K]
    (entries : EntryPtr → WriteBatchIndexEntry P) (extractor_ : WriteBatchIndexEntry P → K)
    (index_ : Patricia K value_vector_t) (key : EntryPtr) (v : value_vector_t)
    (hv : Patricia.value index_ (extractor_ (entries key)) = some v)
    (hok : VectorOK entries v) (hcap : v.capacity_ok) (hbound : v.size + 1 < 4294967296)
    (hpre : ∀ p ∈ v.contents, (entries p).offset < (entries key).offset) :
    ∃ v' : value_vector_t,
      WriteBatchEntryPTrieIndex_false.Upsert entries extractor_ index_ key =
        Except.ok (true, Patricia.update index_ (extractor_ (entries key)) v') ∧
      v'.contents = v.contents ++ [key] ∧ VectorOK entries v' ∧ v'.capacity_ok ∧
      v'.size = v.size + 1 ∧
      v'.data.length = (if v.full = true then 2 * v.size else v.data.length) := by
  obtain ⟨hpos, hlt32, hinit, hsorted⟩ := hok
  have hclen := contents_length v hinit
  have hlast : ∃ last, v.contents[v.size - 1]? = some last := by
    have : v.size - 1 < v.contents.length := by omega
    exact ⟨v.contents[v.size - 1], List.getElem?_eq_getElem this⟩
  obtain ⟨last, hlast⟩ := hlast
  have hslot : v.data[v.size - 1]? = some (some last) := by
    rw [initialised_slot v hinit (v.size - 1) (by omega), hlast]
    rfl
  have hoff : (entries key).offset > (entries last).offset :=
    hpre last (List.getElem?_mem hlast)
  have hsize0 : ¬ v.size = 0 := by omega
  have hmod : (v.size + 1) % 4294967296 = v.size + 1 := Nat.mod_eq_of_lt hbound
  have hwf : ∀ v' : value_vector_t, v'.size = v.size + 1 → v'.size ≤ v'.data.length →
      v'.data.take v'.size = (v.contents ++ [key]).map some →
      v'.contents = v.contents ++ [key] ∧ VectorOK entries v' := by
    intro v' hs hl ht
    obtain ⟨hc, hi⟩ := contents_of_take v' (v.contents ++ [key]) hl ht
    refine ⟨hc, by omega, by omega, hi, ?_⟩
    rw [hc, List.map_append, List.pairwise_append]
    refine ⟨hsorted, by simp, ?_⟩
    intro a ha b hb
    obtain ⟨p, hp, rfl⟩ := List.mem_map.mp ha
    simp only [List.map_cons, List.map_nil, List.mem_singleton] at hb
    rw [hb]
    exact hpre p hp
  obtain ⟨k, hk1, hk2, hk3⟩ := hcap
  by_cases hfull : v.full = true
  · -- copy into an array of twice the size
    obtain ⟨j, hj⟩ := (vector_full_iff v hlt32).mp hfull
    refine ⟨{ size := (v.size + 1) % 4294967296
              data := (v.data.take v.size ++ List.replicate (v.size * 2 - v.size) none).set
                v.size (some key) }, ?_, ?_⟩
    · unfold WriteBatchEntryPTrieIndex_false.Upsert
      simp only [hv, hsize0, if_false, hslot, hoff, if_true, hfull, not_true_eq_false,
        hinit.1]
    · have hlen : (v.data.take v.size ++ List.replicate (v.size * 2 - v.size) none).length =
          2 * v.size := by
        simp only [List.length_append, List.length_take, List.length_replicate]
        have := hinit.1
        omega
      have htake : ((v.data.take v.size ++ List.replicate (v.size * 2 - v.size) none).set
          v.size (some key)).take (v.size + 1) = (v.contents ++ [key]).map some := by
        rw [take_set_succ _ _ _ (by rw [hlen]; omega)]
        rw [List.take_left' (by simp only [List.length_take]; have := hinit.1; omega)]
        rw [hinit.2]
        simp
      have hw := hwf { size := (v.size + 1) % 4294967296
                       data := (v.data.take v.size ++
                         List.replicate (v.size * 2 - v.size) none).set v.size (some key) }
        hmod (by simp only [List.length_set, hlen, hmod]; omega)
        (by simp only [hmod]; exact htake)
      refine ⟨hw.1, hw.2, ⟨j + 1, ?_, ?_, ?_⟩, hmod, ?_⟩
      · simp only [List.length_set, hlen, pow_succ]
        omega
      · simp only [hmod, pow_succ]
        omega
      · simp only [hmod, pow_succ]
        omega
      · simp only [List.length_set, hlen, hfull, if_true]
  · -- write in place
    have hnotpow : ¬ ∃ j, v.size = 2 ^ j := fun h => hfull ((vector_full_iff v hlt32).mpr h)
    have hroom : v.size < v.data.length := by
      rw [hk1]
      rcases Nat.lt_or_eq_of_le hk2 with h | h
      · exact h
      · exact absurd ⟨k, h⟩ hnotpow
    refine ⟨{ size := (v.size + 1) % 4294967296, data := v.data.set v.size (some key) }, ?_, ?_⟩
    · unfold WriteBatchEntryPTrieIndex_false.Upsert
      simp only [hv, hsize0, if_false, hslot, hoff, if_true, hfull, hroom]
      simp
    · have htake : (v.data.set v.size (some key)).take (v.size + 1) =
          (v.contents ++ [key]).map some := by
        rw [take_set_succ _ _ _ hroom, hinit.2]
        simp
      have hw := hwf { size := (v.size + 1) % 4294967296, data := v.data.set v.size (some key) }
        hmod (by simp only [List.length_set, hmod]; omega)
        (by simp only [hmod]; exact htake)
      refine ⟨hw.1, hw.2, ⟨k, ?_, ?_, ?_⟩, hmod, ?_⟩
      · simp only [List.length_set, hk1]
      · simp only [hmod]
        omega
      · simp only [hmod]
        omega
      · simp only [List.length_set, hfull]
        simp
/-- Whatever `Upsert` does when it returns, it keeps the capacity invariant:
a vector that is appended to keeps its capacity when it is not full and gets
twice its size as capacity when it is. -/
theorem upsert_keeps_capacity {K P : Type} [LinearOrder K]
    (entries : EntryPtr → WriteBatchIndexEntry P) (extractor_ : WriteBatchIndexEntry P → K)
    (index_ : Patricia K value_vector_t) (key : EntryPtr)
    (hcap : IndexCapacityOK index_)
    (hbound : ∀ v, Patricia.value index_ (extractor_ (entries key)) = some v →
      v.size + 1 < 4294967296)
    (r : Bool × Patricia K value_vector_t)
    (h : WriteBatchEntryPTrieIndex_false.Upsert entries extractor_ index_ key = Except.ok r) :
    IndexCapacityOK r.2 ∧
      (∀ v, Patricia.value index_ (extractor_ (entries key)) = some v →
        ∃ v', Patricia.value r.2 (extractor_ (entries key)) = some v' ∧
          v'.size = v.size + 1 ∧
          v'.data.length = (if v.full = true then 2 * v.size else v.data.length)) := by
  unfold WriteBatchEntryPTrieIndex_false.Upsert at h
  cases hv : Patricia.value index_ (extractor_ (entries key)) with
  | none =>
    simp only [hv] at h
    cases h
    refine ⟨?_, fun v hv' => by cases hv'⟩
    intro w hw
    rcases (patricia_mem_insert _ _ _ w).mp hw with rfl | hw'
    · exact (init_value_ok entries key).2.2.1
    · exact hcap w hw'
  | some v =>
    have hb := hbound v hv
    have hmod : (v.size + 1) % 4294967296 = v.size + 1 := Nat.mod_eq_of_lt hb
    obtain ⟨k, hk1, hk2, hk3⟩ : v.capacity_ok := hcap _ (patricia_value_mem _ _ _ hv)
    simp only [hv] at h
    split at h
    · cases h
    · split at h
      · split at h
        · split at h
          · -- write in place
            rename_i hnotfull
            split at h
            · rename_i hroom
              cases h
              have hnew : (⟨(v.size + 1) % 4294967296, v.data.set v.size (some key)⟩ :
                  value_vector_t).capacity_ok := by
                refine ⟨k, ?_, ?_, ?_⟩
                · simp only [List.length_set, hk1]
                · simp only [hmod]
                  omega
                · simp only [hmod]
                  omega
              refine ⟨?_, ?_⟩
              · intro w hw
                rcases patricia_mem_update _ _ _ w hw with rfl | hw'
                · exact hnew
                · exact hcap w hw'
              · intro v0 hv0
                cases hv0
                refine ⟨_, patricia_value_update_self _ _ _ _ hv, hmod, ?_⟩
                simp only [List.length_set]
                simp [hnotfull]
            · cases h
          · -- copy into an array of twice the size
            rename_i hfull
            have hfull' : v.full = true := by
              simpa using hfull
            split at h
            · rename_i hfits
              cases h
              obtain ⟨j, hj⟩ := (vector_full_iff v (by omega)).mp hfull'
              have hlen : ((v.data.take v.size ++
                  List.replicate (v.size * 2 - v.size) none).set v.size (some key)).length =
                  2 * v.size := by
                simp only [List.length_set, List.length_append, List.length_take,
                  List.length_replicate]
                omega
              have hnew : (⟨(v.size + 1) % 4294967296, (v.data.take v.size ++
                  List.replicate (v.size * 2 - v.size) none).set v.size (some key)⟩ :
                  value_vector_t).capacity_ok := by
                refine ⟨j + 1, ?_, ?_, ?_⟩
                · simp only [hlen, pow_succ]
                  omega
                · simp only [hmod, pow_succ]
                  omega
                · simp only [hmod, pow_succ]
                  omega
              refine ⟨?_, ?_⟩
              · intro w hw
                rcases patricia_mem_update _ _ _ w hw with rfl | hw'
                · exact hnew
                · exact hcap w hw'
              · intro v0 hv0
                cases hv0
                refine ⟨_, patricia_value_update_self _ _ _ _ hv, hmod, ?_⟩
                simp only [hlen, hfull', if_true]
            · cases h
        · cases h
      · cases h

/-- C14: the capacity invariant of the index that keeps every entry.  The
vector `Token::init_value` creates has capacity 1 and satisfies the
invariant.  A vector that satisfies it has as capacity the smallest power of
two that is at least its size; it is full exactly when its size is a power of
two, and then its capacity equals its size; and when it is not full, its
size is strictly below its capacity, so the write to `data[size]` is inside
the array.  Every `Upsert` that returns keeps the invariant for all vectors
of the index, and a vector it appends to keeps its capacity when it is not
full and gets capacity `2 * size` when it is. -/
theorem C14_capacity_invariant {K P : Type} [LinearOrder K]
    (entries : EntryPtr → WriteBatchIndexEntry P) (extractor_ : WriteBatchIndexEntry P → K)
    (index_ : Patricia K value_vector_t) (key : EntryPtr)
    (hcap : IndexCapacityOK index_)
    (hbound : ∀ v, Patricia.value index_ (extractor_ (entries key)) = some v →
      v.size + 1 < 4294967296) :
    IndexCapacityOK ([] : Patricia K value_vector_t) ∧
      ((Token.init_value key).capacity_ok ∧ (Token.init_value key).data.length = 1) ∧
      (∀ w ∈ index_, w.2.size < 4294967296 →
        (∃ k, w.2.data.length = 2 ^ k) ∧ w.2.size ≤ w.2.data.length ∧
          (∀ j, w.2.size ≤ 2 ^ j → w.2.data.length ≤ 2 ^ j) ∧
          (w.2.full = true ↔ ∃ j, w.2.size = 2 ^ j) ∧
          (w.2.full = true → w.2.data.length = w.2.size) ∧
          (w.2.full = false → w.2.size < w.2.data.length)) ∧
      (∀ r, WriteBatchEntryPTrieIndex_false.Upsert entries extractor_ index_ key = Except.ok r →
        IndexCapacityOK r.2 ∧
          (∀ v, Patricia.value index_ (extractor_ (entries key)) = some v →
            ∃ v', Patricia.value r.2 (extractor_ (entries key)) = some v' ∧
              v'.size = v.size + 1 ∧
              v'.data.length = (if v.full = true then 2 * v.size else v.data.length))) := by
  refine ⟨fun w hw => absurd hw (List.not_mem_nil _),
    ⟨(init_value_ok entries key).2.2.1, (init_value_ok entries key).2.2.2⟩, ?_,
    fun r hr => upsert_keeps_capacity entries extractor_ index_ key hcap hbound r hr⟩
  intro w hw hlt32
  obtain ⟨k, hk1, hk2, hk3⟩ := hcap w hw
  have hiff := vector_full_iff w.2 hlt32
  have hmin : ∀ j, w.2.size ≤ 2 ^ j → w.2.data.length ≤ 2 ^ j := by
    intro j hj
    rw [hk1]
    have hlt : 2 ^ k < 2 ^ (j + 1) := by
      rw [pow_succ]
      omega
    have hkj : k < j + 1 := (Nat.pow_lt_pow_iff_right (by decide)).mp hlt
    exact Nat.pow_le_pow_right (by decide) (by omega)
  refine ⟨⟨k, hk1⟩, by omega, hmin, hiff, ?_, ?_⟩
  · intro hfull
    obtain ⟨j, hj⟩ := hiff.mp hfull
    have h1 := hmin j (by omega)
    omega
  · intro hnot
    rcases Nat.lt_or_eq_of_le hk2 with h | h
    · omega
    · have : w.2.full = true := hiff.mpr ⟨k, h⟩
      rw [this] at hnot
      exact Bool.noConfusion hnot
/-- C14 (witness): under key 1 the vector holds the entries 101 and 102 in an
array of two slots, so it is full; upserting entry 103 (key 1) copies them
into an array of four slots, and the index still satisfies the capacity
invariant. -/
theorem C14_capacity_invariant_witness :
    WriteBatchEntryPTrieIndex_false.Upsert (fun p => (⟨p, p / 100⟩ : WriteBatchIndexEntry Nat))
        (fun e => e.payload) [((1 : Nat), ⟨2, [some 101, some 102]⟩)] 103 =
        Except.ok (true, [(1, ⟨3, [some 101, some 102, some 103, none]⟩)]) ∧
      IndexCapacityOK [((1 : Nat), (⟨3, [some 101, some 102, some 103, none]⟩ : value_vector_t))] :=
  ⟨by rfl,
   ((C14_capacity_invariant (fun p => (⟨p, p / 100⟩ : WriteBatchIndexEntry Nat))
      (fun e => e.payload) [((1 : Nat), ⟨2, [some 101, some 102]⟩)] 103
      (by
        intro w hw
        simp only [List.mem_singleton] at hw
        subst hw
        exact ⟨1, rfl, by decide, by decide⟩)
      (by
        intro v hv
        simp [Patricia.value] at hv
        subst hv
        decide)).2.2.2 (true, [(1, ⟨3, [some 101, some 102, some 103, none]⟩)]) (by rfl)).1⟩

/-- C13: `Upsert` of the index that keeps every entry.  On a well-formed
index that satisfies the capacity invariant, when the upserted entry's offset
is greater than the offsets of all entries stored under its key (and the size
of that key's vector can still grow), `Upsert` returns true without running
into an assertion; afterwards the vector of the key holds its previous
entries, in order, followed by the new entry, the vectors of the other keys
are as before, and the index is well-formed again: every per-key vector is
non-empty and strictly increasing by offset.  The empty index is
well-formed. -/
theorem C13_append_upsert {K P : Type} [LinearOrder K]
    (entries : EntryPtr → WriteBatchIndexEntry P) (extractor_ : WriteBatchIndexEntry P → K)
    (index_ : Patricia K value_vector_t) (key : EntryPtr)
    (hok : IndexOK entries index_) (hcap : IndexCapacityOK index_)
    (hbound : ∀ v, Patricia.value index_ (extractor_ (entries key)) = some v →
      v.size + 1 < 4294967296)
    (hpre : ∀ v, Patricia.value index_ (extractor_ (entries key)) = some v →
      ∀ p ∈ v.contents, (entries p).offset < (entries key).offset) :
    ∃ index' : Patricia K value_vector_t,
      WriteBatchEntryPTrieIndex_false.Upsert entries extractor_ index_ key =
        Except.ok (true, index') ∧
      (∃ v', Patricia.value index' (extractor_ (entries key)) = some v' ∧
        v'.contents =
          (match Patricia.value index_ (extractor_ (entries key)) with
            | some v => v.contents
            | none => []) ++ [key]) ∧
      (∀ k', k' ≠ extractor_ (entries key) →
        Patricia.value index' k' = Patricia.value index_ k') ∧
      IndexOK entries index' ∧
      (∀ w ∈ index', w.2.contents ≠ [] ∧
        List.Pairwise (fun a b => a < b) (w.2.contents.map (fun p => (entries p).offset))) ∧
      IndexOK entries ([] : Patricia K value_vector_t) := by
  have hempty : IndexOK entries ([] : Patricia K value_vector_t) :=
    ⟨List.Pairwise.nil, fun w hw => absurd hw (List.not_mem_nil _)⟩
  have hexplicit : ∀ t : Patricia K value_vector_t, IndexOK entries t →
      ∀ w ∈ t, w.2.contents ≠ [] ∧
        List.Pairwise (fun a b => a < b) (w.2.contents.map (fun p => (entries p).offset)) := by
    intro t ht w hw
    obtain ⟨hpos, _, hinit, hsorted⟩ := ht.2 w hw
    refine ⟨?_, hsorted⟩
    intro hnil
    have := contents_length w.2 hinit
    rw [hnil] at this
    simp only [List.length_nil] at this
    omega
  cases hv : Patricia.value index_ (extractor_ (entries key)) with
  | none =>
    have hres : WriteBatchEntryPTrieIndex_false.Upsert entries extractor_ index_ key =
        Except.ok (true, Patricia.insert index_ (extractor_ (entries key))
          (Token.init_value key)) := by
      unfold WriteBatchEntryPTrieIndex_false.Upsert
      simp only [hv]
    have hnew : IndexOK entries (Patricia.insert index_ (extractor_ (entries key))
        (Token.init_value key)) := by
      refine ⟨patricia_insert_sorted _ _ _ hok.1 (patricia_value_none _ _ hv), ?_⟩
      intro w hw
      rcases (patricia_mem_insert _ _ _ w).mp hw with rfl | hw'
      · exact (init_value_ok entries key).2.1
      · exact hok.2 w hw'
    refine ⟨_, hres, ⟨_, patricia_value_insert_self _ _ _ hv, ?_⟩,
      fun k' hk' => patricia_value_insert_other _ _ _ _ hk', hnew, hexplicit _ hnew, hempty⟩
    rw [(init_value_ok entries key).1]
    rfl
  | some v =>
    obtain ⟨v', hres, hcont, hvok, _, _, _⟩ := upsert_existing entries extractor_ index_ key v hv
      (hok.2 _ (patricia_value_mem _ _ _ hv)) (hcap _ (patricia_value_mem _ _ _ hv))
      (hbound v hv) (hpre v hv)
    have hnew : IndexOK entries (Patricia.update index_ (extractor_ (entries key)) v') := by
      refine ⟨by rw [patricia_update_keys]; exact hok.1, ?_⟩
      intro w hw
      rcases patricia_mem_update _ _ _ w hw with rfl | hw'
      · exact hvok
      · exact hok.2 w hw'
    exact ⟨_, hres, ⟨v', patricia_value_update_self _ _ _ _ hv, hcont⟩,
      fun k' hk' => patricia_value_update_other _ _ _ _ hk', hnew, hexplicit _ hnew, hempty⟩
/-- C13 (witness): under key 1 the vector holds the entries 101 and 102
(offsets 101 and 102); upserting entry 103 (key 1, offset 103) returns true
and leaves the vector holding 101, 102, 103, and the index well-formed. -/
theorem C13_append_upsert_witness :
    WriteBatchEntryPTrieIndex_false.Upsert (fun p => (⟨p, p / 100⟩ : WriteBatchIndexEntry Nat))
        (fun e => e.payload) [((1 : Nat), ⟨2, [some 101, some 102]⟩)] 103 =
        Except.ok (true, [(1, ⟨3, [some 101, some 102, some 103, none]⟩)]) ∧
      (⟨3, [some 101, some 102, some 103, none]⟩ : value_vector_t).contents = [101, 102] ++ [103] ∧
      IndexOK (fun p => (⟨p, p / 100⟩ : WriteBatchIndexEntry Nat))
        [((1 : Nat), (⟨3, [some 101, some 102, some 103, none]⟩ : value_vector_t))] := by
  obtain ⟨index', hres, _, _, hok', _, _⟩ :=
    C13_append_upsert (fun p => (⟨p, p / 100⟩ : WriteBatchIndexEntry Nat))
      (fun e => e.payload) [((1 : Nat), ⟨2, [some 101, some 102]⟩)] 103
      (by
        refine ⟨by simp, ?_⟩
        intro w hw
        simp only [List.mem_singleton] at hw
        subst hw
        exact ⟨by decide, by decide, ⟨by decide, by decide⟩, by simp [value_vector_t.contents]⟩)
      (by
        intro w hw
        simp only [List.mem_singleton] at hw
        subst hw
        exact ⟨1, rfl, by decide, by decide⟩)
      (by
        intro v hv
        simp [Patricia.value] at hv
        subst hv
        decide)
      (by
        intro v hv
        simp [Patricia.value] at hv
        subst hv
        decide)
  have hrfl : WriteBatchEntryPTrieIndex_false.Upsert
      (fun p => (⟨p, p / 100⟩ : WriteBatchIndexEntry Nat))
      (fun e => e.payload) [((1 : Nat), ⟨2, [some 101, some 102]⟩)] 103 =
      Except.ok (true, [(1, ⟨3, [some 101, some 102, some 103, none]⟩)]) := by rfl
  rw [hrfl] at hres
  cases hres
  exact ⟨hrfl, by decide, hok'⟩

/-! ### Searching a list of blocks -/

/-- A list has an element at every index below its length. -/
theorem getElem?_some_of_lt {α : Type} (xs : List α) (i : Nat) (h : i < xs.length) :
    ∃ x, xs[i]? = some x :=
  ⟨xs[i], List.getElem?_eq_getElem h⟩

/-- The first element satisfying `P` in a list of blocks, when every element
of the blocks before position `i` fails `P` and the block after position `i`,
if there is one, begins with an element that satisfies `P`: it is the first
such element of block `i`, or else the first element of block `i + 1`. -/
theorem find_flatten_at {α : Type} (P : α → Bool) (i : Nat) (bs : List (List α))
    (hbefore : ∀ j b, j < i → bs[j]? = some b → ∀ e ∈ b, P e = false)
    (hafter : ∀ b, bs[i + 1]? = some b → ∃ e rest, b = e :: rest ∧ P e = true) :
    bs.flatten.find? P = ((bs[i]?).bind (List.find? P)).or ((bs[i + 1]?).bind List.head?) := by
  induction i generalizing bs with
  | zero =>
    cases bs with
    | nil => simp
    | cons b r =>
      cases r with
      | nil => simp
      | cons b' r' =>
        obtain ⟨e, rest, hb', he⟩ := hafter b' (by simp)
        subst hb'
        simp [List.find?_cons_of_pos, he]
  | succ n ih =>
    cases bs with
    | nil => simp
    | cons b r =>
      have hb : b.find? P = none := by
        rw [List.find?_eq_none]
        intro e he
        have := hbefore 0 b (by omega) (by simp) e he
        simp [this]
      have := ih r
        (fun j b' hj hb' => hbefore (j + 1) b' (by omega) (by simpa using hb'))
        (fun b' hb' => hafter b' (by simpa using hb'))
      simp only [List.flatten_cons, List.find?_append, hb, Option.none_or, this,
        List.getElem?_cons_succ]

/-- In a vector whose offsets `f` are strictly increasing, the first entry
from the back whose offset is `<= x` is the one just before the upper bound
of `x`, and there is none when the upper bound is 0. -/
theorem reverse_find_upper (f : EntryPtr → Nat) (x : Nat) (ps : List EntryPtr)
    (hs : List.Pairwise (fun a b => a < b) (ps.map f)) :
    ps.reverse.find? (fun p => decide (f p ≤ x)) =
      if upper_bound_0 (ps.map f) x = 0 then none else ps[upper_bound_0 (ps.map f) x - 1]? := by
  unfold upper_bound_0
  induction ps with
  | nil => simp
  | cons a r ih =>
    simp only [List.map_cons, List.pairwise_cons] at hs
    have ihr := ih hs.2
    simp only [List.reverse_cons, List.find?_append, List.map_cons, List.findIdx_cons]
    by_cases hlt : x < f a
    · have hnone : r.reverse.find? (fun p => decide (f p ≤ x)) = none := by
        rw [List.find?_eq_none]
        intro p hp
        have hp' : p ∈ r := List.mem_reverse.mp hp
        have := hs.1 (f p) (List.mem_map_of_mem _ hp')
        simp only [decide_eq_true_eq, not_le]
        omega
      have ha : ¬ f a ≤ x := by omega
      simp [hnone, hlt, ha]
    · have ha : f a ≤ x := by omega
      have hle : (r.map f).findIdx (fun o => decide (x < o)) ≤ r.length := by
        have : (r.map f).findIdx (fun o => decide (x < o)) ≤ (r.map f).length :=
          List.findIdx_le_length _
        simpa using this
      simp only [hlt, decide_False, cond_false, Nat.add_one_ne_zero, if_false,
        Nat.add_sub_cancel]
      rw [ihr]
      by_cases h0 : (r.map f).findIdx (fun o => decide (x < o)) = 0
      · simp [h0, ha]
      · simp only [h0, if_false]
        have hlt' : (r.map f).findIdx (fun o => decide (x < o)) - 1 < r.length := by omega
        obtain ⟨m, hm⟩ : ∃ m, (r.map f).findIdx (fun o => decide (x < o)) = m + 1 :=
          ⟨(r.map f).findIdx (fun o => decide (x < o)) - 1, by omega⟩
        rw [hm] at hlt' ⊢
        simp only [Nat.add_sub_cancel, List.getElem?_cons_succ]
        rw [List.getElem?_eq_getElem (by omega)]
        simp

/-- The first entry of a vector whose offset is `>= x` is the one at the
lower bound of `x`. -/
theorem find_lower (f : EntryPtr → Nat) (x : Nat) (ps : List EntryPtr) :
    ps.find? (fun p => decide (x ≤ f p)) = ps[lower_bound_0 (ps.map f) x]? := by
  unfold lower_bound_0
  induction ps with
  | nil => simp
  | cons a r ih =>
    simp only [List.map_cons, List.findIdx_cons, List.find?_cons]
    by_cases h : x ≤ f a
    · simp [h]
    · simp [h, ih]
/-! ### Reading the vector under the iterator -/

/-- A list of written slots is read back whole. -/
theorem all_written_map_some (ps : List EntryPtr) : all_written (ps.map some) = some ps := by
  induction ps with
  | nil => rfl
  | cons a r ih => simp [all_written, ih]

/-- `GetVector` on a word of the trie returns the vector stored under it. -/
theorem getvector_at {K : Type} (t : Patricia K value_vector_t) (it : IteratorImplWithOffset)
    (i : Nat) (w : K × value_vector_t) (hi : it.iter = some i) (hw : t[i]? = some w) :
    IteratorImplWithOffset.GetVector t it = Except.ok ⟨w.2.size, w.2.data⟩ := by
  unfold IteratorImplWithOffset.GetVector
  simp only [hi, hw]

/-- `GetVector` on a word of the trie, with the iterator written out. -/
theorem getvector_mk {K : Type} (t : Patricia K value_vector_t) (i idx nw : Nat)
    (w : K × value_vector_t) (hw : t[i]? = some w) :
    IteratorImplWithOffset.GetVector t ⟨some i, idx, nw⟩ = Except.ok ⟨w.2.size, w.2.data⟩ :=
  getvector_at t _ i w rfl hw

/-- Reading a slot below the size of an initialised vector returns the entry
at that place. -/
theorem value_at_slot (v : value_vector_t) (hinit : v.initialised) (j : Nat) (p : EntryPtr)
    (hp : v.contents[j]? = some p) :
    VectorData.value_at ⟨v.size, v.data⟩ j = Except.ok p := by
  have hj : j < v.size := by
    have := (List.getElem?_eq_some.mp hp).1
    rw [contents_length v hinit] at this
    exact this
  unfold VectorData.value_at
  simp only [initialised_slot v hinit j hj, hp, Option.map_some']

/-- The offsets the bound searches compare are those of the entries of the
vector. -/
theorem offsets_ok {P : Type} (entries : EntryPtr → WriteBatchIndexEntry P) (v : value_vector_t)
    (hinit : v.initialised) :
    VectorData.offsets entries ⟨v.size, v.data⟩ =
      some (v.contents.map (fun p => (entries p).offset)) := by
  unfold VectorData.offsets
  simp only [hinit.1, if_true, hinit.2, all_written_map_some, Option.map_some']

/-- A well-formed vector has a last entry, at slot `size - 1`, with which its
block begins. -/
theorem block_head {K P : Type} (entries : EntryPtr → WriteBatchIndexEntry P)
    (w : K × value_vector_t) (hok : VectorOK entries w.2) :
    ∃ p, w.2.contents[w.2.size - 1]? = some p ∧
      ∃ rest, entry_block w = (w.1, p) :: rest := by
  obtain ⟨hpos, _, hinit, _⟩ := hok
  have hlen := contents_length w.2 hinit
  have hlt : w.2.size - 1 < w.2.contents.length := by omega
  refine ⟨w.2.contents[w.2.size - 1], List.getElem?_eq_getElem hlt, ?_⟩
  unfold entry_block
  have hne : w.2.contents ≠ [] := by
    intro h
    rw [h] at hlen
    simp at hlen
    omega
  have hlast : w.2.contents.getLast? = some (w.2.contents[w.2.size - 1]) := by
    rw [List.getLast?_eq_getElem?, hlen, List.getElem?_eq_getElem hlt]
  have hhead : w.2.contents.reverse.head? = some (w.2.contents[w.2.size - 1]) := by
    rw [List.head?_reverse, hlast]
  cases hrev : w.2.contents.reverse with
  | nil =>
    rw [hrev] at hhead
    simp at hhead
  | cons a r =>
    rw [hrev] at hhead
    simp only [List.head?_cons, Option.some.injEq] at hhead
    subst hhead
    exact ⟨r.map (fun p => (w.1, p)), by simp⟩

/-- A well-formed vector has a first entry, at slot 0, with which its block
ends. -/
theorem block_last {K P : Type} (entries : EntryPtr → WriteBatchIndexEntry P)
    (w : K × value_vector_t) (hok : VectorOK entries w.2) :
    ∃ p, w.2.contents[0]? = some p ∧
      ∃ rest, (entry_block w).reverse = (w.1, p) :: rest := by
  obtain ⟨hpos, _, hinit, _⟩ := hok
  have hlen := contents_length w.2 hinit
  unfold entry_block
  cases hc : w.2.contents with
  | nil =>
    rw [hc] at hlen
    simp at hlen
    omega
  | cons a r =>
    refine ⟨a, by simp, r.map (fun p => (w.1, p)), ?_⟩
    rw [← List.map_reverse, List.reverse_reverse]
    rfl

/-- The words of a well-formed index are strictly ascending by position. -/
theorem index_keys_ascending {K P : Type} [LinearOrder K]
    (entries : EntryPtr → WriteBatchIndexEntry P) (t : Patricia K value_vector_t)
    (hok : IndexOK entries t) (i j : Nat) (w w' : K × value_vector_t) (hij : i < j)
    (hw : t[i]? = some w) (hw' : t[j]? = some w') : w.1 < w'.1 := by
  obtain ⟨hi, rfl⟩ := List.getElem?_eq_some.mp hw
  obtain ⟨hj, rfl⟩ := List.getElem?_eq_some.mp hw'
  have := (List.pairwise_iff_getElem.mp hok.1) i j (by simpa using hi) (by simpa using hj) hij
  simpa using this
/-! ### Seeking -/

/-- Before the position `findIdx` returns, no element satisfies the
predicate. -/
theorem findIdx_before {α : Type} (p : α → Bool) (xs : List α) (j : Nat) (x : α)
    (hj : j < xs.findIdx p) (hx : xs[j]? = some x) : p x = false := by
  obtain ⟨hlt, rfl⟩ := List.getElem?_eq_some.mp hx
  exact List.not_of_lt_findIdx hj

/-- Two predicates that agree on a list find the same element in it. -/
theorem find_congr {α : Type} (p q : α → Bool) (xs : List α) (h : ∀ x ∈ xs, p x = q x) :
    xs.find? p = xs.find? q := by
  induction xs with
  | nil => rfl
  | cons a r ih =>
    simp only [List.find?_cons, h a (List.mem_cons_self _ _)]
    rw [ih (fun x hx => h x (List.mem_cons_of_mem _ hx))]

/-- Every entry of a block carries the word of the block. -/
theorem entry_block_key {K : Type} (w : K × value_vector_t) (e : K × EntryPtr)
    (he : e ∈ entry_block w) : e.1 = w.1 := by
  unfold entry_block at he
  obtain ⟨p, _, rfl⟩ := List.mem_map.mp he
  rfl

/-- Searching a block for a predicate on entries. -/
theorem find_entry_block {K : Type} (w : K × value_vector_t) (Q : K × EntryPtr → Bool) :
    (entry_block w).find? Q =
      (w.2.contents.reverse.find? (fun p => Q (w.1, p))).map (fun p => (w.1, p)) := by
  unfold entry_block
  rw [List.find?_map]
  rfl

/-- The end of `Seek` on a word greater than the key: the assertion holds,
and the last slot of the vector (the largest offset) is returned. -/
theorem seek_finish_ok {K P : Type} [LinearOrder K]
    (entries : EntryPtr → WriteBatchIndexEntry P) (t : Patricia K value_vector_t)
    (find_key : K) (it : IteratorImplWithOffset) (i : Nat) (w : K × value_vector_t)
    (p : EntryPtr) (hi : it.iter = some i) (hw : t[i]? = some w)
    (hok : VectorOK entries w.2) (hgt : find_key < w.1)
    (hp : w.2.contents[w.2.size - 1]? = some p) :
    IteratorImplWithOffset.Seek.finish t find_key it ⟨w.2.size, w.2.data⟩ =
      Except.ok (some p, { it with index := w.2.size - 1 }) := by
  obtain ⟨hpos, hlt32, hinit, _⟩ := hok
  have hidx : (w.2.size + 18446744073709551616 - 1) % 18446744073709551616 % 4294967296 =
      w.2.size - 1 := by omega
  unfold IteratorImplWithOffset.Seek.finish ADFA_LexIterator.word
  simp only [hi, hw, Option.map_some', hgt, if_true, hidx, value_at_slot w.2 hinit _ p hp]
/-- C15: `Seek` of the iterator that keeps every entry.  On a well-formed
index (words ascending, every per-key vector non-empty, written and strictly
increasing by offset) `Seek(target)` never fails an assertion and returns the
first entry in iteration order (word ascending, then offset descending) whose
word is greater than the target's key, or whose word equals the target's key
and whose offset is `<=` the target's offset; it returns null exactly when
there is no such entry, and otherwise leaves the iterator on the entry it
returns. -/
theorem C15_seek {K P : Type} [LinearOrder K]
    (entries : EntryPtr → WriteBatchIndexEntry P) (extractor : WriteBatchIndexEntry P → K)
    (t : Patricia K value_vector_t) (it0 : IteratorImplWithOffset) (target : EntryPtr)
    (hok : IndexOK entries t) :
    ∃ it' : IteratorImplWithOffset,
      IteratorImplWithOffset.Seek entries extractor t it0 target =
        Except.ok (((iteration_order t).find? (fun e =>
          decide (extractor (entries target) < e.1 ∨
            (e.1 = extractor (entries target) ∧
              (entries e.2).offset ≤ (entries target).offset)))).map Prod.snd, it') ∧
      ((((iteration_order t).find? (fun e =>
          decide (extractor (entries target) < e.1 ∨
            (e.1 = extractor (entries target) ∧
              (entries e.2).offset ≤ (entries target).offset)))).map Prod.snd = none) ↔
        ∀ e ∈ iteration_order t, ¬ (extractor (entries target) < e.1 ∨
          (e.1 = extractor (entries target) ∧
            (entries e.2).offset ≤ (entries target).offset))) ∧
      (∀ p, ((iteration_order t).find? (fun e =>
          decide (extractor (entries target) < e.1 ∨
            (e.1 = extractor (entries target) ∧
              (entries e.2).offset ≤ (entries target).offset)))).map Prod.snd = some p →
        it'.positioned_on t p) := by
  generalize hfk : extractor (entries target) = fk
  generalize htoff : (entries target).offset = toff
  have hnull : (((iteration_order t).find? (fun e =>
      decide (fk < e.1 ∨ (e.1 = fk ∧ (entries e.2).offset ≤ toff)))).map Prod.snd = none) ↔
      ∀ e ∈ iteration_order t, ¬ (fk < e.1 ∨ (e.1 = fk ∧ (entries e.2).offset ≤ toff)) := by
    rw [Option.map_eq_none', List.find?_eq_none]
    simp only [decide_eq_true_eq]
  suffices hmain : ∃ it' : IteratorImplWithOffset,
      IteratorImplWithOffset.Seek entries extractor t it0 target =
        Except.ok (((iteration_order t).find? (fun e =>
          decide (fk < e.1 ∨ (e.1 = fk ∧ (entries e.2).offset ≤ toff)))).map Prod.snd, it') ∧
      (∀ p, ((iteration_order t).find? (fun e =>
          decide (fk < e.1 ∨ (e.1 = fk ∧ (entries e.2).offset ≤ toff)))).map Prod.snd =
            some p → it'.positioned_on t p) by
    obtain ⟨it', h1, h2⟩ := hmain
    exact ⟨it', h1, hnull, h2⟩
  -- the position `seek_lower_bound` looks at
  have hbefore : ∀ j b, j < t.findIdx (fun w => decide (fk ≤ w.1)) →
      (t.map entry_block)[j]? = some b →
      ∀ e ∈ b, (fun e : K × EntryPtr =>
        decide (fk < e.1 ∨ (e.1 = fk ∧ (entries e.2).offset ≤ toff))) e = false := by
    intro j b hj hb e he
    rw [List.getElem?_map] at hb
    cases hw : t[j]? with
    | none => simp [hw] at hb
    | some w =>
      simp only [hw, Option.map_some', Option.some.injEq] at hb
      subst hb
      have hkey := entry_block_key w e he
      have hnot := findIdx_before _ t j w hj hw
      simp only [decide_eq_false_iff_not, not_le] at hnot
      simp only [decide_eq_false_iff_not, hkey]
      rintro (h | ⟨h, _⟩)
      · exact absurd (lt_trans h hnot) (lt_irrefl _)
      · rw [h] at hnot
        exact absurd hnot (lt_irrefl _)
  have hafter : ∀ b, (t.map entry_block)[t.findIdx (fun w => decide (fk ≤ w.1)) + 1]? = some b →
      ∃ e rest, b = e :: rest ∧ (fun e : K × EntryPtr =>
        decide (fk < e.1 ∨ (e.1 = fk ∧ (entries e.2).offset ≤ toff))) e = true := by
    intro b hb
    rw [List.getElem?_map] at hb
    cases hw' : t[t.findIdx (fun w => decide (fk ≤ w.1)) + 1]? with
    | none => simp [hw'] at hb
    | some w' =>
      simp only [hw', Option.map_some', Option.some.injEq] at hb
      subst hb
      have hlen := (List.getElem?_eq_some.mp hw').1
      obtain ⟨wc, hw⟩ : ∃ x, t[t.findIdx (fun w => decide (fk ≤ w.1))]? = some x :=
        getElem?_some_of_lt t _ (by omega)
      have hge := List.findIdx_of_getElem?_eq_some hw
      simp only [decide_eq_true_eq] at hge
      have hasc := index_keys_ascending entries t hok _ _ _ _ (Nat.lt_succ_self _) hw hw'
      obtain ⟨p, _, rest, hrest⟩ := block_head entries w' (hok.2 w' (List.getElem?_mem hw'))
      refine ⟨(w'.1, p), rest, hrest, ?_⟩
      simp only [decide_eq_true_eq]
      left
      exact lt_of_le_of_lt hge hasc
  have hG := find_flatten_at _ _ (t.map entry_block) hbefore hafter
  unfold iteration_order
  rw [hG]
  clear hG hbefore hafter hnull
  unfold IteratorImplWithOffset.Seek ADFA_LexIterator.seek_lower_bound
  simp only [hfk, htoff]
  by_cases hi : t.findIdx (fun w => decide (fk ≤ w.1)) < t.length
  · -- `seek_lower_bound` finds a word
    obtain ⟨w, hw⟩ := getElem?_some_of_lt t _ hi
    have hge := List.findIdx_of_getElem?_eq_some hw
    simp only [decide_eq_true_eq] at hge
    have hvok := hok.2 w (List.getElem?_mem hw)
    obtain ⟨hpos, hlt32, hinit, hsorted⟩ := hvok
    have hclen := contents_length w.2 hinit
    generalize hidx : t.findIdx (fun w => decide (fk ≤ w.1)) = i at hi hw
    simp only [hi, if_true, getvector_mk t _ _ _ w hw, ADFA_LexIterator.word, hw,
      Option.map_some', Option.some.injEq, List.getElem?_map, offsets_ok entries w.2 hinit,
      Option.bind_eq_bind, Option.some_bind]
    have hub_le : upper_bound_0 (w.2.contents.map (fun p => (entries p).offset)) toff ≤
        w.2.size := by
      have : (w.2.contents.map (fun p => (entries p).offset)).findIdx
          (fun x => decide (toff < x)) ≤
          (w.2.contents.map (fun p => (entries p).offset)).length := List.findIdx_le_length _
      simp only [List.length_map, hclen] at this
      exact this
    by_cases hk : w.1 = fk
    · -- the word is the key: look for the offset in its vector
      have hblock : (entry_block w).find? (fun e =>
          decide (fk < e.1 ∨ (e.1 = fk ∧ (entries e.2).offset ≤ toff))) =
          (if upper_bound_0 (w.2.contents.map (fun p => (entries p).offset)) toff = 0 then none
            else w.2.contents[upper_bound_0 (w.2.contents.map
              (fun p => (entries p).offset)) toff - 1]?).map (fun p => (w.1, p)) := by
        rw [find_entry_block, ← reverse_find_upper (fun p => (entries p).offset) toff
          w.2.contents hsorted]
        congr 1
        apply find_congr
        intro p _
        simp only [hk, lt_irrefl, true_and, false_or]
      rw [hblock]
      simp only [hk, if_true]
      by_cases hub : upper_bound_0 (w.2.contents.map (fun p => (entries p).offset)) toff = 0
      · -- every offset is above the target's: go to the next word
        simp only [hub, if_true, Option.map_none', Option.none_or, Nat.zero_add]
        simp only [Nat.reduceSub, Nat.reduceMod, ne_eq, not_true_eq_false, if_false]
        unfold ADFA_LexIterator.incr
        simp only
        by_cases hi1 : i + 1 < t.length
        · obtain ⟨w', hw'⟩ := getElem?_some_of_lt t _ hi1
          have hasc := index_keys_ascending entries t hok _ _ _ _ (Nat.lt_succ_self _) hw hw'
          have hvok' := hok.2 w' (List.getElem?_mem hw')
          obtain ⟨p, hp, rest, hrest⟩ := block_head entries w' hvok'
          simp only [hi1, if_true, getvector_mk t _ _ _ w' hw', hw', Option.map_some',
            Option.some_bind, hrest, List.head?_cons]
          rw [seek_finish_ok entries t fk _ (i + 1) w' p rfl hw' hvok' (by rw [← hk]; exact hasc)
            hp]
          refine ⟨_, rfl, ?_⟩
          intro q hq
          simp only [Option.some.injEq] at hq
          subst hq
          exact ⟨i + 1, w', rfl, hw', by have := hvok'.1; simp only; omega, hp⟩
        · have hnone' : t[i + 1]? = none := List.getElem?_eq_none (by omega)
          simp only [hi1, if_false, hnone', Option.map_none', Option.none_bind]
          exact ⟨_, rfl, fun p hp => by cases hp⟩
      · -- the entry just before the upper bound
        have hlt : upper_bound_0 (w.2.contents.map (fun p => (entries p).offset)) toff - 1 <
            w.2.contents.length := by omega
        obtain ⟨p, hp⟩ := getElem?_some_of_lt w.2.contents _ hlt
        have hidx32 : (upper_bound_0 (w.2.contents.map (fun p => (entries p).offset)) toff +
            18446744073709551616 - 1) % 18446744073709551616 % 4294967296 =
            upper_bound_0 (w.2.contents.map (fun p => (entries p).offset)) toff - 1 := by
          omega
        have hne : upper_bound_0 (w.2.contents.map (fun p => (entries p).offset)) toff - 1 ≠
            4294967295 := by omega
        simp only [hub, if_false, hidx32, ne_eq, hne, not_false_eq_true, if_true,
          value_at_slot w.2 hinit _ p hp, hp, Option.map_some', Option.or_some]
        refine ⟨_, rfl, ?_⟩
        intro q hq
        simp only [Option.some.injEq] at hq
        subst hq
        exact ⟨i, w, rfl, hw, by simp only; omega, hp⟩
    · -- the word is above the key: its first entry in iteration order
      have hgt : fk < w.1 := lt_of_le_of_ne hge (Ne.symm hk)
      obtain ⟨p, hp, rest, hrest⟩ := block_head entries w ⟨hpos, hlt32, hinit, hsorted⟩
      have hP : (fun e : K × EntryPtr =>
          decide (fk < e.1 ∨ (e.1 = fk ∧ (entries e.2).offset ≤ toff))) (w.1, p) = true := by
        simp only [decide_eq_true_eq]
        left
        exact hgt
      have hfind : List.find? (fun e : K × EntryPtr =>
          decide (fk < e.1 ∨ (e.1 = fk ∧ (entries e.2).offset ≤ toff))) ((w.1, p) :: rest) =
          some (w.1, p) := List.find?_cons_of_pos _ hP
      simp only [hk, if_false, hrest, hfind, Option.or_some, Option.map_some']
      rw [seek_finish_ok entries t fk _ i w p rfl hw ⟨hpos, hlt32, hinit, hsorted⟩ hgt hp]
      refine ⟨_, rfl, ?_⟩
      intro q hq
      simp only [Option.some.injEq] at hq
      subst hq
      exact ⟨i, w, rfl, hw, by simp only; omega, hp⟩
  · -- every word is below the key
    have hnone : t[t.findIdx (fun w => decide (fk ≤ w.1))]? = none :=
      List.getElem?_eq_none (by omega)
    have hnone' : t[t.findIdx (fun w => decide (fk ≤ w.1)) + 1]? = none :=
      List.getElem?_eq_none (by omega)
    simp only [hi, if_false, List.getElem?_map, hnone, hnone', Option.map_none',
      Option.none_bind, Option.or_none, Option.bind_eq_bind]
    exact ⟨_, rfl, fun p hp => by cases hp⟩
/-- The example index is well-formed. -/
theorem example_index_ok : IndexOK example_entries example_index := by
  refine ⟨by simp [example_index], ?_⟩
  intro w hw
  simp only [example_index, List.mem_cons, List.mem_singleton, List.not_mem_nil, or_false] at hw
  rcases hw with rfl | rfl | rfl
  · exact ⟨by decide, by decide, ⟨by decide, by decide⟩,
      by simp [value_vector_t.contents, example_entries]⟩
  · exact ⟨by decide, by decide, ⟨by decide, by decide⟩,
      by simp [value_vector_t.contents, example_entries]⟩
  · exact ⟨by decide, by decide, ⟨by decide, by decide⟩,
      by simp [value_vector_t.contents, example_entries]⟩

/-- C15 (witness): on the example index, whose iteration order is 105, 104,
103, 102, 101, 205, 306, 301, `Seek` of a target with key 1 and offset 100
finds no entry of key 1 with offset `<= 100` and returns 205, the first entry
of key 2, leaving the iterator on it. -/
theorem C15_seek_witness :
    (iteration_order example_index).map Prod.snd = [105, 104, 103, 102, 101, 205, 306, 301] ∧
      ∃ it' : IteratorImplWithOffset,
        IteratorImplWithOffset.Seek example_entries example_extractor example_index
          (IteratorImplWithOffset.create example_index) 100 = Except.ok (some 205, it') ∧
        it'.positioned_on example_index 205 := by
  obtain ⟨it', hres, _, hpos⟩ := C15_seek example_entries example_extractor example_index
    (IteratorImplWithOffset.create example_index) 100 example_index_ok
  have hfind : ((iteration_order example_index).find? (fun e =>
      decide (example_extractor (example_entries 100) < e.1 ∨
        (e.1 = example_extractor (example_entries 100) ∧
          (example_entries e.2).offset ≤ (example_entries 100).offset)))).map Prod.snd =
      some 205 := by decide
  rw [hfind] at hres
  exact ⟨by decide, it', hres, hpos 205 hfind⟩

/-! ### Seeking backwards -/

/-- The last element satisfying `P` in a list of blocks, when every element
of the blocks after position `i` fails `P` and the block before position
`i`, if there is one, ends with an element that satisfies `P`: it is the
last such element of block `i`, or else the last element of block
`i - 1`. -/
theorem find_flatten_reverse_at {α : Type} (P : α → Bool) (i : Nat) (bs : List (List α))
    (hi : i < bs.length)
    (hafter : ∀ j b, i < j → bs[j]? = some b → ∀ e ∈ b, P e = false)
    (hprev : ∀ b, 0 < i → bs[i - 1]? = some b → ∃ e rest, b.reverse = e :: rest ∧ P e = true) :
    bs.flatten.reverse.find? P =
      ((bs[i]?).bind (fun b => b.reverse.find? P)).or
        (if i = 0 then none else (bs[i - 1]?).bind (fun b => b.reverse.head?)) := by
  rw [List.reverse_flatten]
  have hlen : (bs.map List.reverse).length = bs.length := List.length_map _ _
  have hget : ∀ j, j < bs.length →
      ((bs.map List.reverse).reverse)[j]? = (bs[bs.length - 1 - j]?).map List.reverse := by
    intro j hj
    rw [List.getElem?_reverse (by rw [hlen]; exact hj), hlen, List.getElem?_map]
  have hgetnone : ((bs.map List.reverse).reverse)[bs.length]? = none :=
    List.getElem?_eq_none (by simp)
  rw [find_flatten_at P (bs.length - 1 - i) ((bs.map List.reverse).reverse)]
  · rw [hget _ (by omega)]
    have h1 : bs.length - 1 - (bs.length - 1 - i) = i := by omega
    rw [h1]
    by_cases h0 : i = 0
    · have h2 : bs.length - 1 - i + 1 = bs.length := by omega
      rw [h2, hgetnone]
      simp only [h0, if_true]
      cases bs[0]? <;> rfl
    · rw [hget _ (by omega)]
      have h2 : bs.length - 1 - (bs.length - 1 - i + 1) = i - 1 := by omega
      rw [h2]
      simp only [h0, if_false]
      cases bs[i]? <;> cases bs[i - 1]? <;> rfl
  · intro j b hj hb
    rw [hget _ (by omega)] at hb
    cases hb' : bs[bs.length - 1 - j]? with
    | none => simp [hb'] at hb
    | some b0 =>
      simp only [hb', Option.map_some', Option.some.injEq] at hb
      subst hb
      intro e he
      exact hafter _ b0 (by omega) hb' e (List.mem_reverse.mp he)
  · intro b hb
    by_cases hlast : bs.length - 1 - i + 1 < bs.length
    · rw [hget _ hlast] at hb
      cases hb' : bs[bs.length - 1 - (bs.length - 1 - i + 1)]? with
      | none => simp [hb'] at hb
      | some b0 =>
        simp only [hb', Option.map_some', Option.some.injEq] at hb
        subst hb
        have h2 : bs.length - 1 - (bs.length - 1 - i + 1) = i - 1 := by omega
        rw [h2] at hb'
        exact hprev b0 (by omega) hb'
    · have : ((bs.map List.reverse).reverse)[bs.length - 1 - i + 1]? = none :=
        List.getElem?_eq_none (by simp; omega)
      rw [this] at hb
      cases hb
/-- A block read backwards is the vector of the word from its first slot to
its last. -/
theorem entry_block_reverse {K : Type} (w : K × value_vector_t) :
    (entry_block w).reverse = w.2.contents.map (fun p => (w.1, p)) := by
  unfold entry_block
  rw [← List.map_reverse, List.reverse_reverse]

/-- The end of `SeekForPrev` on a word less than the key: the assertion
holds, and the first slot of the vector (the smallest offset) is returned. -/
theorem seek_for_prev_finish_ok {K P : Type} [LinearOrder K]
    (entries : EntryPtr → WriteBatchIndexEntry P) (t : Patricia K value_vector_t)
    (find_key : K) (it : IteratorImplWithOffset) (i : Nat) (w : K × value_vector_t)
    (p : EntryPtr) (hi : it.iter = some i) (hw : t[i]? = some w)
    (hok : VectorOK entries w.2) (hlt : w.1 < find_key)
    (hp : w.2.contents[0]? = some p) :
    IteratorImplWithOffset.SeekForPrev.finish t find_key it ⟨w.2.size, w.2.data⟩ =
      Except.ok (some p, { it with index := 0 }) := by
  obtain ⟨hpos, hlt32, hinit, _⟩ := hok
  unfold IteratorImplWithOffset.SeekForPrev.finish ADFA_LexIterator.word
  simp only [hi, hw, Option.map_some', hlt, if_true, value_at_slot w.2 hinit _ p hp]

/-- C16: `SeekForPrev` of the iterator that keeps every entry.  On a
well-formed index `SeekForPrev(target)` never fails an assertion and returns
the last entry in iteration order (word ascending, then offset descending)
whose word is less than the target's key, or whose word equals the target's
key and whose offset is `>=` the target's offset; it returns null exactly
when there is no such entry, and otherwise leaves the iterator on the entry
it returns. -/
theorem C16_seek_for_prev {K P : Type} [LinearOrder K]
    (entries : EntryPtr → WriteBatchIndexEntry P) (extractor : WriteBatchIndexEntry P → K)
    (t : Patricia K value_vector_t) (it0 : IteratorImplWithOffset) (target : EntryPtr)
    (hok : IndexOK entries t) :
    ∃ it' : IteratorImplWithOffset,
      IteratorImplWithOffset.SeekForPrev entries extractor t it0 target =
        Except.ok (((iteration_order t).reverse.find? (fun e =>
          decide (e.1 < extractor (entries target) ∨
            (e.1 = extractor (entries target) ∧
              (entries target).offset ≤ (entries e.2).offset)))).map Prod.snd, it') ∧
      ((((iteration_order t).reverse.find? (fun e =>
          decide (e.1 < extractor (entries target) ∨
            (e.1 = extractor (entries target) ∧
              (entries target).offset ≤ (entries e.2).offset)))).map Prod.snd = none) ↔
        ∀ e ∈ iteration_order t, ¬ (e.1 < extractor (entries target) ∨
          (e.1 = extractor (entries target) ∧
            (entries target).offset ≤ (entries e.2).offset))) ∧
      (∀ p, ((iteration_order t).reverse.find? (fun e =>
          decide (e.1 < extractor (entries target) ∨
            (e.1 = extractor (entries target) ∧
              (entries target).offset ≤ (entries e.2).offset)))).map Prod.snd = some p →
        it'.positioned_on t p) := by
  generalize hfk : extractor (entries target) = fk
  generalize htoff : (entries target).offset = toff
  have hnull : (((iteration_order t).reverse.find? (fun e =>
      decide (e.1 < fk ∨ (e.1 = fk ∧ toff ≤ (entries e.2).offset)))).map Prod.snd = none) ↔
      ∀ e ∈ iteration_order t, ¬ (e.1 < fk ∨ (e.1 = fk ∧ toff ≤ (entries e.2).offset)) := by
    rw [Option.map_eq_none', List.find?_eq_none]
    simp only [decide_eq_true_eq, List.mem_reverse]
  suffices hmain : ∃ it' : IteratorImplWithOffset,
      IteratorImplWithOffset.SeekForPrev entries extractor t it0 target =
        Except.ok (((iteration_order t).reverse.find? (fun e =>
          decide (e.1 < fk ∨ (e.1 = fk ∧ toff ≤ (entries e.2).offset)))).map Prod.snd, it') ∧
      (∀ p, ((iteration_order t).reverse.find? (fun e =>
          decide (e.1 < fk ∨ (e.1 = fk ∧ toff ≤ (entries e.2).offset)))).map Prod.snd =
            some p → it'.positioned_on t p) by
    obtain ⟨it', h1, h2⟩ := hmain
    exact ⟨it', h1, hnull, h2⟩
  clear hnull
  -- from the first word above the key on, every word is above the key
  have habove : ∀ j w, t.findIdx (fun w => decide (fk < w.1)) ≤ j → t[j]? = some w →
      fk < w.1 := by
    intro j w hj hw
    have hjlen := (List.getElem?_eq_some.mp hw).1
    obtain ⟨wc, hc⟩ : ∃ x, t[t.findIdx (fun w => decide (fk < w.1))]? = some x :=
        getElem?_some_of_lt t _ (by omega)
    have hgt := List.findIdx_of_getElem?_eq_some hc
    simp only [decide_eq_true_eq] at hgt
    rcases Nat.lt_or_eq_of_le hj with hlt | heq
    · exact lt_trans hgt (index_keys_ascending entries t hok _ _ _ _ hlt hc hw)
    · rw [← heq] at hw
      rw [hc] at hw
      cases hw
      exact hgt
  have hbelow : ∀ j w, j < t.findIdx (fun w => decide (fk < w.1)) → t[j]? = some w →
      w.1 ≤ fk := by
    intro j w hj hw
    have := findIdx_before _ t j w hj hw
    simp only [decide_eq_false_iff_not, not_lt] at this
    exact this
  unfold IteratorImplWithOffset.SeekForPrev ADFA_LexIterator.seek_rev_lower_bound
  simp only [hfk, htoff]
  generalize hc : t.findIdx (fun w => decide (fk < w.1)) = c at habove hbelow
  have hcle : c ≤ t.length := by
    rw [← hc]
    exact List.findIdx_le_length _
  by_cases hc0 : c = 0
  · -- every word is above the key
    have hnone : (iteration_order t).reverse.find? (fun e =>
        decide (e.1 < fk ∨ (e.1 = fk ∧ toff ≤ (entries e.2).offset))) = none := by
      rw [List.find?_eq_none]
      intro e he
      rw [List.mem_reverse] at he
      unfold iteration_order at he
      obtain ⟨b, hb, heb⟩ := List.mem_flatten.mp he
      obtain ⟨w, hw, rfl⟩ := List.mem_map.mp hb
      obtain ⟨j, hj⟩ := List.mem_iff_getElem?.mp hw
      have hgt := habove j w (by omega) hj
      have hkey := entry_block_key w e heb
      simp only [decide_eq_true_eq, hkey]
      rintro (h | ⟨h, _⟩)
      · exact absurd (lt_trans h hgt) (lt_irrefl _)
      · rw [h] at hgt
        exact absurd hgt (lt_irrefl _)
    simp only [hc0, if_true, hnone, Option.map_none']
    exact ⟨_, rfl, fun p hp => by cases hp⟩
  · -- the last word that is not above the key
    have hcpos : c - 1 < t.length := by omega
    obtain ⟨w, hw⟩ := getElem?_some_of_lt t _ hcpos
    have hle := hbelow (c - 1) w (by omega) hw
    have hvok := hok.2 w (List.getElem?_mem hw)
    obtain ⟨hpos, hlt32, hinit, hsorted⟩ := hvok
    have hclen := contents_length w.2 hinit
    have hG := find_flatten_reverse_at (fun e : K × EntryPtr =>
        decide (e.1 < fk ∨ (e.1 = fk ∧ toff ≤ (entries e.2).offset))) (c - 1)
      (t.map entry_block) (by simpa using hcpos)
      (by
        intro j b hj hb e he
        rw [List.getElem?_map] at hb
        cases hwj : t[j]? with
        | none => simp [hwj] at hb
        | some wj =>
          simp only [hwj, Option.map_some', Option.some.injEq] at hb
          subst hb
          have hgt := habove j wj (by omega) hwj
          have hkey := entry_block_key wj e he
          simp only [decide_eq_false_iff_not, hkey]
          rintro (h | ⟨h, _⟩)
          · exact absurd (lt_trans h hgt) (lt_irrefl _)
          · rw [h] at hgt
            exact absurd hgt (lt_irrefl _))
      (by
        intro b hpos1 hb
        rw [List.getElem?_map] at hb
        cases hwj : t[c - 1 - 1]? with
        | none => simp [hwj] at hb
        | some wj =>
          simp only [hwj, Option.map_some', Option.some.injEq] at hb
          subst hb
          have hasc := index_keys_ascending entries t hok (c - 1 - 1) (c - 1) wj w (by omega)
            hwj hw
          obtain ⟨p, _, rest, hrest⟩ := block_last entries wj (hok.2 wj (List.getElem?_mem hwj))
          refine ⟨(wj.1, p), rest, hrest, ?_⟩
          simp only [decide_eq_true_eq]
          left
          exact lt_of_lt_of_le hasc hle)
    unfold iteration_order
    rw [hG]
    clear hG
    simp only [hc0, if_false, getvector_mk t _ _ _ w hw, ADFA_LexIterator.word, hw,
      Option.map_some', Option.some.injEq, List.getElem?_map, offsets_ok entries w.2 hinit,
      Option.bind_eq_bind, Option.some_bind, entry_block_reverse]
    have hlb_le : lower_bound_0 (w.2.contents.map (fun p => (entries p).offset)) toff ≤
        w.2.size := by
      have : (w.2.contents.map (fun p => (entries p).offset)).findIdx
          (fun x => decide (toff ≤ x)) ≤
          (w.2.contents.map (fun p => (entries p).offset)).length := List.findIdx_le_length _
      simp only [List.length_map, hclen] at this
      exact this
    have hmod : lower_bound_0 (w.2.contents.map (fun p => (entries p).offset)) toff %
        4294967296 = lower_bound_0 (w.2.contents.map (fun p => (entries p).offset)) toff :=
      Nat.mod_eq_of_lt (by omega)
    by_cases hk : w.1 = fk
    · -- the word is the key: look for the offset in its vector
      have hblock : (w.2.contents.map (fun p => (w.1, p))).find? (fun e =>
          decide (e.1 < fk ∨ (e.1 = fk ∧ toff ≤ (entries e.2).offset))) =
          (w.2.contents[lower_bound_0 (w.2.contents.map
            (fun p => (entries p).offset)) toff]?).map (fun p => (w.1, p)) := by
        rw [List.find?_map, ← find_lower (fun p => (entries p).offset) toff w.2.contents]
        congr 1
        apply find_congr
        intro p _
        simp only [Function.comp, hk, lt_irrefl, true_and, false_or]
      rw [hblock]
      simp only [hk, if_true, hmod]
      by_cases hlb : lower_bound_0 (w.2.contents.map (fun p => (entries p).offset)) toff =
          w.2.size
      · -- every offset is below the target's: go to the previous word
        have hnone : w.2.contents[w.2.size]? = none := List.getElem?_eq_none (by omega)
        simp only [hlb, ne_eq, not_true_eq_false, if_false, hnone, Option.map_none',
          Option.none_or]
        unfold ADFA_LexIterator.decr
        by_cases hc1 : c - 1 = 0
        · simp only [hc1, if_true]
          exact ⟨_, rfl, fun p hp => by cases hp⟩
        · obtain ⟨m, hm⟩ : ∃ m, c - 1 = m + 1 := ⟨c - 1 - 1, by omega⟩
          have hm' : c - 1 - 1 = m := by omega
          rw [hm] at hw
          have hmlen : m < t.length := by omega
          obtain ⟨w', hw'⟩ := getElem?_some_of_lt t _ hmlen
          have hasc := index_keys_ascending entries t hok m (m + 1) w' w (by omega) hw' hw
          have hvok' := hok.2 w' (List.getElem?_mem hw')
          obtain ⟨p, hp, rest, hrest⟩ := block_last entries w' hvok'
          simp only [hm, hm', Nat.add_one_ne_zero, if_false, Nat.add_sub_cancel,
            getvector_mk t _ _ _ w' hw', hw',
            Option.map_some', Option.some_bind, hrest, List.head?_cons]
          rw [seek_for_prev_finish_ok entries t fk _ m w' p rfl hw' hvok'
            (by rw [← hk]; exact hasc) hp]
          refine ⟨_, rfl, ?_⟩
          intro q hq
          simp only [Option.some.injEq] at hq
          subst hq
          exact ⟨m, w', rfl, hw', by have := hvok'.1; simp only; omega, hp⟩
      · -- the entry at the lower bound
        have hlt : lower_bound_0 (w.2.contents.map (fun p => (entries p).offset)) toff <
            w.2.contents.length := by omega
        obtain ⟨p, hp⟩ := getElem?_some_of_lt w.2.contents _ hlt
        simp only [ne_eq, hlb, not_false_eq_true, if_true, value_at_slot w.2 hinit _ p hp, hp,
          Option.map_some', Option.or_some]
        refine ⟨_, rfl, ?_⟩
        intro q hq
        simp only [Option.some.injEq] at hq
        subst hq
        exact ⟨c - 1, w, rfl, hw, by simp only; omega, hp⟩
    · -- the word is below the key: its last entry in iteration order
      have hlt : w.1 < fk := lt_of_le_of_ne hle hk
      obtain ⟨p, hp, rest, hrest⟩ := block_last entries w ⟨hpos, hlt32, hinit, hsorted⟩
      rw [entry_block_reverse] at hrest
      have hP : (fun e : K × EntryPtr =>
          decide (e.1 < fk ∨ (e.1 = fk ∧ toff ≤ (entries e.2).offset))) (w.1, p) = true := by
        simp only [decide_eq_true_eq]
        left
        exact hlt
      have hfind : List.find? (fun e : K × EntryPtr =>
          decide (e.1 < fk ∨ (e.1 = fk ∧ toff ≤ (entries e.2).offset))) ((w.1, p) :: rest) =
          some (w.1, p) := List.find?_cons_of_pos _ hP
      simp only [hk, if_false, hrest, hfind, Option.or_some, Option.map_some']
      rw [seek_for_prev_finish_ok entries t fk _ (c - 1) w p rfl hw
        ⟨hpos, hlt32, hinit, hsorted⟩ hlt hp]
      refine ⟨_, rfl, ?_⟩
      intro q hq
      simp only [Option.some.injEq] at hq
      subst hq
      exact ⟨c - 1, w, rfl, hw, by simp only; omega, hp⟩

/-- C16 (witness): on the example index, whose iteration order is 105, 104,
103, 102, 101, 205, 306, 301, `SeekForPrev` of a target with key 2 and offset
206 finds no entry of key 2 with offset `>= 206` and returns 101, the last
entry of key 1, leaving the iterator on it. -/
theorem C16_seek_for_prev_witness :
    IndexOK example_entries example_index ∧
      ∃ it' : IteratorImplWithOffset,
        IteratorImplWithOffset.SeekForPrev example_entries example_extractor example_index
          (IteratorImplWithOffset.create example_index) 206 = Except.ok (some 101, it') ∧
        it'.positioned_on example_index 101 := by
  obtain ⟨it', hres, _, hpos⟩ := C16_seek_for_prev example_entries example_extractor
    example_index (IteratorImplWithOffset.create example_index) 206 example_index_ok
  have hfind : ((iteration_order example_index).reverse.find? (fun e =>
      decide (e.1 < example_extractor (example_entries 206) ∨
        (e.1 = example_extractor (example_entries 206) ∧
          (example_entries 206).offset ≤ (example_entries e.2).offset)))).map Prod.snd =
      some 101 := by decide
  rw [hfind] at hres
  exact ⟨example_index_ok, it', hres, hpos 101 hfind⟩

/-! ### Stepping the iterator -/

/-- When `Update` does not refresh the token it leaves the iterator as it
is. -/
theorem update_quiet {K V : Type} (t : Patricia K V) (it : IteratorImplWithOffset)
    (h : (IteratorImplWithOffset.Update t it).1 = false) :
    IteratorImplWithOffset.Update t it = (false, it) := by
  unfold IteratorImplWithOffset.Update at h ⊢
  split
  · rename_i hgt
    simp [hgt] at h
  · rfl

/-- Whether `Update` refreshes the token depends on `num_words` only. -/
theorem update_quiet_of_num_words {K V : Type} (t : Patricia K V)
    (it it' : IteratorImplWithOffset) (hn : it'.num_words = it.num_words)
    (h : (IteratorImplWithOffset.Update t it).1 = false) :
    (IteratorImplWithOffset.Update t it').1 = false := by
  unfold IteratorImplWithOffset.Update at h ⊢
  rw [hn]
  split
  · rename_i hgt
    simp [hgt] at h
  · rfl

/-- On an unchanging index a second `Update` never refreshes the token. -/
theorem update_quiet_after {K V : Type} (t : Patricia K V) (it0 : IteratorImplWithOffset) :
    (IteratorImplWithOffset.Update t (IteratorImplWithOffset.Update t it0).2).1 = false := by
  unfold IteratorImplWithOffset.Update
  by_cases h : (t.length + 18446744073709551616 - it0.num_words) % 18446744073709551616 >
      num_words_update
  · have h0 : ¬ ((t.length + 18446744073709551616 - t.length) % 18446744073709551616 >
        num_words_update) := by
      have : t.length + 18446744073709551616 - t.length = 18446744073709551616 := by omega
      rw [this]
      simp [num_words_update]
    simp only [h, if_true, h0, if_false]
  · simp only [h, if_false]

/-- With no token refresh the start of `Next` and `Prev` leaves the iterator
as it is. -/
theorem refresh_quiet {K P : Type} [LinearOrder K]
    (entries : EntryPtr → WriteBatchIndexEntry P) (extractor : WriteBatchIndexEntry P → K)
    (t : Patricia K value_vector_t) (it : IteratorImplWithOffset) (curr : Option EntryPtr)
    (h : (IteratorImplWithOffset.Update t it).1 = false) :
    IteratorImplWithOffset.refresh entries extractor t it curr = Except.ok it := by
  unfold IteratorImplWithOffset.refresh
  rw [update_quiet t it h]
  simp

/-- `Next` inside a vector: one slot down. -/
theorem next_within {K P : Type} [LinearOrder K]
    (entries : EntryPtr → WriteBatchIndexEntry P) (extractor : WriteBatchIndexEntry P → K)
    (t : Patricia K value_vector_t) (i j nw : Nat) (curr : Option EntryPtr)
    (w : K × value_vector_t) (q : EntryPtr)
    (hq : (IteratorImplWithOffset.Update t ⟨some i, j, nw⟩).1 = false)
    (hw : t[i]? = some w) (hinit : w.2.initialised) (hj : 0 < j)
    (hp : w.2.contents[j - 1]? = some q) :
    IteratorImplWithOffset.Next entries extractor t ⟨some i, j, nw⟩ curr =
      Except.ok (some q, ⟨some i, j - 1, nw⟩) := by
  unfold IteratorImplWithOffset.Next
  rw [refresh_quiet entries extractor t _ curr hq]
  have hj0 : ¬ j = 0 := by omega
  simp only [hj0, if_false, getvector_mk t i j nw w hw, value_at_slot w.2 hinit _ q hp]

/-- `Next` from the first slot of a vector: the last slot of the vector of
the next word. -/
theorem next_word {K P : Type} [LinearOrder K]
    (entries : EntryPtr → WriteBatchIndexEntry P) (extractor : WriteBatchIndexEntry P → K)
    (t : Patricia K value_vector_t) (i nw : Nat) (curr : Option EntryPtr)
    (w : K × value_vector_t) (q : EntryPtr)
    (hq : (IteratorImplWithOffset.Update t ⟨some i, 0, nw⟩).1 = false)
    (hw : t[i + 1]? = some w) (hok : VectorOK entries w.2)
    (hp : w.2.contents[w.2.size - 1]? = some q) :
    IteratorImplWithOffset.Next entries extractor t ⟨some i, 0, nw⟩ curr =
      Except.ok (some q, ⟨some (i + 1), w.2.size - 1, nw⟩) := by
  obtain ⟨hpos, hlt32, hinit, _⟩ := hok
  unfold IteratorImplWithOffset.Next ADFA_LexIterator.incr
  rw [refresh_quiet entries extractor t _ curr hq]
  have hlen : i + 1 < t.length := (List.getElem?_eq_some.mp hw).1
  have hidx : (w.2.size + 18446744073709551616 - 1) % 18446744073709551616 % 4294967296 =
      w.2.size - 1 := by omega
  simp only [if_true, hlen, getvector_mk t (i + 1) 0 nw w hw, hidx,
    value_at_slot w.2 hinit _ q hp]

/-- `Next` from the first slot of the vector of the last word: null. -/
theorem next_end {K P : Type} [LinearOrder K]
    (entries : EntryPtr → WriteBatchIndexEntry P) (extractor : WriteBatchIndexEntry P → K)
    (t : Patricia K value_vector_t) (i nw : Nat) (curr : Option EntryPtr)
    (hq : (IteratorImplWithOffset.Update t ⟨some i, 0, nw⟩).1 = false)
    (hi : t.length ≤ i + 1) :
    IteratorImplWithOffset.Next entries extractor t ⟨some i, 0, nw⟩ curr =
      Except.ok (none, ⟨none, 4294967295, nw⟩) := by
  unfold IteratorImplWithOffset.Next ADFA_LexIterator.incr
  rw [refresh_quiet entries extractor t _ curr hq]
  have hlen : ¬ i + 1 < t.length := by omega
  simp only [if_true, hlen, if_false]

/-- `Prev` inside a vector: one slot up. -/
theorem prev_within {K P : Type} [LinearOrder K]
    (entries : EntryPtr → WriteBatchIndexEntry P) (extractor : WriteBatchIndexEntry P → K)
    (t : Patricia K value_vector_t) (i j nw : Nat) (curr : Option EntryPtr)
    (w : K × value_vector_t) (q : EntryPtr)
    (hq : (IteratorImplWithOffset.Update t ⟨some i, j, nw⟩).1 = false)
    (hw : t[i]? = some w) (hok : VectorOK entries w.2) (hj : j + 1 < w.2.size)
    (hp : w.2.contents[j + 1]? = some q) :
    IteratorImplWithOffset.Prev entries extractor t ⟨some i, j, nw⟩ curr =
      Except.ok (some q, ⟨some i, j + 1, nw⟩) := by
  obtain ⟨hpos, hlt32, hinit, _⟩ := hok
  unfold IteratorImplWithOffset.Prev
  rw [refresh_quiet entries extractor t _ curr hq]
  have hmod : (j + 1) % 4294967296 = j + 1 := Nat.mod_eq_of_lt (by omega)
  have hne : ¬ j + 1 = w.2.size := by omega
  simp only [getvector_mk t i j nw w hw, hmod, hne, if_false,
    value_at_slot w.2 hinit _ q hp]

/-- `Prev` from the last slot of a vector: the first slot of the vector of
the previous word. -/
theorem prev_word {K P : Type} [LinearOrder K]
    (entries : EntryPtr → WriteBatchIndexEntry P) (extractor : WriteBatchIndexEntry P → K)
    (t : Patricia K value_vector_t) (i j nw : Nat) (curr : Option EntryPtr)
    (w w' : K × value_vector_t) (q : EntryPtr)
    (hq : (IteratorImplWithOffset.Update t ⟨some (i + 1), j, nw⟩).1 = false)
    (hw : t[i + 1]? = some w) (hok : VectorOK entries w.2) (hj : j + 1 = w.2.size)
    (hw' : t[i]? = some w') (hinit' : w'.2.initialised)
    (hp : w'.2.contents[0]? = some q) :
    IteratorImplWithOffset.Prev entries extractor t ⟨some (i + 1), j, nw⟩ curr =
      Except.ok (some q, ⟨some i, 0, nw⟩) := by
  obtain ⟨hpos, hlt32, hinit, _⟩ := hok
  unfold IteratorImplWithOffset.Prev ADFA_LexIterator.decr
  rw [refresh_quiet entries extractor t _ curr hq]
  have hmod : (j + 1) % 4294967296 = w.2.size := by
    rw [Nat.mod_eq_of_lt (by omega), hj]
  simp only [getvector_mk t (i + 1) j nw w hw, hmod, if_true,
    getvector_mk t i j nw w' hw', value_at_slot w'.2 hinit' _ q hp]

/-- `Prev` from the last slot of the vector of the first word: null. -/
theorem prev_begin {K P : Type} [LinearOrder K]
    (entries : EntryPtr → WriteBatchIndexEntry P) (extractor : WriteBatchIndexEntry P → K)
    (t : Patricia K value_vector_t) (j nw : Nat) (curr : Option EntryPtr)
    (w : K × value_vector_t)
    (hq : (IteratorImplWithOffset.Update t ⟨some 0, j, nw⟩).1 = false)
    (hw : t[0]? = some w) (hok : VectorOK entries w.2) (hj : j + 1 = w.2.size) :
    IteratorImplWithOffset.Prev entries extractor t ⟨some 0, j, nw⟩ curr =
      Except.ok (none, ⟨none, w.2.size, nw⟩) := by
  obtain ⟨hpos, hlt32, hinit, _⟩ := hok
  unfold IteratorImplWithOffset.Prev ADFA_LexIterator.decr
  rw [refresh_quiet entries extractor t _ curr hq]
  have hmod : (j + 1) % 4294967296 = w.2.size := by
    rw [Nat.mod_eq_of_lt (by omega), hj]
  simp only [getvector_mk t 0 j nw w hw, hmod, if_true]

/-! ### Full scans -/

/-- The pointers of a block: the vector from its last slot to its first. -/
theorem entry_block_snd {K : Type} (w : K × value_vector_t) :
    (entry_block w).map Prod.snd = w.2.contents.reverse := by
  unfold entry_block
  rw [List.map_map]
  exact List.map_id _

/-- The entries from word `i` on: those of word `i`, then those from word
`i + 1` on. -/
theorem blocks_drop {K : Type} (t : Patricia K value_vector_t) (i : Nat)
    (w : K × value_vector_t) (hw : t[i]? = some w) :
    ((t.drop i).map entry_block).flatten.map Prod.snd =
      w.2.contents.reverse ++ ((t.drop (i + 1)).map entry_block).flatten.map Prod.snd := by
  obtain ⟨hlt, rfl⟩ := List.getElem?_eq_some.mp hw
  rw [List.drop_eq_getElem_cons hlt, List.map_cons, List.flatten_cons, List.map_append,
    entry_block_snd]

/-- The entries before word `i + 1`, read backwards: those of word `i` from
the first slot on, then those before word `i` read backwards. -/
theorem blocks_take {K : Type} (t : Patricia K value_vector_t) (i : Nat)
    (w : K × value_vector_t) (hw : t[i]? = some w) :
    (((t.take (i + 1)).map entry_block).flatten.map Prod.snd).reverse =
      w.2.contents ++ (((t.take i).map entry_block).flatten.map Prod.snd).reverse := by
  rw [List.take_succ, hw]
  simp only [Option.toList, List.map_append, List.map_cons, List.map_nil, List.flatten_append,
    List.flatten_cons, List.flatten_nil, List.append_nil, List.reverse_append, entry_block_snd,
    List.reverse_reverse]

/-- The forward loop stops at once on an iterator that is not valid. -/
theorem visit_next_null {K P : Type} [LinearOrder K]
    (entries : EntryPtr → WriteBatchIndexEntry P) (extractor : WriteBatchIndexEntry P → K)
    (t : Patricia K value_vector_t) (fuel : Nat) (it : PTrieIterator) (h : it.key_ = none) :
    PTrieIterator.visit_next entries extractor t fuel it = Except.ok ([], it) := by
  cases fuel with
  | zero => rfl
  | succ n => simp only [PTrieIterator.visit_next, h]

/-- The backward loop stops at once on an iterator that is not valid. -/
theorem visit_prev_null {K P : Type} [LinearOrder K]
    (entries : EntryPtr → WriteBatchIndexEntry P) (extractor : WriteBatchIndexEntry P → K)
    (t : Patricia K value_vector_t) (fuel : Nat) (it : PTrieIterator) (h : it.key_ = none) :
    PTrieIterator.visit_prev entries extractor t fuel it = Except.ok ([], it) := by
  cases fuel with
  | zero => rfl
  | succ n => simp only [PTrieIterator.visit_prev, h]

/-- The forward loop from slot `j` of word `i`: it visits the slots of the
word from `j` down to the first, then every entry of the later words, and
stops on an iterator that is not valid. -/
theorem visit_next_from {K P : Type} [LinearOrder K]
    (entries : EntryPtr → WriteBatchIndexEntry P) (extractor : WriteBatchIndexEntry P → K)
    (t : Patricia K value_vector_t) (hok : IndexOK entries t) (nw : Nat)
    (hquiet : ∀ a b, (IteratorImplWithOffset.Update t ⟨a, b, nw⟩).1 = false) :
    ∀ (fuel i j : Nat) (w : K × value_vector_t) (p : EntryPtr),
      t[i]? = some w → w.2.contents[j]? = some p →
      ((w.2.contents.take (j + 1)).reverse ++
        ((t.drop (i + 1)).map entry_block).flatten.map Prod.snd).length ≤ fuel →
      ∃ last, PTrieIterator.visit_next entries extractor t fuel ⟨⟨some i, j, nw⟩, some p⟩ =
          Except.ok ((w.2.contents.take (j + 1)).reverse ++
            ((t.drop (i + 1)).map entry_block).flatten.map Prod.snd, last) ∧
        last.key_ = none := by
  intro fuel
  induction fuel with
  | zero =>
    intro i j w p hw hp hfuel
    have hjlt := (List.getElem?_eq_some.mp hp).1
    simp only [List.length_append, List.length_reverse, List.length_take] at hfuel
    omega
  | succ n ih =>
    intro i j w p hw hp hfuel
    have hjlt := (List.getElem?_eq_some.mp hp).1
    have hvok := hok.2 w (List.getElem?_mem hw)
    have hinit := hvok.2.2.1
    have hlen := contents_length w.2 hinit
    have htake : (w.2.contents.take (j + 1)).reverse = p :: (w.2.contents.take j).reverse := by
      rw [List.take_succ, hp]
      simp only [Option.toList, List.reverse_append, List.reverse_cons, List.reverse_nil,
        List.nil_append, List.singleton_append]
    rw [htake] at hfuel ⊢
    simp only [List.cons_append, List.length_cons] at hfuel ⊢
    simp only [PTrieIterator.visit_next, PTrieIterator.Next]
    by_cases hj0 : j = 0
    · subst hj0
      simp only [List.take_zero, List.reverse_nil, List.nil_append] at hfuel ⊢
      by_cases hlast : i + 1 < t.length
      · obtain ⟨w', hw'⟩ := getElem?_some_of_lt t _ hlast
        have hvok' := hok.2 w' (List.getElem?_mem hw')
        have hlen' := contents_length w'.2 hvok'.2.2.1
        obtain ⟨q, hq1, _⟩ := block_head entries w' hvok'
        rw [next_word entries extractor t i nw (some p) w' q (hquiet _ _) hw' hvok' hq1]
        have hfull : w'.2.contents.take (w'.2.size - 1 + 1) = w'.2.contents := by
          apply List.take_of_length_le
          omega
        have hrest := blocks_drop t (i + 1) w' hw'
        obtain ⟨last, hrun, hnull⟩ := ih (i + 1) (w'.2.size - 1) w' q hw' hq1
          (by rw [hfull, ← hrest]; omega)
        rw [hfull, ← hrest] at hrun
        simp only [PTrieIterator.assign, hrun]
        exact ⟨last, rfl, hnull⟩
      · rw [next_end entries extractor t i nw (some p) (hquiet _ _) (by omega)]
        have hnil : t.drop (i + 1) = [] := List.drop_eq_nil_of_le (by omega)
        simp only [PTrieIterator.assign, hnil, List.map_nil, List.flatten_nil,
          visit_next_null entries extractor t n ⟨⟨none, 4294967295, nw⟩, none⟩ rfl]
        exact ⟨_, rfl, rfl⟩
    · have hlt : j - 1 < w.2.contents.length := by omega
      obtain ⟨q, hq1⟩ := getElem?_some_of_lt w.2.contents _ hlt
      rw [next_within entries extractor t i j nw (some p) w q (hquiet _ _) hw hinit
        (by omega) hq1]
      have hjj : j - 1 + 1 = j := by omega
      obtain ⟨last, hrun, hnull⟩ := ih i (j - 1) w q hw hq1 (by rw [hjj]; omega)
      rw [hjj] at hrun
      simp only [PTrieIterator.assign, hrun]
      exact ⟨last, rfl, hnull⟩

/-- The backward loop from slot `j` of word `i`: it visits the slots of the
word from `j` up to the last, then every entry of the earlier words
backwards, and stops on an iterator that is not valid. -/
theorem visit_prev_from {K P : Type} [LinearOrder K]
    (entries : EntryPtr → WriteBatchIndexEntry P) (extractor : WriteBatchIndexEntry P → K)
    (t : Patricia K value_vector_t) (hok : IndexOK entries t) (nw : Nat)
    (hquiet : ∀ a b, (IteratorImplWithOffset.Update t ⟨a, b, nw⟩).1 = false) :
    ∀ (fuel i j : Nat) (w : K × value_vector_t) (p : EntryPtr),
      t[i]? = some w → w.2.contents[j]? = some p →
      (w.2.contents.drop j ++
        (((t.take i).map entry_block).flatten.map Prod.snd).reverse).length ≤ fuel →
      ∃ last, PTrieIterator.visit_prev entries extractor t fuel ⟨⟨some i, j, nw⟩, some p⟩ =
          Except.ok (w.2.contents.drop j ++
            (((t.take i).map entry_block).flatten.map Prod.snd).reverse, last) ∧
        last.key_ = none := by
  intro fuel
  induction fuel with
  | zero =>
    intro i j w p hw hp hfuel
    have hjlt := (List.getElem?_eq_some.mp hp).1
    simp only [List.length_append, List.length_drop] at hfuel
    omega
  | succ n ih =>
    intro i j w p hw hp hfuel
    obtain ⟨hjlt, hpe⟩ := List.getElem?_eq_some.mp hp
    have hvok := hok.2 w (List.getElem?_mem hw)
    have hinit := hvok.2.2.1
    have hlen := contents_length w.2 hinit
    have hdrop : w.2.contents.drop j = p :: w.2.contents.drop (j + 1) := by
      rw [List.drop_eq_getElem_cons hjlt, hpe]
    rw [hdrop] at hfuel ⊢
    simp only [List.cons_append, List.length_cons] at hfuel ⊢
    simp only [PTrieIterator.visit_prev, PTrieIterator.Prev]
    by_cases hjs : j + 1 < w.2.size
    · have hlt : j + 1 < w.2.contents.length := by omega
      obtain ⟨q, hq1⟩ := getElem?_some_of_lt w.2.contents _ hlt
      rw [prev_within entries extractor t i j nw (some p) w q (hquiet _ _) hw hvok hjs hq1]
      obtain ⟨last, hrun, hnull⟩ := ih i (j + 1) w q hw hq1 (by omega)
      simp only [PTrieIterator.assign, hrun]
      exact ⟨last, rfl, hnull⟩
    · have hjeq : j + 1 = w.2.size := by omega
      have hnil : w.2.contents.drop (j + 1) = [] := List.drop_eq_nil_of_le (by omega)
      rw [hnil] at hfuel ⊢
      simp only [List.nil_append] at hfuel ⊢
      cases i with
      | zero =>
        rw [prev_begin entries extractor t j nw (some p) w (hquiet _ _) hw hvok hjeq]
        simp only [PTrieIterator.assign, List.take_zero, List.map_nil, List.flatten_nil,
          List.reverse_nil,
          visit_prev_null entries extractor t n ⟨⟨none, w.2.size, nw⟩, none⟩ rfl]
        exact ⟨_, rfl, rfl⟩
      | succ m =>
        have hmlen : m < t.length := by
          have := (List.getElem?_eq_some.mp hw).1
          omega
        obtain ⟨w', hw'⟩ := getElem?_some_of_lt t _ hmlen
        have hvok' := hok.2 w' (List.getElem?_mem hw')
        obtain ⟨q, hq1, _⟩ := block_last entries w' hvok'
        rw [prev_word entries extractor t m j nw (some p) w w' q (hquiet _ _) hw hvok hjeq hw'
          hvok'.2.2.1 hq1]
        have hrest := blocks_take t m w' hw'
        obtain ⟨last, hrun, hnull⟩ := ih m 0 w' q hw' hq1
          (by rw [List.drop_zero, ← hrest]; omega)
        rw [List.drop_zero, ← hrest] at hrun
        simp only [PTrieIterator.assign, hrun]
        exact ⟨last, rfl, hnull⟩
/-- After any `Update` no later `Update` on the unchanging index refreshes
the token, whatever the position of the iterator. -/
theorem update_quiet_from {K V : Type} (t : Patricia K V) (it0 : IteratorImplWithOffset)
    (a : Option Nat) (b : Nat) :
    (IteratorImplWithOffset.Update t
      ⟨a, b, (IteratorImplWithOffset.Update t it0).2.num_words⟩).1 = false :=
  update_quiet_of_num_words t (IteratorImplWithOffset.Update t it0).2 _ rfl
    (update_quiet_after t it0)

/-- `SeekToFirst` and the forward loop: the whole iteration order. -/
theorem seek_to_first_scan {K P : Type} [LinearOrder K]
    (entries : EntryPtr → WriteBatchIndexEntry P) (extractor : WriteBatchIndexEntry P → K)
    (t : Patricia K value_vector_t) (self : PTrieIterator) (fuel : Nat)
    (hok : IndexOK entries t) (hfuel : (iteration_order t).length ≤ fuel) :
    ∃ first last, PTrieIterator.SeekToFirst t self = Except.ok first ∧
      first.key_ = ((iteration_order t).map Prod.snd).head? ∧
      PTrieIterator.visit_next entries extractor t fuel first =
        Except.ok ((iteration_order t).map Prod.snd, last) ∧
      last.key_ = none := by
  unfold PTrieIterator.SeekToFirst IteratorImplWithOffset.SeekToFirst
    ADFA_LexIterator.seek_begin
  by_cases hlen : 0 < t.length
  · obtain ⟨w, hw⟩ := getElem?_some_of_lt t _ hlen
    have hvok := hok.2 w (List.getElem?_mem hw)
    have hclen := contents_length w.2 hvok.2.2.1
    obtain ⟨q, hq1, _⟩ := block_head entries w hvok
    have hidx : (w.2.size + 18446744073709551616 - 1) % 18446744073709551616 % 4294967296 =
        w.2.size - 1 := by
      have := hvok.1
      have := hvok.2.1
      omega
    have hfull : w.2.contents.take (w.2.size - 1 + 1) = w.2.contents := by
      apply List.take_of_length_le
      have := hvok.1
      omega
    have horder : (iteration_order t).map Prod.snd =
        (w.2.contents.take (w.2.size - 1 + 1)).reverse ++
          ((t.drop (0 + 1)).map entry_block).flatten.map Prod.snd := by
      rw [hfull, ← blocks_drop t 0 w hw, List.drop_zero]
      rfl
    obtain ⟨last, hrun, hnull⟩ := visit_next_from entries extractor t hok
      (IteratorImplWithOffset.Update t self.impl_).2.num_words
      (update_quiet_from t self.impl_) fuel 0 (w.2.size - 1) w q hw hq1
      (by rw [← horder, List.length_map]; exact hfuel)
    rw [← horder] at hrun
    simp only [hlen, if_true, getvector_mk t _ _ _ w hw, hidx,
      value_at_slot w.2 hvok.2.2.1 _ q hq1, PTrieIterator.assign]
    refine ⟨_, last, rfl, ?_, hrun, hnull⟩
    have htake : (w.2.contents.take (w.2.size - 1 + 1)).reverse =
        q :: (w.2.contents.take (w.2.size - 1)).reverse := by
      rw [List.take_succ, hq1]
      simp only [Option.toList, List.reverse_append, List.reverse_cons, List.reverse_nil,
        List.nil_append, List.singleton_append]
    rw [horder, htake]
    rfl
  · have hnil : t = [] := List.length_eq_zero.mp (by omega)
    subst hnil
    simp only [List.length_nil, lt_irrefl, if_false, PTrieIterator.assign]
    exact ⟨_, _, rfl, rfl, visit_next_null entries extractor [] fuel _ rfl, rfl⟩

/-- `SeekToLast` and the backward loop: the whole iteration order read
backwards. -/
theorem seek_to_last_scan {K P : Type} [LinearOrder K]
    (entries : EntryPtr → WriteBatchIndexEntry P) (extractor : WriteBatchIndexEntry P → K)
    (t : Patricia K value_vector_t) (self : PTrieIterator) (fuel : Nat)
    (hok : IndexOK entries t) (hfuel : (iteration_order t).length ≤ fuel) :
    ∃ first last, PTrieIterator.SeekToLast t self = Except.ok first ∧
      first.key_ = (((iteration_order t).map Prod.snd).reverse).head? ∧
      PTrieIterator.visit_prev entries extractor t fuel first =
        Except.ok (((iteration_order t).map Prod.snd).reverse, last) ∧
      last.key_ = none := by
  unfold PTrieIterator.SeekToLast IteratorImplWithOffset.SeekToLast
    ADFA_LexIterator.seek_end
  by_cases hlen : 0 < t.length
  · have hmlt : t.length - 1 < t.length := by omega
    obtain ⟨w, hw⟩ := getElem?_some_of_lt t _ hmlt
    have hvok := hok.2 w (List.getElem?_mem hw)
    obtain ⟨q, hq1, _⟩ := block_last entries w hvok
    have hall : t.take (t.length - 1 + 1) = t := List.take_of_length_le (by omega)
    have horder : ((iteration_order t).map Prod.snd).reverse =
        w.2.contents.drop 0 ++
          (((t.take (t.length - 1)).map entry_block).flatten.map Prod.snd).reverse := by
      rw [List.drop_zero, ← blocks_take t (t.length - 1) w hw, hall]
      rfl
    obtain ⟨last, hrun, hnull⟩ := visit_prev_from entries extractor t hok
      (IteratorImplWithOffset.Update t self.impl_).2.num_words
      (update_quiet_from t self.impl_) fuel (t.length - 1) 0 w q hw hq1
      (by rw [← horder, List.length_reverse, List.length_map]; exact hfuel)
    rw [← horder] at hrun
    simp only [hlen, if_true, getvector_mk t _ _ _ w hw,
      value_at_slot w.2 hvok.2.2.1 _ q hq1, PTrieIterator.assign]
    refine ⟨_, last, rfl, ?_, hrun, hnull⟩
    obtain ⟨hjlt, hpe⟩ := List.getElem?_eq_some.mp hq1
    rw [horder, List.drop_eq_getElem_cons hjlt, hpe]
    rfl
  · have hnil : t = [] := List.length_eq_zero.mp (by omega)
    subst hnil
    simp only [List.length_nil, lt_irrefl, if_false, PTrieIterator.assign]
    exact ⟨_, _, rfl, rfl, visit_prev_null entries extractor [] fuel _ rfl, rfl⟩

/-- The iteration order of a well-formed index is sorted: words ascending,
and within one word offsets descending. -/
theorem iteration_order_sorted {K P : Type} [LinearOrder K]
    (entries : EntryPtr → WriteBatchIndexEntry P) (t : Patricia K value_vector_t)
    (hok : IndexOK entries t) :
    List.Pairwise (fun a b : K × EntryPtr =>
      a.1 < b.1 ∨ (a.1 = b.1 ∧ (entries b.2).offset < (entries a.2).offset))
      (iteration_order t) := by
  unfold iteration_order
  rw [List.pairwise_flatten]
  constructor
  · intro b hb
    obtain ⟨w, hw, rfl⟩ := List.mem_map.mp hb
    have hsorted := (hok.2 w hw).2.2.2
    unfold entry_block
    rw [List.pairwise_map, List.pairwise_reverse]
    rw [List.pairwise_map] at hsorted
    exact hsorted.imp (fun h => Or.inr ⟨rfl, h⟩)
  · rw [List.pairwise_map]
    have hasc := hok.1
    rw [List.pairwise_map] at hasc
    refine hasc.imp ?_
    intro a b hab x hx y hy
    left
    rw [entry_block_key a x hx, entry_block_key b y hy]
    exact hab

/-- The iteration order holds every stored entry exactly once. -/
theorem iteration_order_perm {K : Type} (t : Patricia K value_vector_t) :
    ((iteration_order t).map Prod.snd).Perm (t.map (fun w => w.2.contents)).flatten := by
  unfold iteration_order
  induction t with
  | nil => exact List.Perm.refl _
  | cons w rest ih =>
    simp only [List.map_cons, List.flatten_cons, List.map_append, entry_block_snd]
    exact List.Perm.append (List.reverse_perm _) ih
/-- C17: full scans of the iterator that keeps every entry.  On a well-formed
unchanging index, from any iterator state and with enough iterations allowed:
`SeekToFirst` followed by `Next` while the iterator is valid never fails,
visits exactly the iteration order and ends on a null iterator;
`SeekToLast` followed by `Prev` while the iterator is valid visits exactly the
reverse sequence and ends on a null iterator.  The iteration order is sorted
by ascending word and, within one word, by descending offset, and it holds
every stored entry exactly once.  On an empty index both `SeekToFirst` and
`SeekToLast` return null. -/
theorem C17_full_scan {K P : Type} [LinearOrder K]
    (entries : EntryPtr → WriteBatchIndexEntry P) (extractor : WriteBatchIndexEntry P → K)
    (t : Patricia K value_vector_t) (self : PTrieIterator) (fuel : Nat)
    (hok : IndexOK entries t) (hfuel : (iteration_order t).length ≤ fuel) :
    (∃ first last, PTrieIterator.SeekToFirst t self = Except.ok first ∧
      first.key_ = ((iteration_order t).map Prod.snd).head? ∧
      PTrieIterator.visit_next entries extractor t fuel first =
        Except.ok ((iteration_order t).map Prod.snd, last) ∧
      last.key_ = none) ∧
    (∃ first last, PTrieIterator.SeekToLast t self = Except.ok first ∧
      first.key_ = (((iteration_order t).map Prod.snd).reverse).head? ∧
      PTrieIterator.visit_prev entries extractor t fuel first =
        Except.ok (((iteration_order t).map Prod.snd).reverse, last) ∧
      last.key_ = none) ∧
    List.Pairwise (fun a b : K × EntryPtr =>
      a.1 < b.1 ∨ (a.1 = b.1 ∧ (entries b.2).offset < (entries a.2).offset))
      (iteration_order t) ∧
    ((iteration_order t).map Prod.snd).Perm (t.map (fun w => w.2.contents)).flatten ∧
    (t = [] →
      (∃ first, PTrieIterator.SeekToFirst t self = Except.ok first ∧ first.key_ = none) ∧
      (∃ first, PTrieIterator.SeekToLast t self = Except.ok first ∧ first.key_ = none)) := by
  refine ⟨seek_to_first_scan entries extractor t self fuel hok hfuel,
    seek_to_last_scan entries extractor t self fuel hok hfuel,
    iteration_order_sorted entries t hok, iteration_order_perm t, ?_⟩
  intro hnil
  subst hnil
  obtain ⟨f1, _, h1, hk1, _, _⟩ := seek_to_first_scan entries extractor
    ([] : Patricia K value_vector_t) self fuel hok hfuel
  obtain ⟨f2, _, h2, hk2, _, _⟩ := seek_to_last_scan entries extractor
    ([] : Patricia K value_vector_t) self fuel hok hfuel
  exact ⟨⟨f1, h1, hk1⟩, ⟨f2, h2, hk2⟩⟩

/-- C17 (witness): on the example index a fresh iterator, allowed eight
iterations, visits 105, 104, 103, 102, 101, 205, 306, 301 from `SeekToFirst`
with `Next` and 301, 306, 205, 101, 102, 103, 104, 105 from `SeekToLast` with
`Prev`, and both loops end on a null iterator. -/
theorem C17_full_scan_witness :
    IndexOK example_entries example_index ∧
    (iteration_order example_index).length ≤ 8 ∧
    (∃ first last, PTrieIterator.SeekToFirst example_index
        (PTrieIterator.create example_index) = Except.ok first ∧
      first.key_ = some 105 ∧
      PTrieIterator.visit_next example_entries example_extractor example_index 8 first =
        Except.ok ([105, 104, 103, 102, 101, 205, 306, 301], last) ∧
      last.key_ = none) ∧
    (∃ first last, PTrieIterator.SeekToLast example_index
        (PTrieIterator.create example_index) = Except.ok first ∧
      first.key_ = some 301 ∧
      PTrieIterator.visit_prev example_entries example_extractor example_index 8 first =
        Except.ok ([301, 306, 205, 101, 102, 103, 104, 105], last) ∧
      last.key_ = none) := by
  have horder : (iteration_order example_index).map Prod.snd =
      [105, 104, 103, 102, 101, 205, 306, 301] := by decide
  have h := C17_full_scan example_entries example_extractor example_index
    (PTrieIterator.create example_index) 8 example_index_ok (by decide)
  rw [horder] at h
  exact ⟨example_index_ok, by decide, h.1, h.2.1⟩
/-! ### Next and Prev are inverse -/

/-- C18: `Next` and `Prev` of the iterator that keeps every entry are mutually
inverse.  On a well-formed unchanging index, with the iterator on entry `e`
and no token refresh due, both calls return; if `Next` returns a non-null
entry, a `Prev` that follows at once returns `e` and leaves the iterator in
the state it had before `Next` (the same word position and the same index);
if `Prev` returns a non-null entry, a `Next` that follows at once returns `e`
and leaves the iterator in the state it had before `Prev`. -/
theorem C18_next_prev_inverse {K P : Type} [LinearOrder K]
    (entries : EntryPtr → WriteBatchIndexEntry P) (extractor : WriteBatchIndexEntry P → K)
    (t : Patricia K value_vector_t) (it : IteratorImplWithOffset) (e : EntryPtr)
    (hok : IndexOK entries t) (hon : it.positioned_on t e)
    (hquiet : (IteratorImplWithOffset.Update t it).1 = false) :
    (∃ r, IteratorImplWithOffset.Next entries extractor t it (some e) = Except.ok r) ∧
    (∃ r, IteratorImplWithOffset.Prev entries extractor t it (some e) = Except.ok r) ∧
    (∀ q it', IteratorImplWithOffset.Next entries extractor t it (some e) =
        Except.ok (some q, it') →
      IteratorImplWithOffset.Prev entries extractor t it' (some q) = Except.ok (some e, it)) ∧
    (∀ q it', IteratorImplWithOffset.Prev entries extractor t it (some e) =
        Except.ok (some q, it') →
      IteratorImplWithOffset.Next entries extractor t it' (some q) = Except.ok (some e, it)) := by
  obtain ⟨i, w, hi, hw, hj, hp⟩ := hon
  obtain ⟨iter, j, nw⟩ := it
  simp only at hi hj hp
  subst hi
  have hvok := hok.2 w (List.getElem?_mem hw)
  have hinit := hvok.2.2.1
  have hlen := contents_length w.2 hinit
  have hq' : ∀ a b, (IteratorImplWithOffset.Update t ⟨a, b, nw⟩).1 = false :=
    fun a b => update_quiet_of_num_words t ⟨some i, j, nw⟩ ⟨a, b, nw⟩ rfl hquiet
  -- the step forward
  have hnext : (∃ r, IteratorImplWithOffset.Next entries extractor t ⟨some i, j, nw⟩ (some e) =
        Except.ok r) ∧
      (∀ q it', IteratorImplWithOffset.Next entries extractor t ⟨some i, j, nw⟩ (some e) =
          Except.ok (some q, it') →
        IteratorImplWithOffset.Prev entries extractor t it' (some q) =
          Except.ok (some e, ⟨some i, j, nw⟩)) := by
    by_cases hj0 : j = 0
    · subst hj0
      by_cases hlast : i + 1 < t.length
      · obtain ⟨w', hw'⟩ := getElem?_some_of_lt t _ hlast
        have hvok' := hok.2 w' (List.getElem?_mem hw')
        obtain ⟨q', hq1, _⟩ := block_head entries w' hvok'
        have hstep := next_word entries extractor t i nw (some e) w' q' (hq' _ _) hw' hvok' hq1
        refine ⟨⟨_, hstep⟩, ?_⟩
        intro q it' hres
        rw [hstep] at hres
        simp only [Except.ok.injEq, Prod.mk.injEq, Option.some.injEq] at hres
        obtain ⟨rfl, rfl⟩ := hres
        exact prev_word entries extractor t i (w'.2.size - 1) nw (some q') w' w e (hq' _ _) hw'
          hvok' (by have := hvok'.1; omega) hw hinit hp
      · have hstep := next_end entries extractor t i nw (some e) (hq' _ _) (by omega)
        refine ⟨⟨_, hstep⟩, ?_⟩
        intro q it' hres
        rw [hstep] at hres
        simp at hres
    · have hlt : j - 1 < w.2.contents.length := by omega
      obtain ⟨q', hq1⟩ := getElem?_some_of_lt w.2.contents _ hlt
      have hstep := next_within entries extractor t i j nw (some e) w q' (hq' _ _) hw hinit
        (by omega) hq1
      refine ⟨⟨_, hstep⟩, ?_⟩
      intro q it' hres
      rw [hstep] at hres
      simp only [Except.ok.injEq, Prod.mk.injEq, Option.some.injEq] at hres
      obtain ⟨rfl, rfl⟩ := hres
      have hjj : j - 1 + 1 = j := by omega
      have := prev_within entries extractor t i (j - 1) nw (some q') w e (hq' _ _) hw hvok
        (by omega) (by rw [hjj]; exact hp)
      rw [hjj] at this
      exact this
  -- the step backward
  have hprev : (∃ r, IteratorImplWithOffset.Prev entries extractor t ⟨some i, j, nw⟩ (some e) =
        Except.ok r) ∧
      (∀ q it', IteratorImplWithOffset.Prev entries extractor t ⟨some i, j, nw⟩ (some e) =
          Except.ok (some q, it') →
        IteratorImplWithOffset.Next entries extractor t it' (some q) =
          Except.ok (some e, ⟨some i, j, nw⟩)) := by
    by_cases hjs : j + 1 < w.2.size
    · have hlt : j + 1 < w.2.contents.length := by omega
      obtain ⟨q', hq1⟩ := getElem?_some_of_lt w.2.contents _ hlt
      have hstep := prev_within entries extractor t i j nw (some e) w q' (hq' _ _) hw hvok
        hjs hq1
      refine ⟨⟨_, hstep⟩, ?_⟩
      intro q it' hres
      rw [hstep] at hres
      simp only [Except.ok.injEq, Prod.mk.injEq, Option.some.injEq] at hres
      obtain ⟨rfl, rfl⟩ := hres
      exact next_within entries extractor t i (j + 1) nw (some q') w e (hq' _ _) hw hinit
        (by omega) hp
    · have hjeq : j + 1 = w.2.size := by omega
      cases i with
      | zero =>
        have hstep := prev_begin entries extractor t j nw (some e) w (hq' _ _) hw hvok hjeq
        refine ⟨⟨_, hstep⟩, ?_⟩
        intro q it' hres
        rw [hstep] at hres
        simp at hres
      | succ m =>
        have hmlen : m < t.length := by
          have := (List.getElem?_eq_some.mp hw).1
          omega
        obtain ⟨w', hw'⟩ := getElem?_some_of_lt t _ hmlen
        have hvok' := hok.2 w' (List.getElem?_mem hw')
        obtain ⟨q', hq1, _⟩ := block_last entries w' hvok'
        have hstep := prev_word entries extractor t m j nw (some e) w w' q' (hq' _ _) hw hvok
          hjeq hw' hvok'.2.2.1 hq1
        refine ⟨⟨_, hstep⟩, ?_⟩
        intro q it' hres
        rw [hstep] at hres
        simp only [Except.ok.injEq, Prod.mk.injEq, Option.some.injEq] at hres
        obtain ⟨rfl, rfl⟩ := hres
        have hjs' : w.2.size - 1 = j := by omega
        have := next_word entries extractor t m nw (some q') w e (hq' _ _) hw hvok
          (by rw [hjs']; exact hp)
        rw [hjs'] at this
        exact this
  exact ⟨hnext.1, hprev.1, hnext.2, hprev.2⟩

/-- C18 (witness): on the example index, with the iterator on 101 (the first
slot of the vector of key 1), `Next` moves to 205 and the `Prev` that follows
returns 101 and restores the iterator; with the iterator on 306 (the last
slot of the vector of key 3), `Prev` moves to 205 and the `Next` that follows
returns 306 and restores the iterator. -/
theorem C18_next_prev_inverse_witness :
    IteratorImplWithOffset.positioned_on example_index ⟨some 0, 0, 3⟩ 101 ∧
      IteratorImplWithOffset.Next example_entries example_extractor example_index
        ⟨some 0, 0, 3⟩ (some 101) = Except.ok (some 205, ⟨some 1, 0, 3⟩) ∧
      IteratorImplWithOffset.Prev example_entries example_extractor example_index
        ⟨some 1, 0, 3⟩ (some 205) = Except.ok (some 101, ⟨some 0, 0, 3⟩) ∧
      IteratorImplWithOffset.positioned_on example_index ⟨some 2, 1, 3⟩ 306 ∧
      IteratorImplWithOffset.Prev example_entries example_extractor example_index
        ⟨some 2, 1, 3⟩ (some 306) = Except.ok (some 205, ⟨some 1, 0, 3⟩) ∧
      IteratorImplWithOffset.Next example_entries example_extractor example_index
        ⟨some 1, 0, 3⟩ (some 205) = Except.ok (some 306, ⟨some 2, 1, 3⟩) := by
  have hon1 : IteratorImplWithOffset.positioned_on example_index ⟨some 0, 0, 3⟩ 101 :=
    ⟨0, (1, ⟨5, [some 101, some 102, some 103, some 104, some 105, none, none, none]⟩),
      rfl, rfl, by decide, by decide⟩
  have hon2 : IteratorImplWithOffset.positioned_on example_index ⟨some 2, 1, 3⟩ 306 :=
    ⟨2, (3, ⟨2, [some 301, some 306]⟩), rfl, rfl, by decide, by decide⟩
  have h1 := C18_next_prev_inverse example_entries example_extractor example_index
    ⟨some 0, 0, 3⟩ 101 example_index_ok hon1 (by decide)
  have h2 := C18_next_prev_inverse example_entries example_extractor example_index
    ⟨some 2, 1, 3⟩ 306 example_index_ok hon2 (by decide)
  have hnext : IteratorImplWithOffset.Next example_entries example_extractor example_index
      ⟨some 0, 0, 3⟩ (some 101) = Except.ok (some 205, ⟨some 1, 0, 3⟩) := by rfl
  have hprev : IteratorImplWithOffset.Prev example_entries example_extractor example_index
      ⟨some 2, 1, 3⟩ (some 306) = Except.ok (some 205, ⟨some 1, 0, 3⟩) := by rfl
  exact ⟨hon1, hnext, h1.2.2.1 205 _ hnext, hon2, hprev, h2.2.2.2 205 _ hprev⟩

end Terark
